import Mathlib

/-!
# CODa replay harness of ORB_SLAM3: timestamps, sequence loading, pacing

A shallow embedding of

* `include/Timestamp.h`, `include/TimestampConversion.h`
  (`toDoubleInSeconds`, `toTimestampPair`),
* `Examples/Monocular/mono_coda.cc` and `Examples/Stereo/stereo_coda.cc`
  (`IsNumeric`, `GetFilePrefix`, `LoadImages`, and of `main` the argument
  loop, the playback loops with their pacing, and the final saves),

followed by the properties proved about them.

Conventions of the embedding.

* A `double` is the rational number it denotes (`ℚ`); infinities and NaN are
  not modelled. The arithmetic of `toDoubleInSeconds`, of `toTimestampPair`
  and of the wait of the playback loop is that of IEEE 754 binary64: each
  sum, difference and product is rounded on its own to the nearest double,
  a tie going to the even one (`fl`), and the literal `1e-9` is the double
  nearest to it. `IsDouble` singles out the rationals that are doubles.
  Conversions between doubles and integers (`floor`, `static_cast`) are
  modelled as the C++ conversions they are.
* The gap between two timestamps (`main_T`) is written as their exact
  difference, and the decimal reader that instantiates `std::stod` in the
  examples returns the decimal itself: the properties about them concern the
  entries that are read, not their last bit.
* `uint32_t` is a `Nat` reduced modulo `2 ^ 32` wherever the source narrows.
* `std::string` is `List Char`; `std::vector<T>` is `List T`.
* A loop that reads a stream takes a `fuel` argument bounding the number of
  iterations; `none` means the fuel ran out before the loop left.
-/

namespace ORB_SLAM3

/-! ## Definitions: the arithmetic of `double` -/

/-- Rounding of a rational to the nearest integer, a tie going to the even
one of the two neighbours. -/
def roundHalfEven (m : ℚ) : Int :=
  if m - ⌊m⌋ < 1 / 2 then ⌊m⌋
  else if 1 / 2 < m - ⌊m⌋ then ⌊m⌋ + 1
  else if ⌊m⌋ % 2 = 0 then ⌊m⌋ else ⌊m⌋ + 1

/-- Exponent of the binade of `x` in IEEE 754 binary64: the integer `e` with
`2 ^ e ≤ |x| < 2 ^ (e + 1)`, and `-1022` below the normal range. (At zero
the value is immaterial: zero rounds to zero.) -/
def exponentOf (x : ℚ) : Int := max (Int.log 2 |x|) (-1022)

/-- Unit in the last place at `x`: a double carries 52 fraction bits below
its leading bit, so the doubles of the binade of exponent `e` are
`2 ^ (e - 52)` apart. -/
def ulp (x : ℚ) : ℚ := 2 ^ (exponentOf x - 52)

/-- The double nearest to the rational `x`, ties to even: what an IEEE 754
binary64 operation returns when its exact result is `x`. Overflow to
infinity (`|x|` from `2 ^ 1024 - 2 ^ 970` on) is not modelled. -/
def fl (x : ℚ) : ℚ := (roundHalfEven (x / ulp x) : ℚ) * ulp x

/-- The finite doubles: the rationals that rounding keeps, of size below
`2 ^ 1024`. -/
def IsDouble (x : ℚ) : Prop := fl x = x ∧ |x| < 2 ^ 1024

instance : DecidablePred IsDouble :=
  fun x => inferInstanceAs (Decidable (fl x = x ∧ |x| < 2 ^ 1024))

/-! ## Definitions: `Timestamp.h`, `TimestampConversion.h` -/

/-- The `typedef std::pair<uint32_t, uint32_t> Timestamp;` seconds first,
nanoseconds second. -/
abbrev Timestamp := Nat × Nat

/-- Constant `const static double kSecondsInNsec = 1e-9;` the double nearest
to `1e-9`, which is `4835703278458517 / 2 ^ 82`. -/
def kSecondsInNsec : ℚ := fl (1 / 1000000000)

/-- Constant `const static double kNsecInSecond = 1e9;` a whole number, hence
a double as it stands. -/
def kNsecInSecond : ℚ := 1000000000

/-- Value of `std::numeric_limits<uint32_t>::max()`. -/
def UINT32_MAX : Int := 4294967295

/-- Function `toDoubleInSeconds`: `static_cast<double>(first) + kSecondsInNsec
* static_cast<double>(second)`. The two conversions of 32-bit integers are
exact; the product is rounded to a double, then the sum is. -/
def toDoubleInSeconds (timestamp_pair : Timestamp) : ℚ :=
  fl ((timestamp_pair.1 : ℚ) + fl (kSecondsInNsec * (timestamp_pair.2 : ℚ)))

/-- The `static_cast<int64_t>` of an integral double. Inside the 64-bit range
the value is kept; outside it C++ leaves the conversion undefined, and the
model takes what x86-64 produces there, the smallest 64-bit integer. -/
def castInt64 (z : Int) : Int :=
  if -9223372036854775808 ≤ z ∧ z ≤ 9223372036854775807 then z
  else -9223372036854775808

/-- Conversion of a double to an integer discards the fractional part
(rounds toward zero). -/
def truncate (x : ℚ) : Int := if 0 ≤ x then ⌊x⌋ else ⌈x⌉

/-- The `static_cast<uint32_t>` of a double: truncation, kept modulo `2 ^ 32`. -/
def castUInt32 (x : ℚ) : Nat := (truncate x % 4294967296).toNat

/-- Function `toTimestampPair`. `Except.error` is the thrown `std::runtime_error`.
The `floor` of a double is exact; the difference `timestamp_sec - sec` is
rounded to a double, then its product with `kNsecInSecond` is, and the
conversion to `uint32_t` truncates that double. -/
def toTimestampPair (timestamp_sec : ℚ) : Except String Timestamp :=
  let sec64 : Int := castInt64 ⌊timestamp_sec⌋
  if sec64 < 0 ∨ sec64 > UINT32_MAX then
    .error "Time is out of dual 32-bit range"
  else
    let sec : Nat := sec64.toNat % 4294967296
    let nsec : Nat := castUInt32 (fl (fl (timestamp_sec - (sec : ℚ)) * kNsecInSecond))
    let sec : Nat := (sec + nsec / 1000000000) % 4294967296
    let nsec : Nat := nsec % 1000000000
    .ok (sec, nsec)

/-! ## Definitions: input streams (`std::ifstream`, `std::stringstream`) -/

/-- State of an input stream: the characters not yet read and the two state
bits the source tests, `eofbit` and `failbit`. -/
structure IStream where
  buf : List Char
  eofbit : Bool
  failbit : Bool
deriving DecidableEq, Repr

/-- Member `good()`: neither `eofbit` nor `failbit` is set. -/
def IStream.good (is : IStream) : Bool := !is.eofbit && !is.failbit

/-- Constructor `std::stringstream ss(str)`: a fresh stream over the characters of `str`. -/
def stringstream (str : List Char) : IStream :=
  { buf := str, eofbit := false, failbit := false }

/-- Opening `ifstream f; f.open(path)`: `file` is the content found at the path, `none`
when the file cannot be opened; a failed `open` sets `failbit` and leaves
`eofbit` clear. -/
def ifstreamOpen (file : Option (List Char)) : IStream :=
  match file with
  | some content => { buf := content, eofbit := false, failbit := false }
  | none => { buf := [], eofbit := false, failbit := true }

/-- Function `std::getline(is, str, delim)`, returning the new stream state and the
new value of `str`. When the stream is not `good()` the sentry sets `failbit`
and `str` is left alone. Otherwise `str` is erased and characters are
extracted up to the delimiter, which is consumed and dropped; reaching the
end of the input sets `eofbit`, and `failbit` too when nothing was extracted. -/
def getline (is : IStream) (str : List Char) (delim : Char) : IStream × List Char :=
  if is.good then
    let item := is.buf.takeWhile (fun c => c != delim)
    match is.buf.dropWhile (fun c => c != delim) with
    | [] => ({ buf := [], eofbit := true, failbit := item.isEmpty }, item)
    | _ :: rest => ({ is with buf := rest }, item)
  else ({ is with failbit := true }, str)

/-! ## Definitions: `mono_coda.cc`, `stereo_coda.cc` -/

/-- Function `std::to_string(int)` on a non-negative counter. -/
def to_string (n : Nat) : List Char := Nat.toDigits 10 n

/-- Member `std::string::find(pat)`: the first position at which `pat` occurs,
`none` for `npos`. -/
def find : List Char → List Char → Option Nat
  | [], pat => if pat.isEmpty then some 0 else none
  | c :: cs, pat => if pat.isPrefixOf (c :: cs) then some 0 else (find cs pat).map (· + 1)

/-- The loop `while (getline(ss, item, '/')) { if (item.empty()) continue;
elems.push_back(item); }` of `GetFilePrefix`. -/
def GetFilePrefix.loop :
    Nat → IStream → List Char → List (List Char) → Option (List (List Char))
  | 0, _, _, _ => none
  | fuel + 1, ss, item, elems =>
    match getline ss item '/' with
    | (ss, item) =>
      if ss.failbit then some elems
      else if item.isEmpty then GetFilePrefix.loop fuel ss item elems
      else GetFilePrefix.loop fuel ss item (elems ++ [item])

/-- Function `GetFilePrefix` (the same text in `mono_coda.cc` and `stereo_coda.cc`). -/
def GetFilePrefix (fuel : Nat) (strImagePath : List Char) : Option (List Char) :=
  match GetFilePrefix.loop fuel (stringstream strImagePath) [] [] with
  | none => none
  | some elems =>
    if elems.length ≥ 3 then
      some (elems.getD (elems.length - 3) [] ++ "_".toList
        ++ elems.getD (elems.length - 2) [] ++ "_".toList
        ++ elems.getD (elems.length - 1) [] ++ "_".toList)
    else some []

namespace Mono

/-- What the mono `LoadImages` produces: `none` when the fuel ran out, an
error when `std::stod` threw, else the two output vectors. -/
abbrev Loaded := Option (Except String (List (List Char) × List ℚ))

/-- The loop `while (!fTimes.eof())` of `LoadImages` in `mono_coda.cc`.
`stod` stands for `std::stod`, `pfx` for the local `prefix`, and the `int`
counter `frame` is a natural number. -/
def LoadImages.loop (stod : List Char → Except String ℚ) (strImagePath pfx : List Char) :
    Nat → IStream → Nat → List (List Char) → List ℚ → Loaded
  | 0, _, _, _, _ => none
  | fuel + 1, fTimes, frame, vstrImages, vTimeStamps =>
    if fTimes.eofbit then some (.ok (vstrImages, vTimeStamps))
    else
      match getline fTimes [] '\n' with
      | (fTimes, s) =>
        if !s.isEmpty then
          let fileExtension :=
            if (find pfx "2d_rect".toList).isSome then ".jpg".toList else ".png".toList
          let vstrImages :=
            vstrImages ++ [strImagePath ++ "/".toList ++ pfx ++ to_string frame ++ fileExtension]
          match stod s with
          | .error e => some (.error e)
          | .ok t => LoadImages.loop stod strImagePath pfx fuel fTimes (frame + 1) vstrImages
              (vTimeStamps ++ [t])
        else LoadImages.loop stod strImagePath pfx fuel fTimes frame vstrImages vTimeStamps

/-- Function `LoadImages` of `mono_coda.cc`. `fs` gives the content of the file at a
path (`none`: it cannot be opened); the two vectors are passed in and
returned, as the source passes them by reference. -/
def LoadImages (stod : List Char → Except String ℚ) (fs : List Char → Option (List Char))
    (fuel : Nat) (strImagePath strPathTimes : List Char)
    (vstrImages : List (List Char)) (vTimeStamps : List ℚ) : Loaded :=
  match GetFilePrefix fuel strImagePath with
  | none => none
  | some pfx =>
    LoadImages.loop stod strImagePath pfx fuel (ifstreamOpen (fs strPathTimes)) 0
      vstrImages vTimeStamps

end Mono

namespace Stereo

/-- What the stereo `LoadImages` produces: left references, right references
and timestamps. -/
abbrev Loaded := Option (Except String (List (List Char) × List (List Char) × List ℚ))

/-- The loop `while (!fTimes.eof())` of `LoadImages` in `stereo_coda.cc`. -/
def LoadImages.loop (stod : List Char → Except String ℚ)
    (strPathLeft strPathRight pfxLeft pfxRight fileExtension : List Char) :
    Nat → IStream → Nat → List (List Char) → List (List Char) → List ℚ → Loaded
  | 0, _, _, _, _, _ => none
  | fuel + 1, fTimes, frame, vstrImageLeft, vstrImageRight, vTimeStamps =>
    if fTimes.eofbit then some (.ok (vstrImageLeft, vstrImageRight, vTimeStamps))
    else
      match getline fTimes [] '\n' with
      | (fTimes, s) =>
        if !s.isEmpty then
          let vstrImageLeft := vstrImageLeft
            ++ [strPathLeft ++ "/".toList ++ pfxLeft ++ to_string frame ++ fileExtension]
          let vstrImageRight := vstrImageRight
            ++ [strPathRight ++ "/".toList ++ pfxRight ++ to_string frame ++ fileExtension]
          match stod s with
          | .error e => some (.error e)
          | .ok t =>
            LoadImages.loop stod strPathLeft strPathRight pfxLeft pfxRight fileExtension
              fuel fTimes (frame + 1) vstrImageLeft vstrImageRight (vTimeStamps ++ [t])
        else
          LoadImages.loop stod strPathLeft strPathRight pfxLeft pfxRight fileExtension
            fuel fTimes frame vstrImageLeft vstrImageRight vTimeStamps

/-- Function `LoadImages` of `stereo_coda.cc`: the extension is chosen once, from the
prefix of the left directory. -/
def LoadImages (stod : List Char → Except String ℚ) (fs : List Char → Option (List Char))
    (fuel : Nat) (strPathLeft strPathRight strPathTimes : List Char)
    (vstrImageLeft vstrImageRight : List (List Char)) (vTimeStamps : List ℚ) : Loaded :=
  match GetFilePrefix fuel strPathLeft, GetFilePrefix fuel strPathRight with
  | some pfxLeft, some pfxRight =>
    let fileExtension :=
      if (find pfxLeft "2d_rect".toList).isSome then ".jpg".toList else ".png".toList
    LoadImages.loop stod strPathLeft strPathRight pfxLeft pfxRight fileExtension
      fuel (ifstreamOpen (fs strPathTimes)) 0 vstrImageLeft vstrImageRight vTimeStamps
  | _, _ => none

end Stereo

/-- Access `v[i]` on a vector with an `int` index: `none` when `i` is outside
`0 .. size - 1`, where C++ reads out of bounds. -/
def vecAt {α : Type} (v : List α) (i : Int) : Option α :=
  if i < 0 then none else v[i.toNat]?

/-- The reference gap `T` of the playback loop of `main` (both files):
`tframe = vTimestampsCam[i][ni]`, then `T = 0; if (ni < nImages[i] - 1) T =
vTimestampsCam[i][ni + 1] - tframe; else if (ni > 0) T = tframe -
vTimestampsCam[i][ni - 1];`. `none` when a read is out of bounds. The
difference is the exact one. -/
def main_T (vTimestampsCam_i : List ℚ) (nImages_i ni : Int) : Option ℚ :=
  match vecAt vTimestampsCam_i ni with
  | none => none
  | some tframe =>
    if ni < nImages_i - 1 then
      match vecAt vTimestampsCam_i (ni + 1) with
      | none => none
      | some next => some (next - tframe)
    else if ni > 0 then
      match vecAt vTimestampsCam_i (ni - 1) with
      | none => none
      | some previous => some (tframe - previous)
    else some 0

/-- The wait of the playback loop: `if (ttrack < T) usleep((T - ttrack) *
1e6);`. The difference is rounded to a double, then its product with `1e6`
is. The result is the argument `usleep` receives, a `useconds_t` (unsigned
32-bit count of microseconds) converted from that double, and `none` when
`usleep` is not called. -/
def main_usleep (T ttrack : ℚ) : Option Nat :=
  if ttrack < T then some (castUInt32 (fl (fl (T - ttrack) * 1000000))) else none

/-- Microseconds the loop asks to wait before the next frame. -/
def delayMicroseconds (T ttrack : ℚ) : Nat := (main_usleep T ttrack).getD 0

/-- The same delay in seconds. -/
def delaySeconds (T ttrack : ℚ) : ℚ := (delayMicroseconds T ttrack : ℚ) / 1000000

/-! ## Definitions: a decimal reader to instantiate `std::stod` -/

/-- Function `isspace` in the C locale. -/
def isspace (c : Char) : Bool :=
  c == ' ' || c == '\t' || c == '\n' || c == '\x0b' || c == '\x0c' || c == '\r'

/-- Value of a string of decimal digits. -/
def digitsValue (ds : List Char) : Nat :=
  ds.foldl (fun n c => 10 * n + (c.toNat - '0'.toNat)) 0

/-- The decimal exponent after the mantissa: `e` or `E`, an optional sign and
at least one digit; anything else contributes no exponent. -/
def stodExponent (s : List Char) : Int :=
  let digitsOf (r : List Char) : Option Nat :=
    if (r.takeWhile Char.isDigit).isEmpty then none
    else some (digitsValue (r.takeWhile Char.isDigit))
  let signed (r : List Char) : Int :=
    match r with
    | '-' :: r => match digitsOf r with
      | some n => -(n : Int)
      | none => 0
    | '+' :: r => ((digitsOf r).getD 0 : Nat)
    | r => ((digitsOf r).getD 0 : Nat)
  match s with
  | 'e' :: r => signed r
  | 'E' :: r => signed r
  | _ => 0

/-- A reader for the decimal inputs of `std::stod`: leading white space, an
optional sign, digits with an optional fraction, an optional exponent; what
follows the number is ignored, and a string with no digits is rejected
(`std::invalid_argument`). The value is the exact rational. Hexadecimal
floats, infinities, NaN and range errors are outside this reader. -/
def stodDecimal (str : List Char) : Except String ℚ :=
  let s := str.dropWhile isspace
  let negative := s.head? == some '-'
  let s := if s.head? == some '-' || s.head? == some '+' then s.tail else s
  let intPart := s.takeWhile Char.isDigit
  let s := s.dropWhile Char.isDigit
  let fracPart := if s.head? == some '.' then s.tail.takeWhile Char.isDigit else []
  let s := if s.head? == some '.' then s.tail.dropWhile Char.isDigit else s
  if intPart.isEmpty && fracPart.isEmpty then .error "stod"
  else
    let mantissa : Int := digitsValue (intPart ++ fracPart)
    let mantissa : Int := if negative then -mantissa else mantissa
    let exponent : Int := stodExponent s - fracPart.length
    .ok (mkRat (mantissa * 10 ^ exponent.toNat) (10 ^ (-exponent).toNat))

/-- A file system holding one file. -/
def oneFile (path content : List Char) : List Char → Option (List Char) :=
  fun p => if p = path then some content else none

/-- A file system in which no file can be opened. -/
def noFile : List Char → Option (List Char) := fun _ => none

/-! ## Definitions: segments of a string, to state the properties -/

/-- The pieces of `l` between the occurrences of the separator `d`, the
empty ones included: `l` is these pieces joined by `d`. -/
def segments (d : Char) : List Char → List (List Char)
  | [] => [[]]
  | c :: cs =>
    if c = d then [] :: segments d cs
    else
      match segments d cs with
      | [] => [[c]]
      | s :: ss => (c :: s) :: ss

/-- The non-empty strings of a list, in order. -/
def nonEmpty (ls : List (List Char)) : List (List Char) := ls.filter (fun l => !l.isEmpty)

/-- The reference `LoadImages` builds for frame `k`:
`dir + "/" + prefix + to_string(k) + extension`. -/
def imageRef (dir pfx ext : List Char) (k : Nat) : List Char :=
  dir ++ "/".toList ++ pfx ++ to_string k ++ ext

/-- The extension policy stated on substrings: `.jpg` when the prefix
contains `2d_rect`, `.png` otherwise. -/
def extensionFor (pfx : List Char) : List Char :=
  if "2d_rect".toList <:+: pfx then ".jpg".toList else ".png".toList

/-! ## Definitions: `main` of `mono_coda.cc` and `stereo_coda.cc` -/

/-- Function `IsNumeric`: `std::all_of(str.begin(), str.end(), ::isdigit)`. -/
def IsNumeric (str : List Char) : Bool := str.all Char.isDigit

/-- What the argument loop of `main` leaves behind: the vector `sequences`,
the flag `bFileName` and `outputFileName`. -/
structure Args where
  sequences : List (List Char)
  bFileName : Bool
  outputFileName : List Char
deriving DecidableEq, Repr

/-- The loop `for (int i = 5; i < argc; i++)` of `main`; the list holds
`argv[i], ..., argv[argc - 1]`. -/
def main_args.loop (argc : Int) : Int → List (List Char) → Args → Args
  | _, [], a => a
  | i, arg :: rest, a =>
    if i = argc - 1 ∧ !IsNumeric arg then
      main_args.loop argc (i + 1) rest { a with bFileName := true, outputFileName := arg }
    else
      main_args.loop argc (i + 1) rest { a with sequences := a.sequences ++ [arg] }

/-- The argument handling of `main` (the same text in both files): `none` is
the usage error `return 1` taken when `argc < 6`. -/
def main_args (argv : List (List Char)) : Option Args :=
  if (argv.length : Int) < 6 then none
  else
    some (main_args.loop argv.length 5 (argv.drop 5)
      { sequences := [], bFileName := false, outputFileName := [] })

/-- The sensor passed to the constructor of `ORB_SLAM3::System`:
`MONOCULAR` in `mono_coda.cc`, `STEREO` in `stereo_coda.cc`. It also
selects, below, the places where the two `main` functions differ. -/
inductive Sensor
  | MONOCULAR
  | STEREO
deriving DecidableEq, Repr

/-- The calls `main` makes on the engine object `SLAM`, and to `usleep`. An
image is named by the file it was read from; the empty vector of IMU points
passed to `TrackStereo` is left out. -/
inductive Call
  | SLAM (strVocFile strSettingsFile : List Char) (sensor : Sensor)
  | GetImageScale
  | TrackMonocular (im : List Char) (timestamp : ℚ)
  | TrackStereo (imLeft imRight : List Char) (timestamp : ℚ) (filename : List Char)
  | SaveTrajectoryEuRoC (filename : List Char)
  | SaveKeyFrameTrajectoryEuRoC (filename : List Char)
  | SaveTrajectoryCODa (filename : List Char)
  | SaveLostFrames (filename : List Char)
  | ChangeDataset
  | Shutdown
  | usleep (usec : Nat)
deriving DecidableEq

/-- One loaded sequence: entry `i` of the vectors `sequences`,
`vstrImageFilenames` (mono) or `vstrImageLeft` and `vstrImageRight`
(stereo), and `vTimestampsCam`, which `main` resizes to the same size
`num_seq`. In mono the right list is not used. -/
structure Sequence where
  seq : List Char
  vstrImageLeft : List (List Char)
  vstrImageRight : List (List Char)
  vTimestampsCam : List ℚ

/-- Entry `nImages[i]`: the size of the (left) image list. -/
def Sequence.nImages (sq : Sequence) : Int := sq.vstrImageLeft.length

/-- The state the playback loops change: the calls made so far and the
buffer `vTimesTrack`. -/
structure Play where
  calls : List Call
  vTimesTrack : List ℚ

/-- How a piece of `main` ends: it falls through, it executes `return code`,
or it reads or writes a vector out of bounds. -/
inductive Step
  | next (st : Play)
  | exit (code : Int) (st : Play)
  | undefined

/-- The end of the loop body, after the tracking call: `vTimesTrack[ni] =
ttrack;`, then the reference gap `T` and the `usleep`. -/
def main_pace (sq : Sequence) (ni : Int) (ttrack : ℚ) (st : Play) : Step :=
  if 0 ≤ ni ∧ ni.toNat < st.vTimesTrack.length then
    match main_T sq.vTimestampsCam sq.nImages ni with
    | none => .undefined
    | some T =>
      match main_usleep T ttrack with
      | some usec =>
        .next { calls := st.calls ++ [.usleep usec],
                vTimesTrack := st.vTimesTrack.set ni.toNat ttrack }
      | none => .next { st with vTimesTrack := st.vTimesTrack.set ni.toNat ttrack }
  else .undefined

/-- The body of the loop over the frames of one sequence. `imread file` tells
whether `cv::imread(file)` gives a non-empty image, `ttrack` is the duration
measured around the tracking call. The rescaling of the image in
`mono_coda.cc` changes the image only and makes no call, and the lines under
`#ifdef REGISTER_TIMES` are not compiled. -/
def main_frame (sensor : Sensor) (imread : List Char → Bool) (ttrack : ℚ)
    (sq : Sequence) (ni : Int) (st : Play) : Step :=
  match sensor with
  | .MONOCULAR =>
    match vecAt sq.vstrImageLeft ni, vecAt sq.vTimestampsCam ni with
    | some file, some tframe =>
      if !imread file then .exit 1 st
      else
        main_pace sq ni ttrack { st with calls := st.calls ++ [.TrackMonocular file tframe] }
    | _, _ => .undefined
  | .STEREO =>
    match vecAt sq.vstrImageLeft ni, vecAt sq.vstrImageRight ni,
      vecAt sq.vTimestampsCam ni with
    | some left, some right, some tframe =>
      if !imread left then .exit 1 st
      else if !imread right then .exit 1 st
      else
        main_pace sq ni ttrack
          { st with calls := st.calls ++ [.TrackStereo left right tframe left] }
    | _, _, _ => .undefined

/-- The loop `for (int ni = 0; ni < nImages[i]; ni++, proccIm++)`, over the
indices still to play. -/
def main_frames (sensor : Sensor) (imread : List Char → Bool) (ttrack : Nat → ℚ)
    (sq : Sequence) : List Nat → Play → Step
  | [], st => .next st
  | ni :: rest, st =>
    match main_frame sensor imread (ttrack ni) sq ni st with
    | .next st => main_frames sensor imread ttrack sq rest st
    | .exit code st => .exit code st
    | .undefined => .undefined

/-- The checkpoint written after a sequence that is not the last. -/
def main_checkpoint (sensor : Sensor) (seq : List Char) : List Call :=
  match sensor with
  | .MONOCULAR =>
    [.SaveTrajectoryEuRoC ("./SubMaps/CODa/f_SubMap_".toList ++ seq ++ ".txt".toList),
      .SaveKeyFrameTrajectoryEuRoC ("./SubMaps/CODa/kf_SubMap_".toList ++ seq ++ ".txt".toList)]
  | .STEREO =>
    [.SaveTrajectoryCODa ("./SubMaps/CODa/f_SubMap_".toList ++ seq ++ ".txt".toList)]

/-- The loop `for (int i = 0; i < num_seq; i++)`, over the sequences still to
play: the frames, then `if (i < num_seq - 1)` the checkpoint and
`ChangeDataset`. -/
def main_sequences (sensor : Sensor) (imread : List Char → Bool) (ttrack : Nat → Nat → ℚ)
    (num_seq : Int) : Nat → List Sequence → Play → Step
  | _, [], st => .next st
  | i, sq :: rest, st =>
    match main_frames sensor imread (ttrack i) sq (List.range sq.nImages.toNat) st with
    | .next st =>
      if (i : Int) < num_seq - 1 then
        main_sequences sensor imread ttrack num_seq (i + 1) rest
          { st with calls := st.calls ++ main_checkpoint sensor sq.seq ++ [.ChangeDataset] }
      else main_sequences sensor imread ttrack num_seq (i + 1) rest st
    | .exit code st => .exit code st
    | .undefined => .undefined

/-- The final saves, after `Shutdown`; `argv[argc - 1]` is the output name
when `bFileName` is set. -/
def main_final (sensor : Sensor) (args : Args) : List Call :=
  match sensor with
  | .MONOCULAR =>
    if args.bFileName then
      [.SaveTrajectoryEuRoC ("f_".toList ++ args.outputFileName ++ ".txt".toList),
        .SaveKeyFrameTrajectoryEuRoC ("kf_".toList ++ args.outputFileName ++ ".txt".toList)]
    else
      [.SaveTrajectoryEuRoC "CameraTrajectory.txt".toList,
        .SaveKeyFrameTrajectoryEuRoC "KeyFrameTrajectory.txt".toList]
  | .STEREO =>
    if args.bFileName then
      [.SaveTrajectoryCODa ("f_".toList ++ args.outputFileName ++ ".txt".toList),
        .SaveLostFrames ("lost_".toList ++ args.outputFileName ++ ".txt".toList)]
    else
      [.SaveTrajectoryCODa "CameraTrajectory.txt".toList,
        .SaveLostFrames "LostFrames.txt".toList]

/-- The sum `tot_images` of the `nImages[i]`. -/
def tot_images (seqs : List Sequence) : Nat :=
  (seqs.map (fun sq => sq.nImages.toNat)).sum

/-- The state in which the playback starts: `vTimesTrack.resize(tot_images)`,
the engine constructed and, in `mono_coda.cc`, asked for its image scale. -/
def main_start (sensor : Sensor) (argv1 argv2 : List Char) (seqs : List Sequence) : Play :=
  { calls := .SLAM argv1 argv2 sensor ::
      (match sensor with
        | .MONOCULAR => [.GetImageScale]
        | .STEREO => []),
    vTimesTrack := List.replicate (tot_images seqs) 0 }

/-- The part of `main` after the sequences are loaded: the exit code and the
final state, `none` when a vector was accessed out of bounds. -/
def main_play (sensor : Sensor) (imread : List Char → Bool) (ttrack : Nat → Nat → ℚ)
    (argv1 argv2 : List Char) (args : Args) (seqs : List Sequence) : Option (Int × Play) :=
  match main_sequences sensor imread ttrack seqs.length 0 seqs
      (main_start sensor argv1 argv2 seqs) with
  | .undefined => none
  | .exit code st => some (code, st)
  | .next st =>
    some (0, { st with calls := st.calls ++ [.Shutdown] ++ main_final sensor args })

/-! ## Definitions: the calls expected of a run, to state the properties -/

/-- The tracking call of frame `ni` of a sequence. -/
def trackCall (sensor : Sensor) (sq : Sequence) (ni : Nat) : Call :=
  match sensor with
  | .MONOCULAR => .TrackMonocular (sq.vstrImageLeft.getD ni []) (sq.vTimestampsCam.getD ni 0)
  | .STEREO =>
    .TrackStereo (sq.vstrImageLeft.getD ni []) (sq.vstrImageRight.getD ni [])
      (sq.vTimestampsCam.getD ni 0) (sq.vstrImageLeft.getD ni [])

/-- The `usleep` call after frame `ni`, if the loop sleeps there. -/
def sleepCalls (sq : Sequence) (ttrack : ℚ) (ni : Nat) : List Call :=
  match main_T sq.vTimestampsCam sq.nImages ni with
  | some T =>
    match main_usleep T ttrack with
    | some usec => [.usleep usec]
    | none => []
  | none => []

/-- The calls of one readable frame: the tracking call, then the sleep. -/
def frameCalls (sensor : Sensor) (ttrack : Nat → ℚ) (sq : Sequence) (ni : Nat) : List Call :=
  trackCall sensor sq ni :: sleepCalls sq (ttrack ni) ni

/-- The calls of the readable frames with the given indices, in order. -/
def framesCalls (sensor : Sensor) (ttrack : Nat → ℚ) (sq : Sequence) : List Nat → List Call
  | [] => []
  | ni :: rest => frameCalls sensor ttrack sq ni ++ framesCalls sensor ttrack sq rest

/-- The calls of sequence number `i` played to its end: its frames, then,
when it is not the last of `num_seq` sequences, its checkpoint followed by
`ChangeDataset`. -/
def blockCalls (sensor : Sensor) (ttrack : Nat → Nat → ℚ) (num_seq i : Nat)
    (sq : Sequence) : List Call :=
  framesCalls sensor (ttrack i) sq (List.range sq.vstrImageLeft.length)
    ++ (if i + 1 < num_seq then main_checkpoint sensor sq.seq ++ [.ChangeDataset] else [])

/-- The calls of the sequences numbered `i, i + 1, ...`, each played to its
end. -/
def playedCalls (sensor : Sensor) (ttrack : Nat → Nat → ℚ) (num_seq : Nat) :
    Nat → List Sequence → List Call
  | _, [] => []
  | i, sq :: rest =>
    blockCalls sensor ttrack num_seq i sq ++ playedCalls sensor ttrack num_seq (i + 1) rest

/-- Whether the image, or in stereo both images, of frame `ni` can be read. -/
def frameReadable (sensor : Sensor) (imread : List Char → Bool) (sq : Sequence)
    (ni : Nat) : Bool :=
  match sensor with
  | .MONOCULAR => imread (sq.vstrImageLeft.getD ni [])
  | .STEREO => imread (sq.vstrImageLeft.getD ni []) && imread (sq.vstrImageRight.getD ni [])

/-- The lists of a sequence have one length, as `LoadImages` leaves them: as
many timestamps as (left) images and, in stereo, as many right images. -/
def Sequence.aligned (sensor : Sensor) (sq : Sequence) : Bool :=
  sq.vTimestampsCam.length == sq.vstrImageLeft.length
    && (sensor == .MONOCULAR || sq.vstrImageRight.length == sq.vstrImageLeft.length)

/-- Whether a call writes a trajectory file (`SaveTrajectoryEuRoC` or
`SaveTrajectoryCODa`). -/
def Call.isTrajectorySave : Call → Bool
  | .SaveTrajectoryEuRoC _ => true
  | .SaveTrajectoryCODa _ => true
  | _ => false

/-- Whether a call is a tracking call. -/
def Call.isTrack : Call → Bool
  | .TrackMonocular _ _ => true
  | .TrackStereo _ _ _ _ => true
  | _ => false

/-- The trajectory file of the checkpoint of a sequence. -/
def checkpointSave (sensor : Sensor) (seq : List Char) : Call :=
  match sensor with
  | .MONOCULAR =>
    .SaveTrajectoryEuRoC ("./SubMaps/CODa/f_SubMap_".toList ++ seq ++ ".txt".toList)
  | .STEREO =>
    .SaveTrajectoryCODa ("./SubMaps/CODa/f_SubMap_".toList ++ seq ++ ".txt".toList)

/-- Whether a call is a `usleep`. -/
def Call.isSleep : Call → Bool
  | .usleep _ => true
  | _ => false

/-! ## Definitions: a run of three sequences, for the examples -/

/-- Three loaded sequences named `0`, `1`, `2`, of one frame each. -/
def threeSequences : List Sequence :=
  [{ seq := "0".toList, vstrImageLeft := ["cam0/0/0.jpg".toList],
     vstrImageRight := ["cam1/0/0.jpg".toList], vTimestampsCam := [0] },
   { seq := "1".toList, vstrImageLeft := ["cam0/1/0.jpg".toList],
     vstrImageRight := ["cam1/1/0.jpg".toList], vTimestampsCam := [0] },
   { seq := "2".toList, vstrImageLeft := ["cam0/2/0.jpg".toList],
     vstrImageRight := ["cam1/2/0.jpg".toList], vTimestampsCam := [0] }]

/-- Arguments with no output name. -/
def noTag : Args := { sequences := ["0".toList, "1".toList, "2".toList], bFileName := false,
                      outputFileName := [] }

/-! ## Lemmas: rounding to a double -/

theorem roundHalfEven_intCast (n : Int) : roundHalfEven (n : ℚ) = n := by
  simp [roundHalfEven]

theorem roundHalfEven_abs_sub_le (m : ℚ) : |(roundHalfEven m : ℚ) - m| ≤ 1 / 2 := by
  have h0 := Int.floor_le m
  have h1 := Int.lt_floor_add_one m
  unfold roundHalfEven
  rw [abs_le]
  split_ifs with ha hb hc
  · constructor <;> linarith
  · push_cast
    constructor <;> linarith
  · have := not_lt.mp hb
    constructor <;> linarith
  · have := not_lt.mp ha
    push_cast
    constructor <;> linarith

theorem roundHalfEven_eq_of_abs_lt (m : ℚ) (n : Int) (h : |m - n| < 1 / 2) :
    roundHalfEven m = n := by
  rw [abs_lt] at h
  obtain ⟨hl, hu⟩ := h
  by_cases hm : (n : ℚ) ≤ m
  · have hf : ⌊m⌋ = n := by
      rw [Int.floor_eq_iff]
      constructor <;> linarith
    unfold roundHalfEven
    rw [hf, if_pos (by linarith)]
  · have hf : ⌊m⌋ = n - 1 := by
      rw [Int.floor_eq_iff]
      push_cast
      constructor <;> linarith
    unfold roundHalfEven
    rw [hf, if_neg (by push_cast; linarith), if_pos (by push_cast; linarith)]
    ring

theorem roundHalfEven_nonneg (m : ℚ) (h : 0 ≤ m) : 0 ≤ roundHalfEven m := by
  have hf : 0 ≤ ⌊m⌋ := Int.floor_nonneg.mpr h
  unfold roundHalfEven
  split_ifs <;> omega

theorem ulp_pos (x : ℚ) : 0 < ulp x := by
  unfold ulp
  positivity

theorem fl_zero : fl 0 = 0 := by
  simp [fl, roundHalfEven]

theorem fl_nonneg (x : ℚ) (h : 0 ≤ x) : 0 ≤ fl x := by
  unfold fl
  have h1 : 0 ≤ x / ulp x := div_nonneg h (ulp_pos x).le
  have h2 := roundHalfEven_nonneg _ h1
  have h3 : (0 : ℚ) ≤ (roundHalfEven (x / ulp x) : ℚ) := by exact_mod_cast h2
  exact mul_nonneg h3 (ulp_pos x).le

theorem log_eq_of (x : ℚ) (e : Int) (h1 : 2 ^ e ≤ |x|) (h2 : |x| < 2 ^ (e + 1)) :
    Int.log 2 |x| = e := by
  have hpos : 0 < |x| := lt_of_lt_of_le (by positivity) h1
  have ha : e ≤ Int.log 2 |x| := by
    rw [← Int.zpow_le_iff_le_log (by norm_num) hpos]
    exact_mod_cast h1
  have hb : Int.log 2 |x| < e + 1 := by
    rw [← Int.lt_zpow_iff_log_lt (by norm_num) hpos]
    exact_mod_cast h2
  omega

theorem exponentOf_eq (x : ℚ) (e : Int) (h1 : 2 ^ e ≤ |x|) (h2 : |x| < 2 ^ (e + 1))
    (he : -1022 ≤ e) : exponentOf x = e := by
  unfold exponentOf
  rw [log_eq_of x e h1 h2]
  exact max_eq_left he

/-- Evaluation of `fl` from a certificate: the binade of `x` and the integer
nearest to `x` in units of the last place. -/
theorem fl_eq_of (x : ℚ) (e n : Int) (h1 : 2 ^ e ≤ |x|) (h2 : |x| < 2 ^ (e + 1))
    (he : -1022 ≤ e) (hn : |x / 2 ^ (e - 52) - n| < 1 / 2) :
    fl x = n * 2 ^ (e - 52) := by
  unfold fl ulp
  rw [exponentOf_eq x e h1 h2 he, roundHalfEven_eq_of_abs_lt _ n hn]

theorem fl_sub_eq (x : ℚ) : fl x - x = ((roundHalfEven (x / ulp x) : ℚ) - x / ulp x) * ulp x := by
  unfold fl
  have := (ulp_pos x).ne'
  field_simp

/-- The rounding error is at most half a unit in the last place. -/
theorem fl_abs_sub_le (x : ℚ) : |fl x - x| ≤ ulp x / 2 := by
  rw [fl_sub_eq, abs_mul, abs_of_pos (ulp_pos x)]
  have := roundHalfEven_abs_sub_le (x / ulp x)
  have hp := ulp_pos x
  nlinarith

theorem zpow_log_le (x : ℚ) (hx : x ≠ 0) : (2 : ℚ) ^ Int.log 2 |x| ≤ |x| := by
  have := Int.zpow_log_le_self (b := 2) (r := |x|) (by norm_num) (abs_pos.mpr hx)
  exact_mod_cast this

theorem lt_zpow_log (x : ℚ) : |x| < (2 : ℚ) ^ (Int.log 2 |x| + 1) := by
  have := Int.lt_zpow_succ_log_self (b := 2) (by norm_num) |x|
  exact_mod_cast this

theorem ulp_le (x : ℚ) (hx : x ≠ 0) : ulp x ≤ |x| / 2 ^ 52 + 1 / 2 ^ 1074 := by
  unfold ulp exponentOf
  rcases le_total (Int.log 2 |x|) (-1022) with h | h
  · rw [max_eq_right h]
    have : (2 : ℚ) ^ ((-1022 : ℤ) - 52) = 1 / 2 ^ 1074 := by
      rw [show ((-1022 : ℤ) - 52) = -((1074 : ℕ) : ℤ) by norm_num, zpow_neg, zpow_natCast]
      simp
    rw [this]
    have := abs_nonneg x
    have : 0 ≤ |x| / 2 ^ 52 := by positivity
    linarith
  · rw [max_eq_left h, zpow_sub₀ (by norm_num)]
    have h1 := zpow_log_le x hx
    have h2 : (2 : ℚ) ^ (52 : ℤ) = 2 ^ 52 := by norm_cast
    rw [h2]
    have : (2 : ℚ) ^ Int.log 2 |x| / 2 ^ 52 ≤ |x| / 2 ^ 52 := by
      apply div_le_div_of_nonneg_right h1
      positivity
    have : (0 : ℚ) ≤ 1 / 2 ^ 1074 := by positivity
    linarith

/-- The rounding error is at most `2 ^ -53` of the value, and `2 ^ -1075` near zero. -/
theorem fl_error (x : ℚ) : |fl x - x| ≤ |x| / 2 ^ 53 + 1 / 2 ^ 1075 := by
  by_cases hx : x = 0
  · subst hx
    rw [fl_zero]
    simp
  · have h1 := fl_abs_sub_le x
    have h2 := ulp_le x hx
    have e1 : |x| / 2 ^ 53 = |x| / 2 ^ 52 / 2 := by ring
    have e2 : (1 : ℚ) / 2 ^ 1075 = 1 / 2 ^ 1074 / 2 := by ring
    rw [e1, e2]
    linarith

/-- The significand of every rational is below `2 ^ 53` in units of the last place. -/
theorem significand_lt (x : ℚ) : |x| < 2 ^ 53 * ulp x := by
  have h1 := lt_zpow_log x
  have h2 : (2 : ℚ) ^ (Int.log 2 |x| + 1) ≤ 2 ^ 53 * ulp x := by
    unfold ulp exponentOf
    have : (2 : ℚ) ^ 53 = 2 ^ (53 : ℤ) := by norm_cast
    rw [this, ← zpow_add₀ (by norm_num)]
    apply zpow_le_zpow_right₀ (by norm_num)
    have := le_max_left (Int.log 2 |x|) (-1022)
    omega
  linarith

theorem exponentOf_ge (x : ℚ) : -1074 ≤ exponentOf x - 52 := by
  unfold exponentOf
  have := le_max_right (Int.log 2 |x|) (-1022)
  omega

/-- A rational that is a whole number of units `2 ^ k`, with the whole number
below `2 ^ 53` in size and `k` at least `-1074`, is a double: rounding keeps it. -/
theorem fl_of_scaled (j k : Int) (hj : |j| < 2 ^ 53) (hk : -1074 ≤ k) :
    fl ((j : ℚ) * 2 ^ k) = (j : ℚ) * 2 ^ k := by
  by_cases hj0 : j = 0
  · subst hj0
    simp [fl_zero]
  obtain ⟨x, hxdef⟩ : ∃ x : ℚ, x = (j : ℚ) * 2 ^ k := ⟨_, rfl⟩
  rw [← hxdef]
  have hx0 : x ≠ 0 := by
    rw [hxdef]
    have : (j : ℚ) ≠ 0 := by exact_mod_cast hj0
    positivity
  have hjq : |(j : ℚ)| < 2 ^ 53 := by exact_mod_cast hj
  have habs : |x| = |(j : ℚ)| * 2 ^ k := by
    rw [hxdef, abs_mul, abs_of_pos (show (0 : ℚ) < 2 ^ k by positivity)]
  have hlog : Int.log 2 |x| < k + 53 := by
    rw [← Int.lt_zpow_iff_log_lt (by norm_num) (abs_pos.mpr hx0)]
    rw [habs, add_comm, zpow_add₀ (by norm_num)]
    have : ((2 : ℕ) : ℚ) ^ (53 : ℤ) = 2 ^ 53 := by norm_cast
    rw [this]
    have : (0 : ℚ) < ((2 : ℕ) : ℚ) ^ k := by positivity
    push_cast at this ⊢
    nlinarith
  have hle : exponentOf x - 52 ≤ k := by
    unfold exponentOf
    rcases le_total (Int.log 2 |x|) (-1022) with h | h
    · rw [max_eq_right h]
      omega
    · rw [max_eq_left h]
      omega
  obtain ⟨d, hd⟩ : ∃ d : ℕ, k = exponentOf x - 52 + d := ⟨(k - (exponentOf x - 52)).toNat, by omega⟩
  have hu : ulp x = 2 ^ (exponentOf x - 52) := rfl
  have hxv : x = ((j * 2 ^ d : Int) : ℚ) * ulp x := by
    rw [hu]
    conv_lhs => rw [hxdef, hd]
    rw [zpow_add₀ (by norm_num), zpow_natCast]
    push_cast
    ring
  have hq : x / ulp x = ((j * 2 ^ d : Int) : ℚ) := by
    rw [div_eq_iff (ulp_pos x).ne']
    exact hxv
  unfold fl
  rw [hq, roundHalfEven_intCast]
  exact hxv.symm

/-- A double written out: the value with the integer it is in units of the last place. -/
theorem fl_eq_scaled (x : ℚ) (hx : fl x = x) :
    x = (roundHalfEven (x / ulp x) : ℚ) * 2 ^ (exponentOf x - 52) ∧
    |roundHalfEven (x / ulp x)| < 2 ^ 53 := by
  have h1 : x = (roundHalfEven (x / ulp x) : ℚ) * ulp x := by
    conv_lhs => rw [← hx]
    rfl
  refine ⟨h1, ?_⟩
  have h2 := significand_lt x
  have hp := ulp_pos x
  have h3 : |x| = |(roundHalfEven (x / ulp x) : ℚ)| * ulp x := by
    conv_lhs => rw [h1]
    rw [abs_mul, abs_of_pos hp]
  rw [h3] at h2
  have h4 : |(roundHalfEven (x / ulp x) : ℚ)| < 2 ^ 53 := lt_of_mul_lt_mul_right h2 hp.le
  exact_mod_cast h4

/-- The fractional part of a non-negative double is a double. -/
theorem fl_fract (s : ℚ) (hs : fl s = s) (h0 : 0 ≤ s) : fl (s - ⌊s⌋) = s - ⌊s⌋ := by
  obtain ⟨hv, hn⟩ := fl_eq_scaled s hs
  have hE := exponentOf_ge s
  obtain ⟨n, hnv⟩ : ∃ n : Int, n = roundHalfEven (s / ulp s) := ⟨_, rfl⟩
  obtain ⟨E, hEv⟩ : ∃ E : Int, E = exponentOf s - 52 := ⟨_, rfl⟩
  rw [← hnv] at hv hn
  rw [← hEv] at hv hE
  have hn0 : 0 ≤ n := by
    rw [hnv]
    exact roundHalfEven_nonneg _ (div_nonneg h0 (ulp_pos s).le)
  rcases le_or_lt 0 E with hpos | hneg
  · obtain ⟨d, hd⟩ : ∃ d : ℕ, E = d := ⟨E.toNat, by omega⟩
    have : s = ((n * 2 ^ d : Int) : ℚ) := by
      rw [hv, hd, zpow_natCast]
      push_cast
      ring
    rw [this, Int.floor_intCast, sub_self, fl_zero]
  · obtain ⟨d, hd⟩ : ∃ d : ℕ, E = -(d : Int) := ⟨(-E).toNat, by omega⟩
    have hM : (0 : Int) < 2 ^ d := by positivity
    have hMq : (0 : ℚ) < 2 ^ d := by positivity
    have h2E : (2 : ℚ) ^ E = 1 / 2 ^ d := by
      rw [hd, zpow_neg, zpow_natCast]
      simp
    have hdm : n = 2 ^ d * (n / 2 ^ d) + n % 2 ^ d := (Int.ediv_add_emod n (2 ^ d)).symm
    have hr0 : 0 ≤ n % 2 ^ d := Int.emod_nonneg _ hM.ne'
    have hr1 : n % 2 ^ d < 2 ^ d := Int.emod_lt_of_pos _ hM
    have hq0 : 0 ≤ n / 2 ^ d := Int.ediv_nonneg hn0 hM.le
    have hsv : s = ((n / 2 ^ d : Int) : ℚ) + ((n % 2 ^ d : Int) : ℚ) * 2 ^ E := by
      rw [hv, h2E]
      have : (n : ℚ) = 2 ^ d * ((n / 2 ^ d : Int) : ℚ) + ((n % 2 ^ d : Int) : ℚ) := by
        exact_mod_cast hdm
      field_simp
      linarith
    have hfrac0 : (0 : ℚ) ≤ ((n % 2 ^ d : Int) : ℚ) * 2 ^ E := by
      have : (0 : ℚ) ≤ ((n % 2 ^ d : Int) : ℚ) := by exact_mod_cast hr0
      positivity
    have hfrac1 : ((n % 2 ^ d : Int) : ℚ) * 2 ^ E < 1 := by
      rw [h2E, mul_one_div, div_lt_one hMq]
      exact_mod_cast hr1
    have hfl : ⌊s⌋ = n / 2 ^ d := by
      rw [Int.floor_eq_iff]
      constructor <;> linarith
    have hfr : s - ⌊s⌋ = ((n % 2 ^ d : Int) : ℚ) * 2 ^ E := by
      rw [hfl]
      linarith
    rw [hfr]
    apply fl_of_scaled _ _ _ hE
    have hle : n % 2 ^ d ≤ n := by nlinarith
    rw [abs_of_nonneg hr0]
    rw [abs_of_nonneg hn0] at hn
    omega

/-- The largest double below one is `1 - 2 ^ -53`. -/
theorem double_lt_one (x : ℚ) (hx : fl x = x) (h0 : 0 ≤ x) (h1 : x < 1) :
    x ≤ 1 - 1 / 2 ^ 53 := by
  by_cases hx0 : x = 0
  · subst hx0
    norm_num
  obtain ⟨hv, hn⟩ := fl_eq_scaled x hx
  have habs : |x| = x := abs_of_nonneg h0
  have hL : Int.log 2 |x| < 0 := by
    rw [← Int.lt_zpow_iff_log_lt (by norm_num) (abs_pos.mpr hx0), habs]
    simpa using h1
  have hlt : x < 2 ^ (Int.log 2 |x| + 1) := lt_of_le_of_lt (le_abs_self x) (lt_zpow_log x)
  rcases lt_or_le (exponentOf x) (-1) with he | he
  · have hle : Int.log 2 |x| + 1 ≤ -1 := by
      have := le_max_left (Int.log 2 |x|) (-1022)
      unfold exponentOf at he
      omega
    have h2 : (2 : ℚ) ^ (Int.log 2 |x| + 1) ≤ 2 ^ (-1 : ℤ) :=
      zpow_le_zpow_right₀ (by norm_num) hle
    have h3 : (2 : ℚ) ^ (-1 : ℤ) = 1 / 2 := by norm_num
    rw [h3] at h2
    have h4 : (1 : ℚ) / 2 ≤ 1 - 1 / 2 ^ 53 := by norm_num
    exact le_trans (le_trans hlt.le h2) h4
  · have hee : exponentOf x = -1 := by
      unfold exponentOf at he ⊢
      have : max (Int.log 2 |x|) (-1022) < 0 := max_lt hL (by norm_num)
      omega
    rw [hee] at hv
    have h2 : (2 : ℚ) ^ ((-1 : ℤ) - 52) = 1 / 2 ^ 53 := by norm_num
    rw [h2] at hv
    obtain ⟨n, hnv⟩ : ∃ n : Int, n = roundHalfEven (x / ulp x) := ⟨_, rfl⟩
    rw [← hnv] at hv
    have hn1 : (n : ℚ) < 2 ^ 53 := by
      rw [hv] at h1
      have : (n : ℚ) * (1 / 2 ^ 53) * 2 ^ 53 < 1 * 2 ^ 53 := by
        apply mul_lt_mul_of_pos_right h1
        positivity
      have e : (n : ℚ) * (1 / 2 ^ 53) * 2 ^ 53 = n := by
        field_simp
      linarith
    have hn2 : n < 2 ^ 53 := by exact_mod_cast hn1
    have hn3 : (n : ℚ) ≤ 2 ^ 53 - 1 := by
      have : n ≤ 2 ^ 53 - 1 := by omega
      exact_mod_cast this
    rw [hv]
    have : (n : ℚ) * (1 / 2 ^ 53) ≤ (2 ^ 53 - 1) * (1 / 2 ^ 53) := by
      apply mul_le_mul_of_nonneg_right hn3
      positivity
    have e : ((2 : ℚ) ^ 53 - 1) * (1 / 2 ^ 53) = 1 - 1 / 2 ^ 53 := by
      field_simp
    linarith

/-- Evaluation of `fl` at a positive rational from a certificate. -/
theorem fl_eq_of_pos (x : ℚ) (e n : Int) (h1 : 2 ^ e ≤ x) (h2 : x < 2 ^ (e + 1))
    (he : -1022 ≤ e) (hl : (n : ℚ) - 1 / 2 < x / 2 ^ (e - 52))
    (hu : x / 2 ^ (e - 52) < (n : ℚ) + 1 / 2) :
    fl x = n * 2 ^ (e - 52) := by
  have hpos : 0 < x := lt_of_lt_of_le (by positivity) h1
  apply fl_eq_of x e n
  · rw [abs_of_pos hpos]
    exact h1
  · rw [abs_of_pos hpos]
    exact h2
  · exact he
  · rw [abs_lt]
    constructor <;> linarith

theorem roundHalfEven_tie (k : Int) :
    roundHalfEven ((k : ℚ) + 1 / 2) = if k % 2 = 0 then k else k + 1 := by
  have hf : ⌊(k : ℚ) + 1 / 2⌋ = k := by
    rw [Int.floor_eq_iff]
    constructor <;> linarith
  unfold roundHalfEven
  rw [hf, if_neg (by norm_num), if_neg (by norm_num)]

/-- Evaluation of `fl` at a positive rational halfway between two doubles:
`n` is the even one of the two neighbours, in units of the last place. -/
theorem fl_eq_of_tie (x : ℚ) (e n : Int) (h1 : 2 ^ e ≤ x) (h2 : x < 2 ^ (e + 1))
    (he : -1022 ≤ e) (hn : n % 2 = 0)
    (hx : x / 2 ^ (e - 52) = (n : ℚ) + 1 / 2 ∨ x / 2 ^ (e - 52) = ((n - 1 : Int) : ℚ) + 1 / 2) :
    fl x = n * 2 ^ (e - 52) := by
  have hpos : 0 < x := lt_of_lt_of_le (by positivity) h1
  have hex : exponentOf x = e := by
    apply exponentOf_eq x e _ _ he
    · rw [abs_of_pos hpos]
      exact h1
    · rw [abs_of_pos hpos]
      exact h2
  unfold fl ulp
  rw [hex]
  rcases hx with hx | hx
  · rw [hx, roundHalfEven_tie, if_pos hn]
  · rw [hx, roundHalfEven_tie, if_neg (by omega)]
    norm_num

/-! ## Lemmas: `toTimestampPair` -/

theorem castInt64_of_uint32 (z : Int) (h0 : 0 ≤ z) (h1 : z ≤ 4294967295) :
    castInt64 z = z := by
  unfold castInt64
  rw [if_pos]
  constructor <;> omega

theorem castInt64_neg_iff (z : Int) : castInt64 z < 0 ↔ z < 0 ∨ 9223372036854775807 < z := by
  unfold castInt64
  split_ifs with h
  · omega
  · constructor
    · intro _
      by_contra hc
      apply h
      constructor <;> omega
    · intro _
      norm_num

theorem castInt64_gt_iff (z : Int) :
    castInt64 z > 4294967295 ↔ 4294967295 < z ∧ z ≤ 9223372036854775807 := by
  unfold castInt64
  split_ifs with h
  · omega
  · constructor
    · intro hc
      omega
    · intro hc
      exfalso
      apply h
      constructor <;> omega

/-- The range test of `toTimestampPair` rejects exactly the inputs whose
floor is negative or above `2 ^ 32 - 1`. -/
theorem rangeTest_iff (s : ℚ) :
    (castInt64 ⌊s⌋ < 0 ∨ castInt64 ⌊s⌋ > UINT32_MAX) ↔ (⌊s⌋ < 0 ∨ 4294967295 < ⌊s⌋) := by
  unfold UINT32_MAX
  rw [castInt64_neg_iff, castInt64_gt_iff]
  omega

/-- A non-negative double below `2 ^ 32` converts to its floor. -/
theorem castUInt32_of_nonneg (x : ℚ) (h0 : 0 ≤ x) (h1 : x < 4294967296) :
    (castUInt32 x : Int) = ⌊x⌋ := by
  have hf0 : 0 ≤ ⌊x⌋ := Int.floor_nonneg.mpr h0
  have hf1 : ⌊x⌋ < 4294967296 := by
    rw [Int.floor_lt]
    exact_mod_cast h1
  unfold castUInt32 truncate
  rw [if_pos h0]
  omega

/-- A double between a 32-bit integer and its successor converts to that
integer. -/
theorem castUInt32_eval (x : ℚ) (N : Nat) (h0 : (N : ℚ) ≤ x) (h1 : x < (N : ℚ) + 1)
    (h2 : N < 4294967296) : castUInt32 x = N := by
  have hx0 : 0 ≤ x := le_trans (by positivity) h0
  have hx1 : x < 4294967296 := by
    have : (N : ℚ) + 1 ≤ 4294967296 := by exact_mod_cast h2
    linarith
  have h := castUInt32_of_nonneg x hx0 hx1
  have hf : ⌊x⌋ = (N : Int) := by
    rw [Int.floor_eq_iff]
    push_cast
    exact ⟨h0, h1⟩
  rw [hf] at h
  exact_mod_cast h

/-- On an input in range the function returns the pair built from the floor
of the seconds and the converted double product. -/
theorem toTimestampPair_in_range (s : ℚ) (h0 : 0 ≤ ⌊s⌋) (h1 : ⌊s⌋ ≤ 4294967295) :
    toTimestampPair s = .ok
      ((⌊s⌋.toNat + castUInt32 (fl (fl (s - (⌊s⌋ : ℚ)) * 1000000000)) / 1000000000)
          % 4294967296,
        castUInt32 (fl (fl (s - (⌊s⌋ : ℚ)) * 1000000000)) % 1000000000) := by
  have hrange : ¬ (castInt64 ⌊s⌋ < 0 ∨ castInt64 ⌊s⌋ > UINT32_MAX) := by
    rw [rangeTest_iff]
    omega
  have hsec : (castInt64 ⌊s⌋).toNat % 4294967296 = ⌊s⌋.toNat := by
    rw [castInt64_of_uint32 _ h0 h1]
    omega
  have hcast : ((⌊s⌋.toNat : ℕ) : ℚ) = (⌊s⌋ : ℚ) := by
    have : ((⌊s⌋.toNat : ℕ) : Int) = ⌊s⌋ := Int.toNat_of_nonneg h0
    exact_mod_cast this
  unfold toTimestampPair kNsecInSecond
  simp only [if_neg hrange, hsec, hcast]

/-- Evaluation of `toTimestampPair` from the floor of the input and the
converted product, when that is below `1e9`. -/
theorem toTimestampPair_eval (s : ℚ) (z N : Nat) (hz : ⌊s⌋ = (z : Int)) (h1 : z ≤ 4294967295)
    (hN : castUInt32 (fl (fl (s - (z : ℚ)) * 1000000000)) = N) (hlt : N < 1000000000) :
    toTimestampPair s = .ok (z, N) := by
  rw [toTimestampPair_in_range s (by omega) (by omega), hz]
  have e : (((z : Int)) : ℚ) = (z : ℚ) := by norm_cast
  rw [e, hN, Nat.div_eq_of_lt hlt, Nat.mod_eq_of_lt hlt, Int.toNat_natCast, Nat.add_zero,
    Nat.mod_eq_of_lt (by omega)]

/-- A whole number of seconds in range converts to itself with no nanoseconds. -/
theorem toTimestampPair_natCast (n : Nat) (h : n ≤ 4294967295) :
    toTimestampPair (n : ℚ) = .ok (n, 0) := by
  apply toTimestampPair_eval (n : ℚ) n 0 _ h _ (by norm_num)
  · exact_mod_cast Int.floor_intCast (n : Int)
  · rw [sub_self, fl_zero, zero_mul, fl_zero]
    apply castUInt32_eval <;> norm_num

/-- The product of the fractional part of a non-negative double with `1e9`
rounds to a double in `0 .. 1e9`, the upper end excluded. -/
theorem fracNanos_bounds (s : ℚ) (hs : fl s = s) (h0 : 0 ≤ s) :
    fl (s - (⌊s⌋ : ℚ)) = s - (⌊s⌋ : ℚ) ∧
    0 ≤ fl ((s - (⌊s⌋ : ℚ)) * 1000000000) ∧
    fl ((s - (⌊s⌋ : ℚ)) * 1000000000) < 1000000000 := by
  have hf := fl_fract s hs h0
  have hf0 : 0 ≤ s - (⌊s⌋ : ℚ) := by
    have := Int.floor_le s
    linarith
  have hf1 : s - (⌊s⌋ : ℚ) < 1 := by
    have := Int.lt_floor_add_one s
    linarith
  have hle := double_lt_one _ hf hf0 hf1
  have hy0 : 0 ≤ (s - (⌊s⌋ : ℚ)) * 1000000000 := by positivity
  have herr := fl_error ((s - (⌊s⌋ : ℚ)) * 1000000000)
  rw [abs_of_nonneg hy0, abs_le] at herr
  refine ⟨hf, fl_nonneg _ hy0, ?_⟩
  have hη : (1 : ℚ) / 2 ^ 1075 ≤ 1 / 10 ^ 300 := by norm_num
  generalize (1 : ℚ) / 2 ^ 1075 = η at herr hη
  generalize fl ((s - (⌊s⌋ : ℚ)) * 1000000000) = p at herr ⊢
  generalize s - (⌊s⌋ : ℚ) = f at hle hf0 herr
  norm_num at hle herr hη
  linarith

/-- On a double in range the function returns the floor of the seconds and
the whole nanoseconds of the rounded product: the carry never fires. -/
theorem toTimestampPair_double (s : ℚ) (hs : fl s = s) (h0 : 0 ≤ ⌊s⌋) (h1 : ⌊s⌋ ≤ 4294967295) :
    toTimestampPair s
      = .ok (⌊s⌋.toNat, ⌊fl ((s - (⌊s⌋ : ℚ)) * 1000000000)⌋.toNat) ∧
    ⌊fl ((s - (⌊s⌋ : ℚ)) * 1000000000)⌋.toNat < 1000000000 := by
  have hs0 : 0 ≤ s := by
    have := Int.floor_le s
    have : (0 : ℚ) ≤ (⌊s⌋ : ℚ) := by exact_mod_cast h0
    linarith
  obtain ⟨hf, hp0, hp1⟩ := fracNanos_bounds s hs hs0
  have hc := castUInt32_of_nonneg _ hp0 (by linarith)
  have hfl0 : 0 ≤ ⌊fl ((s - (⌊s⌋ : ℚ)) * 1000000000)⌋ := Int.floor_nonneg.mpr hp0
  have hfl1 : ⌊fl ((s - (⌊s⌋ : ℚ)) * 1000000000)⌋ < 1000000000 := by
    rw [Int.floor_lt]
    exact_mod_cast hp1
  have hN : castUInt32 (fl ((s - (⌊s⌋ : ℚ)) * 1000000000))
      = ⌊fl ((s - (⌊s⌋ : ℚ)) * 1000000000)⌋.toNat := by omega
  have hlt : ⌊fl ((s - (⌊s⌋ : ℚ)) * 1000000000)⌋.toNat < 1000000000 := by omega
  refine ⟨?_, hlt⟩
  rw [toTimestampPair_in_range s h0 h1, hf, hN, Nat.div_eq_of_lt hlt, Nat.mod_eq_of_lt hlt,
    Nat.add_zero, Nat.mod_eq_of_lt (by omega)]

theorem toTimestampPair_out_of_range (s : ℚ) (h : ⌊s⌋ < 0 ∨ 4294967295 < ⌊s⌋) :
    toTimestampPair s = .error "Time is out of dual 32-bit range" := by
  unfold toTimestampPair
  simp only [if_pos ((rangeTest_iff s).mpr h)]

theorem kSecondsInNsec_eq : kSecondsInNsec = 4835703278458517 / 2 ^ 82 := by
  unfold kSecondsInNsec
  rw [fl_eq_of_pos (1 / 1000000000) (-30) 4835703278458517 (by norm_num) (by norm_num)
    (by norm_num) (by norm_num) (by norm_num)]
  norm_num

/-! ## Lemmas: streams and segments -/

theorem takeWhile_segment (d : Char) (l rest : List Char) (h : d ∉ l) :
    (l ++ d :: rest).takeWhile (fun c => c != d) = l := by
  induction l with
  | nil => simp
  | cons c cs ih =>
    have hc : c ≠ d := fun e => h (by simp [e])
    have hcs : d ∉ cs := fun e => h (by simp [e])
    simp [List.takeWhile_cons, hc, ih hcs]

theorem dropWhile_segment (d : Char) (l rest : List Char) (h : d ∉ l) :
    (l ++ d :: rest).dropWhile (fun c => c != d) = d :: rest := by
  induction l with
  | nil => simp
  | cons c cs ih =>
    have hc : c ≠ d := fun e => h (by simp [e])
    have hcs : d ∉ cs := fun e => h (by simp [e])
    simp [List.dropWhile_cons, hc, ih hcs]

theorem takeWhile_last (d : Char) (l : List Char) (h : d ∉ l) :
    l.takeWhile (fun c => c != d) = l := by
  induction l with
  | nil => simp
  | cons c cs ih =>
    have hc : c ≠ d := fun e => h (by simp [e])
    have hcs : d ∉ cs := fun e => h (by simp [e])
    simp [List.takeWhile_cons, hc, ih hcs]

theorem dropWhile_last (d : Char) (l : List Char) (h : d ∉ l) :
    l.dropWhile (fun c => c != d) = [] := by
  induction l with
  | nil => simp
  | cons c cs ih =>
    have hc : c ≠ d := fun e => h (by simp [e])
    have hcs : d ∉ cs := fun e => h (by simp [e])
    simp [List.dropWhile_cons, hc, ih hcs]

/-- Reading a piece that is followed by the delimiter: the piece is returned,
the delimiter is consumed and the stream stays good. -/
theorem getline_segment (d : Char) (l rest str : List Char) (h : d ∉ l) :
    getline (stringstream (l ++ d :: rest)) str d = (stringstream rest, l) := by
  simp [getline, stringstream, IStream.good, takeWhile_segment d l rest h,
    dropWhile_segment d l rest h]

/-- Reading the last piece: the end of the input sets `eofbit`, and `failbit`
as well when the piece is empty. -/
theorem getline_last (d : Char) (l str : List Char) (h : d ∉ l) :
    getline (stringstream l) str d
      = ({ buf := [], eofbit := true, failbit := l.isEmpty }, l) := by
  simp [getline, stringstream, IStream.good, takeWhile_last d l h, dropWhile_last d l h]

/-- Reading from a stream that is not good only sets `failbit`. -/
theorem getline_not_good (is : IStream) (str : List Char) (d : Char) (h : is.good = false) :
    getline is str d = ({ is with failbit := true }, str) := by
  simp [getline, h]

theorem intercalate_cons_cons (d : Char) (l l2 : List Char) (ls : List (List Char)) :
    [d].intercalate (l :: l2 :: ls) = l ++ d :: [d].intercalate (l2 :: ls) := by
  simp [List.intercalate]

theorem intercalate_single (d : Char) (l : List Char) : [d].intercalate [l] = l := by
  simp [List.intercalate]

theorem segments_ne_nil (d : Char) (l : List Char) : segments d l ≠ [] := by
  cases l with
  | nil => simp [segments]
  | cons c cs =>
    unfold segments
    split_ifs
    · simp
    · split <;> simp

theorem intercalate_segments (d : Char) (l : List Char) :
    [d].intercalate (segments d l) = l := by
  induction l with
  | nil => simp [segments, List.intercalate]
  | cons c cs ih =>
    unfold segments
    split_ifs with hc
    · obtain ⟨s, ss, hs⟩ := List.exists_cons_of_ne_nil (segments_ne_nil d cs)
      rw [hs] at ih ⊢
      rw [intercalate_cons_cons, ih, hc]
      rfl
    · obtain ⟨s, ss, hs⟩ := List.exists_cons_of_ne_nil (segments_ne_nil d cs)
      rw [hs] at ih ⊢
      cases ss with
      | nil =>
        rw [intercalate_single] at ih
        simp [intercalate_single, ih]
      | cons s2 ss =>
        rw [intercalate_cons_cons] at ih
        simp only [intercalate_cons_cons]
        rw [← ih]
        rfl

theorem not_mem_segments (d : Char) (l : List Char) : ∀ s ∈ segments d l, d ∉ s := by
  induction l with
  | nil => simp [segments]
  | cons c cs ih =>
    unfold segments
    split_ifs with hc
    · intro s hs
      rcases List.mem_cons.mp hs with h | h
      · simp [h]
      · exact ih s h
    · obtain ⟨s0, ss, hs0⟩ := List.exists_cons_of_ne_nil (segments_ne_nil d cs)
      rw [hs0] at ih ⊢
      intro s hs
      rcases List.mem_cons.mp hs with h | h
      · rw [h]
        intro hd
        rcases List.mem_cons.mp hd with e | e
        · exact hc e.symm
        · exact ih s0 (by simp) e
      · exact ih s (by simp [h])

theorem length_segments (d : Char) (l : List Char) : (segments d l).length ≤ l.length + 1 := by
  induction l with
  | nil => simp [segments]
  | cons c cs ih =>
    unfold segments
    split_ifs with hc
    · simp only [List.length_cons]
      omega
    · obtain ⟨s0, ss, hs0⟩ := List.exists_cons_of_ne_nil (segments_ne_nil d cs)
      rw [hs0] at ih ⊢
      simp only [List.length_cons] at ih ⊢
      omega

/-! ## Lemmas: `GetFilePrefix` -/

/-- On a path made of the pieces `segs` joined by `/`, the loop of
`GetFilePrefix` leaves through a failed `getline`, within `segs.length + 1`
iterations, having appended the non-empty pieces in order. -/
theorem GetFilePrefix.loop_segments (segs : List (List Char)) (hs : ∀ s ∈ segs, '/' ∉ s) :
    ∀ (fuel : Nat) (item : List Char) (elems : List (List Char)), segs.length + 1 < fuel →
      GetFilePrefix.loop fuel (stringstream (['/'].intercalate segs)) item elems
        = some (elems ++ nonEmpty segs) := by
  induction segs with
  | nil =>
    intro fuel item elems hf
    obtain ⟨f, rfl⟩ : ∃ f, fuel = f + 1 := ⟨fuel - 1, by omega⟩
    have hg := getline_last '/' [] item (by simp)
    simp only [List.intercalate, List.intersperse, List.flatten] at hg ⊢
    simp [GetFilePrefix.loop, hg, nonEmpty]
  | cons l tl ih =>
    intro fuel item elems hf
    have hl : '/' ∉ l := hs l (by simp)
    cases tl with
    | nil =>
      obtain ⟨f, rfl⟩ : ∃ f, fuel = f + 2 := ⟨fuel - 2, by simp at hf; omega⟩
      rw [intercalate_single]
      cases l with
      | nil => simp [GetFilePrefix.loop, getline_last '/' [] item (by simp), nonEmpty]
      | cons c cs =>
        have h2 : getline { buf := [], eofbit := true, failbit := false } (c :: cs) '/'
            = ({ buf := [], eofbit := true, failbit := true }, c :: cs) := by
          rw [getline_not_good _ _ _ (by simp [IStream.good])]
        simp [GetFilePrefix.loop, getline_last '/' (c :: cs) item hl, h2, nonEmpty]
    | cons l2 rest =>
      obtain ⟨f, rfl⟩ : ∃ f, fuel = f + 1 := ⟨fuel - 1, by omega⟩
      have hf2 : (l2 :: rest).length + 1 < f := by
        simp only [List.length_cons] at hf ⊢
        omega
      have hs2 : ∀ s ∈ l2 :: rest, '/' ∉ s := fun s h => hs s (List.mem_cons_of_mem _ h)
      rw [intercalate_cons_cons]
      unfold GetFilePrefix.loop
      rw [getline_segment '/' l _ item hl]
      cases l with
      | nil =>
        have h := ih hs2 f [] elems hf2
        simpa [stringstream, nonEmpty] using h
      | cons c cs =>
        have h := ih hs2 f (c :: cs) (elems ++ [c :: cs]) hf2
        simpa [stringstream, nonEmpty] using h

/-- Every path is processed completely: with `path.length + 2 < fuel` the loop
returns the non-empty segments of the path. -/
theorem GetFilePrefix.loop_path (path : List Char) (fuel : Nat) (hf : path.length + 2 < fuel) :
    GetFilePrefix.loop fuel (stringstream path) [] [] = some (nonEmpty (segments '/' path)) := by
  have h := GetFilePrefix.loop_segments (segments '/' path) (not_mem_segments '/' path)
    fuel [] [] (by have := length_segments '/' path; omega)
  rw [intercalate_segments] at h
  simpa using h

/-- Function `GetFilePrefix` returns for every path, given fuel above its length. -/
theorem GetFilePrefix_isSome (path : List Char) (fuel : Nat) (hf : path.length + 2 < fuel) :
    ∃ pfx, GetFilePrefix fuel path = some pfx := by
  unfold GetFilePrefix
  rw [GetFilePrefix.loop_path path fuel hf]
  simp only
  split_ifs
  · exact ⟨_, rfl⟩
  · exact ⟨_, rfl⟩

/-- The substring test `prefix.find(pat) != npos` holds exactly when `pat`
occurs in the string. -/
theorem find_isSome_iff (pat : List Char) : ∀ s : List Char, (find s pat).isSome ↔ pat <:+: s := by
  intro s
  induction s with
  | nil =>
    unfold find
    cases pat with
    | nil => simp
    | cons p ps => simp
  | cons c cs ih =>
    unfold find
    by_cases hp : pat.isPrefixOf (c :: cs) = true
    · rw [if_pos hp]
      have : pat <+: c :: cs := List.isPrefixOf_iff_prefix.mp hp
      simp [this.isInfix]
    · rw [if_neg hp]
      have hnp : ¬ pat <+: c :: cs := fun h => hp (List.isPrefixOf_iff_prefix.mpr h)
      have hm : (Option.map (fun x => x + 1) (find cs pat)).isSome = (find cs pat).isSome := by
        cases find cs pat <;> rfl
      rw [hm, ih, List.infix_cons_iff]
      constructor
      · intro h
        exact Or.inr h
      · rintro (h | h)
        · exact absurd h hnp
        · exact h

theorem fileExtension_eq (pfx : List Char) :
    (if (find pfx "2d_rect".toList).isSome then ".jpg".toList else ".png".toList)
      = extensionFor pfx := by
  unfold extensionFor
  by_cases h : "2d_rect".toList <:+: pfx
  · rw [if_pos h, if_pos ((find_isSome_iff _ _).mpr h)]
  · rw [if_neg h, if_neg (fun hc => h ((find_isSome_iff _ _).mp hc))]

/-! ## Lemmas: the loop of `LoadImages` (mono) -/

namespace Mono

theorem LoadImages.loop_eof (stod : List Char → Except String ℚ) (d pfx : List Char)
    (fuel : Nat) (fTimes : IStream) (frame : Nat) (v : List (List Char)) (t : List ℚ)
    (h : fTimes.eofbit = true) :
    LoadImages.loop stod d pfx (fuel + 1) fTimes frame v t = some (.ok (v, t)) := by
  simp [LoadImages.loop, h]

theorem LoadImages.loop_blank (stod : List Char → Except String ℚ) (d pfx : List Char)
    (fuel : Nat) (fTimes next : IStream) (frame : Nat) (v : List (List Char)) (t : List ℚ)
    (h : fTimes.eofbit = false) (hg : getline fTimes [] '\n' = (next, [])) :
    LoadImages.loop stod d pfx (fuel + 1) fTimes frame v t
      = LoadImages.loop stod d pfx fuel next frame v t := by
  simp [LoadImages.loop, h, hg]

theorem LoadImages.loop_line (stod : List Char → Except String ℚ) (d pfx : List Char)
    (fuel : Nat) (fTimes next : IStream) (frame : Nat) (v : List (List Char)) (t : List ℚ)
    (s : List Char) (x : ℚ)
    (h : fTimes.eofbit = false) (hg : getline fTimes [] '\n' = (next, s)) (hs : s ≠ [])
    (hx : stod s = .ok x) :
    LoadImages.loop stod d pfx (fuel + 1) fTimes frame v t
      = LoadImages.loop stod d pfx fuel next (frame + 1)
          (v ++ [imageRef d pfx (extensionFor pfx) frame]) (t ++ [x]) := by
  have he : s.isEmpty = false := by
    cases s with
    | nil => exact absurd rfl hs
    | cons c cs => rfl
  rw [LoadImages.loop]
  simp only [h, hg, he, hx, Bool.false_eq_true, if_false, Bool.not_false, if_true]
  rw [fileExtension_eq]
  rfl

theorem LoadImages.loop_throw (stod : List Char → Except String ℚ) (d pfx : List Char)
    (fuel : Nat) (fTimes next : IStream) (frame : Nat) (v : List (List Char)) (t : List ℚ)
    (s : List Char) (e : String)
    (h : fTimes.eofbit = false) (hg : getline fTimes [] '\n' = (next, s)) (hs : s ≠ [])
    (hx : stod s = .error e) :
    LoadImages.loop stod d pfx (fuel + 1) fTimes frame v t = some (.error e) := by
  have he : s.isEmpty = false := by
    cases s with
    | nil => exact absurd rfl hs
    | cons c cs => rfl
  simp [LoadImages.loop, h, hg, he, hx]

/-- On a file made of `lines` joined by newlines, in which `stod` reads every
non-empty line, the loop leaves at end of file within `lines.length + 1`
iterations with one reference and one timestamp per non-empty line. -/
theorem LoadImages.loop_lines (stod : List Char → Except String ℚ) (d pfx : List Char)
    (lines : List (List Char)) (hl : ∀ l ∈ lines, '\n' ∉ l) :
    ∀ (ts : List ℚ) (fuel frame : Nat) (v : List (List Char)) (t : List ℚ),
      (nonEmpty lines).map stod = ts.map Except.ok → lines.length + 1 < fuel →
      LoadImages.loop stod d pfx fuel (stringstream (['\n'].intercalate lines)) frame v t
        = some (.ok (v ++ (List.range' frame ts.length).map (imageRef d pfx (extensionFor pfx)),
            t ++ ts)) := by
  induction lines with
  | nil =>
    intro ts fuel frame v t hts hf
    obtain ⟨f, rfl⟩ : ∃ f, fuel = f + 2 := ⟨fuel - 2, by simp at hf; omega⟩
    have hts0 : ts = [] := by
      cases ts with
      | nil => rfl
      | cons a as => simp [nonEmpty] at hts
    subst hts0
    have hg := getline_last '\n' [] [] (by simp)
    have hi : ['\n'].intercalate ([] : List (List Char)) = [] := by simp [List.intercalate]
    rw [hi, LoadImages.loop_blank stod d pfx (f + 1) _ _ frame v t rfl hg,
      LoadImages.loop_eof stod d pfx f _ frame v t rfl]
    simp
  | cons l tl ih =>
    intro ts fuel frame v t hts hf
    have hln : '\n' ∉ l := hl l (by simp)
    cases tl with
    | nil =>
      obtain ⟨f, rfl⟩ : ∃ f, fuel = f + 2 := ⟨fuel - 2, by simp at hf; omega⟩
      rw [intercalate_single]
      have hg := getline_last '\n' l [] hln
      cases l with
      | nil =>
        have hts0 : ts = [] := by
          cases ts with
          | nil => rfl
          | cons a as => simp [nonEmpty] at hts
        subst hts0
        rw [LoadImages.loop_blank stod d pfx (f + 1) _ _ frame v t rfl hg,
          LoadImages.loop_eof stod d pfx f _ frame v t rfl]
        simp
      | cons c cs =>
        obtain ⟨x, rfl, hx⟩ : ∃ x, ts = [x] ∧ stod (c :: cs) = .ok x := by
          cases ts with
          | nil => simp [nonEmpty] at hts
          | cons a as =>
            cases as with
            | nil =>
              refine ⟨a, rfl, ?_⟩
              simpa [nonEmpty] using hts
            | cons b bs => simp [nonEmpty] at hts
        rw [LoadImages.loop_line stod d pfx (f + 1) _ _ frame v t (c :: cs) x rfl hg
            (by simp) hx,
          LoadImages.loop_eof stod d pfx f _ (frame + 1) _ _ rfl]
        simp [List.range']
    | cons l2 rest =>
      obtain ⟨f, rfl⟩ : ∃ f, fuel = f + 1 := ⟨fuel - 1, by omega⟩
      have hf2 : (l2 :: rest).length + 1 < f := by
        simp only [List.length_cons] at hf ⊢
        omega
      have hl2 : ∀ s ∈ l2 :: rest, '\n' ∉ s := fun s h => hl s (List.mem_cons_of_mem _ h)
      rw [intercalate_cons_cons]
      have hg := getline_segment '\n' l (['\n'].intercalate (l2 :: rest)) [] hln
      cases l with
      | nil =>
        have hts2 : (nonEmpty (l2 :: rest)).map stod = ts.map Except.ok := by
          simpa [nonEmpty] using hts
        rw [LoadImages.loop_blank stod d pfx f _ _ frame v t rfl hg]
        exact ih hl2 ts f frame v t hts2 hf2
      | cons c cs =>
        obtain ⟨x, ts2, rfl, hx, hts2⟩ : ∃ x ts2, ts = x :: ts2 ∧ stod (c :: cs) = .ok x ∧
            (nonEmpty (l2 :: rest)).map stod = ts2.map Except.ok := by
          cases ts with
          | nil => simp [nonEmpty] at hts
          | cons a as =>
            refine ⟨a, as, rfl, ?_⟩
            simpa [nonEmpty] using hts
        rw [LoadImages.loop_line stod d pfx f _ _ frame v t (c :: cs) x rfl hg (by simp) hx,
          ih hl2 ts2 f (frame + 1) _ _ hts2 hf2]
        simp [List.range']

/-- Whatever the stream holds, a normal return of the loop has appended the
references of the frames `frame, frame + 1, ...` in order, and as many
timestamps. -/
theorem LoadImages.loop_appends (stod : List Char → Except String ℚ) (d pfx : List Char) :
    ∀ (fuel : Nat) (fTimes : IStream) (frame : Nat) (v : List (List Char)) (t : List ℚ)
      (imgs : List (List Char)) (ts : List ℚ),
      LoadImages.loop stod d pfx fuel fTimes frame v t = some (.ok (imgs, ts)) →
      ∃ n, imgs = v ++ (List.range' frame n).map (imageRef d pfx (extensionFor pfx)) ∧
        ts.length = t.length + n := by
  intro fuel
  induction fuel with
  | zero =>
    intro fTimes frame v t imgs ts h
    simp [LoadImages.loop] at h
  | succ f ih =>
    intro fTimes frame v t imgs ts h
    by_cases he : fTimes.eofbit = true
    · rw [LoadImages.loop_eof stod d pfx f fTimes frame v t he] at h
      simp only [Option.some.injEq, Except.ok.injEq, Prod.mk.injEq] at h
      refine ⟨0, ?_, ?_⟩
      · simp [h.1]
      · simp [h.2]
    · have he2 : fTimes.eofbit = false := by simpa using he
      obtain ⟨next, s, hg⟩ : ∃ next s, getline fTimes [] '\n' = (next, s) := ⟨_, _, rfl⟩
      cases s with
      | nil =>
        rw [LoadImages.loop_blank stod d pfx f fTimes next frame v t he2 hg] at h
        exact ih next frame v t imgs ts h
      | cons c cs =>
        cases hx : stod (c :: cs) with
        | error e =>
          rw [LoadImages.loop_throw stod d pfx f fTimes next frame v t (c :: cs) e he2 hg
            (by simp) hx] at h
          simp at h
        | ok x =>
          rw [LoadImages.loop_line stod d pfx f fTimes next frame v t (c :: cs) x he2 hg
            (by simp) hx] at h
          obtain ⟨n, h1, h2⟩ := ih next (frame + 1) _ _ imgs ts h
          refine ⟨n + 1, ?_, ?_⟩
          · rw [h1]
            simp [List.range'_succ]
          · rw [h2]
            simp only [List.length_append, List.length_singleton]
            omega

/-- On a stream whose `open` failed the loop never leaves: `eofbit` is never
set, so every amount of fuel is used up. -/
theorem LoadImages.loop_unopened (stod : List Char → Except String ℚ) (d pfx : List Char) :
    ∀ (fuel frame : Nat) (v : List (List Char)) (t : List ℚ),
      LoadImages.loop stod d pfx fuel (ifstreamOpen none) frame v t = none := by
  intro fuel
  induction fuel with
  | zero =>
    intro frame v t
    rfl
  | succ f ih =>
    intro frame v t
    have hg : getline (ifstreamOpen none) [] '\n' = (ifstreamOpen none, []) := by
      rw [getline_not_good _ _ _ (by rfl)]
      rfl
    rw [LoadImages.loop_blank stod d pfx f _ _ frame v t rfl hg]
    exact ih frame v t

end Mono

/-! ## Lemmas: the loop of `LoadImages` (stereo) -/

namespace Stereo

/-- On a stream whose `open` failed the stereo loop never leaves either. -/
theorem LoadImages.stereo_loop_unopened (stod : List Char → Except String ℚ)
    (l r pl pr ext : List Char) :
    ∀ (fuel frame : Nat) (vl vr : List (List Char)) (t : List ℚ),
      LoadImages.loop stod l r pl pr ext fuel (ifstreamOpen none) frame vl vr t = none := by
  intro fuel
  induction fuel with
  | zero =>
    intro frame vl vr t
    rfl
  | succ f ih =>
    intro frame vl vr t
    have hg : getline (ifstreamOpen none) [] '\n' = (ifstreamOpen none, []) := by
      rw [getline_not_good _ _ _ (by rfl)]
      rfl
    rw [LoadImages.loop]
    simp only [hg]
    exact ih frame vl vr t

end Stereo

/-! ## Lemmas: the pacing of `main` -/

theorem vecAt_natCast {α : Type} (v : List α) (n : Nat) : vecAt v (n : Int) = v[n]? := by
  unfold vecAt
  rw [if_neg (by omega)]
  rfl

/-! ## Properties: `toTimestampPair`, `toDoubleInSeconds` -/

/-- C1. `toTimestampPair s` throws exactly when `floor s` is negative or
greater than `2 ^ 32 - 1`, and returns a pair exactly when `floor s` lies in
`0 .. 2 ^ 32 - 1`; `-0.5` and `2 ^ 32` throw, `0` and `2 ^ 32 - 1` return. -/
theorem C1_toTimestampPair_throws_iff :
    (∀ s : ℚ, (∃ e, toTimestampPair s = .error e) ↔ (⌊s⌋ < 0 ∨ ⌊s⌋ > 2 ^ 32 - 1)) ∧
    (∀ s : ℚ, (∃ p, toTimestampPair s = .ok p) ↔ (0 ≤ ⌊s⌋ ∧ ⌊s⌋ ≤ 2 ^ 32 - 1)) ∧
    toTimestampPair (-1 / 2) = .error "Time is out of dual 32-bit range" ∧
    toTimestampPair (2 ^ 32) = .error "Time is out of dual 32-bit range" ∧
    toTimestampPair 0 = .ok (0, 0) ∧
    toTimestampPair (2 ^ 32 - 1) = .ok (4294967295, 0) := by
  refine ⟨?_, ?_, ?_, ?_, ?_, ?_⟩
  · intro s
    constructor
    · rintro ⟨e, he⟩
      by_contra hc
      have h0 : 0 ≤ ⌊s⌋ := by omega
      have h1 : ⌊s⌋ ≤ 4294967295 := by omega
      rw [toTimestampPair_in_range s h0 h1] at he
      cases he
    · intro h
      exact ⟨_, toTimestampPair_out_of_range s (by omega)⟩
  · intro s
    constructor
    · rintro ⟨p, hp⟩
      by_contra hc
      rw [toTimestampPair_out_of_range s (by omega)] at hp
      cases hp
    · rintro ⟨h0, h1⟩
      exact ⟨_, toTimestampPair_in_range s h0 (by omega)⟩
  · apply toTimestampPair_out_of_range
    left
    rw [Int.floor_lt]
    norm_num
  · apply toTimestampPair_out_of_range
    right
    rw [Int.lt_floor_iff]
    norm_num
  · have h := toTimestampPair_natCast 0 (by norm_num)
    rw [Nat.cast_zero] at h
    exact h
  · have e : ((2 : ℚ) ^ 32 - 1) = ((4294967295 : ℕ) : ℚ) := by norm_num
    rw [e]
    exact toTimestampPair_natCast 4294967295 (by norm_num)

/-- C2. At the double `s = 600000 + 103 / 2 ^ 33` (about `600000.000000012`)
the round trip errs by more than a nanosecond. The fractional part times
`1e9` is `11.99...`, which the code truncates to `11` nanoseconds; the pair
`(600000, 11)` converts back to `600000 + 94 / 2 ^ 33`, which is `9 / 2 ^ 33`
(about `1.0477e-9`) away from `s`. Rounded to nearest, the nanoseconds would
be `12`, and the pair `(600000, 12)` converts back to `s` itself. -/
theorem C2_round_trip_at_failing_input :
    IsDouble (5153960755200103 / 2 ^ 33) ∧
    toTimestampPair (5153960755200103 / 2 ^ 33) = .ok (600000, 11) ∧
    toDoubleInSeconds (600000, 11) = 5153960755200094 / 2 ^ 33 ∧
    1 / 1000000000 < |toDoubleInSeconds (600000, 11) - 5153960755200103 / 2 ^ 33| ∧
    round (((5153960755200103 / 2 ^ 33 : ℚ) - (⌊(5153960755200103 / 2 ^ 33 : ℚ)⌋ : ℚ))
      * 1000000000) = 12 ∧
    toDoubleInSeconds (600000, 12) = 5153960755200103 / 2 ^ 33 := by
  have hd : IsDouble (5153960755200103 / 2 ^ 33) := by
    constructor
    · rw [fl_eq_of_pos (5153960755200103 / 2 ^ 33) 19 5153960755200103 (by norm_num)
        (by norm_num) (by norm_num) (by norm_num) (by norm_num)]
      norm_num
    · rw [abs_of_pos (by norm_num)]
      norm_num
  have hf : ⌊(5153960755200103 / 2 ^ 33 : ℚ)⌋ = 600000 := by
    rw [Int.floor_eq_iff]
    norm_num
  have h1 : fl (5153960755200103 / 2 ^ 33 - 600000) = 103 / 2 ^ 33 := by
    rw [fl_eq_of_pos (5153960755200103 / 2 ^ 33 - 600000) (-27) 7247980650299392 (by norm_num)
      (by norm_num) (by norm_num) (by norm_num) (by norm_num)]
    norm_num
  have h2 : fl (103 / 2 ^ 33 * 1000000000) = 201171875 / 2 ^ 24 := by
    rw [fl_eq_of_pos (103 / 2 ^ 33 * 1000000000) 3 6750208000000000 (by norm_num)
      (by norm_num) (by norm_num) (by norm_num) (by norm_num)]
    norm_num
  have h3 : fl (4835703278458517 / 2 ^ 82 * 11) = 6649092007880461 / 2 ^ 79 := by
    rw [fl_eq_of_pos (4835703278458517 / 2 ^ 82 * 11) (-27) 6649092007880461 (by norm_num)
      (by norm_num) (by norm_num) (by norm_num) (by norm_num)]
    norm_num
  have h4 : fl (600000 + 6649092007880461 / 2 ^ 79) = 5153960755200094 / 2 ^ 33 := by
    rw [fl_eq_of_pos (600000 + 6649092007880461 / 2 ^ 79) 19 5153960755200094 (by norm_num)
      (by norm_num) (by norm_num) (by norm_num) (by norm_num)]
    norm_num
  have h5 : fl (4835703278458517 / 2 ^ 82 * 12) = 226673591177743 / 2 ^ 74 := by
    rw [fl_eq_of_tie (4835703278458517 / 2 ^ 82 * 12) (-27) 7253554917687776 (by norm_num)
      (by norm_num) (by norm_num) (by norm_num) (by norm_num)]
    norm_num
  have h6 : fl (600000 + 226673591177743 / 2 ^ 74) = 5153960755200103 / 2 ^ 33 := by
    rw [fl_eq_of_pos (600000 + 226673591177743 / 2 ^ 74) 19 5153960755200103 (by norm_num)
      (by norm_num) (by norm_num) (by norm_num) (by norm_num)]
    norm_num
  have hb : toDoubleInSeconds (600000, 11) = 5153960755200094 / 2 ^ 33 := by
    unfold toDoubleInSeconds
    rw [kSecondsInNsec_eq]
    simp only [Nat.cast_ofNat]
    rw [h3, h4]
  refine ⟨hd, ?_, hb, ?_, ?_, ?_⟩
  · apply toTimestampPair_eval _ 600000 11 (by rw [hf]; rfl) (by norm_num) _ (by norm_num)
    simp only [Nat.cast_ofNat]
    rw [h1, h2]
    apply castUInt32_eval <;> norm_num
  · rw [hb, abs_sub_comm, abs_of_pos (by norm_num)]
    norm_num
  · rw [hf, round_eq, Int.floor_eq_iff]
    norm_num
  · unfold toDoubleInSeconds
    rw [kSecondsInNsec_eq]
    simp only [Nat.cast_ofNat]
    rw [h5, h6]

/-- C3. At the double `0.9999999999`, whose fractional part times `1e9` rounds
to `1,000,000,000`, the code returns `(0, 999999999)`: the product is
truncated, not rounded, so no carry into the seconds takes place and the
pair is not `(floor s + 1, 0)`. The first two parts are at the decimal
`0.9999999999` itself, the last at the double nearest to it. -/
theorem C3_no_carry_at_failing_input :
    toTimestampPair (9999999999 / 10000000000) = .ok (0, 999999999) ∧
    toTimestampPair (9999999999 / 10000000000)
      ≠ .ok ((⌊(9999999999 / 10000000000 : ℚ)⌋ + 1).toNat, 0) ∧
    toTimestampPair (fl (9999999999 / 10000000000)) = .ok (0, 999999999) := by
  have h1 : fl (9999999999 / 10000000000) = 562949953365017 / 2 ^ 49 := by
    rw [fl_eq_of_pos (9999999999 / 10000000000) (-1) 9007199253840272 (by norm_num)
      (by norm_num) (by norm_num) (by norm_num) (by norm_num)]
    norm_num
  have h1b : fl (562949953365017 / 2 ^ 49) = 562949953365017 / 2 ^ 49 := by
    rw [fl_eq_of_pos (562949953365017 / 2 ^ 49) (-1) 9007199253840272 (by norm_num)
      (by norm_num) (by norm_num) (by norm_num) (by norm_num)]
    norm_num
  have h2 : fl (562949953365017 / 2 ^ 49 * 1000000000) = 8388607999161139 / 2 ^ 23 := by
    rw [fl_eq_of_pos (562949953365017 / 2 ^ 49 * 1000000000) (29) 8388607999161139
      (by norm_num) (by norm_num) (by norm_num) (by norm_num) (by norm_num)]
    norm_num
  have hf : ⌊(9999999999 / 10000000000 : ℚ)⌋ = 0 := by
    rw [Int.floor_eq_iff]
    norm_num
  have h : toTimestampPair (9999999999 / 10000000000) = .ok (0, 999999999) := by
    apply toTimestampPair_eval _ 0 999999999 (by rw [hf]; rfl) (by norm_num) _ (by norm_num)
    rw [Nat.cast_zero, sub_zero, h1, h2]
    apply castUInt32_eval <;> norm_num
  refine ⟨h, ?_, ?_⟩
  · rw [h, hf]
    intro hc
    cases hc
  · rw [h1]
    have hfd : ⌊(562949953365017 / 2 ^ 49 : ℚ)⌋ = 0 := by
      rw [Int.floor_eq_iff]
      norm_num
    apply toTimestampPair_eval _ 0 999999999 (by rw [hfd]; rfl) (by norm_num) _ (by norm_num)
    rw [Nat.cast_zero, sub_zero, h1b, h2]
    apply castUInt32_eval <;> norm_num

/-- C4. A returned pair is valid: nanoseconds below `1,000,000,000`, seconds
at most `2 ^ 32 - 1` and, the argument `s` being a double as the parameter
of the source is, equal as an unbounded integer to `floor s` or `floor s + 1`
(no wrap-around). -/
theorem C4_result_valid (s : ℚ) (p : Timestamp) (h : toTimestampPair s = .ok p) :
    p.2 < 1000000000 ∧ p.1 ≤ 2 ^ 32 - 1 ∧
    (IsDouble s → ((p.1 : Int) = ⌊s⌋ ∨ (p.1 : Int) = ⌊s⌋ + 1)) := by
  have hr : 0 ≤ ⌊s⌋ ∧ ⌊s⌋ ≤ 4294967295 := by
    by_contra hc
    rw [toTimestampPair_out_of_range s (by omega)] at h
    cases h
  obtain ⟨h0, h1⟩ := hr
  refine ⟨?_, ?_, ?_⟩
  · rw [toTimestampPair_in_range s h0 h1] at h
    cases h
    exact Nat.mod_lt _ (by norm_num)
  · rw [toTimestampPair_in_range s h0 h1] at h
    cases h
    have := Nat.mod_lt (⌊s⌋.toNat
      + castUInt32 (fl (fl (s - (⌊s⌋ : ℚ)) * 1000000000)) / 1000000000)
      (show 4294967296 > 0 by norm_num)
    show _ % 4294967296 ≤ 2 ^ 32 - 1
    omega
  · intro hs
    obtain ⟨hv, _⟩ := toTimestampPair_double s hs.1 h0 h1
    rw [hv] at h
    cases h
    left
    show ((⌊s⌋.toNat : ℕ) : Int) = ⌊s⌋
    omega

/-- Witness of C4 at the double `s = 1.5`, where the pair is `(1, 500000000)`. -/
theorem C4_result_valid_witness :
    IsDouble (3 / 2) ∧ toTimestampPair (3 / 2) = .ok (1, 500000000) ∧
    (500000000 < 1000000000 ∧ 1 ≤ 2 ^ 32 - 1 ∧
      (((1 : ℕ) : Int) = ⌊(3 / 2 : ℚ)⌋ ∨ ((1 : ℕ) : Int) = ⌊(3 / 2 : ℚ)⌋ + 1)) := by
  have hd : IsDouble (3 / 2) := by
    constructor
    · rw [fl_eq_of_pos (3 / 2) 0 6755399441055744 (by norm_num) (by norm_num) (by norm_num)
        (by norm_num) (by norm_num)]
      norm_num
    · rw [abs_of_pos (by norm_num)]
      norm_num
  have hf : ⌊(3 / 2 : ℚ)⌋ = 1 := by
    rw [Int.floor_eq_iff]
    norm_num
  have h1 : fl (3 / 2 - 1) = 1 / 2 := by
    rw [fl_eq_of_pos (3 / 2 - 1) (-1) 4503599627370496 (by norm_num) (by norm_num)
      (by norm_num) (by norm_num) (by norm_num)]
    norm_num
  have h2 : fl (1 / 2 * 1000000000) = 500000000 := by
    rw [fl_eq_of_pos (1 / 2 * 1000000000) 28 8388608000000000 (by norm_num) (by norm_num)
      (by norm_num) (by norm_num) (by norm_num)]
    norm_num
  have h : toTimestampPair (3 / 2) = .ok (1, 500000000) := by
    apply toTimestampPair_eval _ 1 500000000 (by rw [hf]; rfl) (by norm_num) _ (by norm_num)
    rw [Nat.cast_one, h1, h2]
    apply castUInt32_eval <;> norm_num
  have hc := C4_result_valid (3 / 2) (1, 500000000) h
  exact ⟨hd, h, hc.1, hc.2.1, hc.2.2 hd⟩

/-! ## Properties: `GetFilePrefix`, `LoadImages` -/

/-- C6. For every path with at least three non-empty `/`-separated segments,
`GetFilePrefix` returns the last three of them, each followed by `_`; empty
segments (leading, trailing or doubled slashes) are ignored. -/
theorem C6_GetFilePrefix_last_three (path : List Char) (front : List (List Char))
    (a b c : List Char) (fuel : Nat)
    (hsegs : nonEmpty (segments '/' path) = front ++ [a, b, c])
    (hfuel : path.length + 2 < fuel) :
    GetFilePrefix fuel path
      = some (a ++ "_".toList ++ b ++ "_".toList ++ c ++ "_".toList) := by
  unfold GetFilePrefix
  rw [GetFilePrefix.loop_path path fuel hfuel, hsegs]
  have hlen : (front ++ [a, b, c]).length = front.length + 3 := by simp
  have ha : (front ++ [a, b, c]).getD (front.length + 3 - 3) [] = a := by
    rw [List.getD_append_right _ _ _ _ (by omega)]
    have : front.length + 3 - 3 - front.length = 0 := by omega
    rw [this]
    rfl
  have hb : (front ++ [a, b, c]).getD (front.length + 3 - 2) [] = b := by
    rw [List.getD_append_right _ _ _ _ (by omega)]
    have : front.length + 3 - 2 - front.length = 1 := by omega
    rw [this]
    rfl
  have hc : (front ++ [a, b, c]).getD (front.length + 3 - 1) [] = c := by
    rw [List.getD_append_right _ _ _ _ (by omega)]
    have : front.length + 3 - 1 - front.length = 2 := by omega
    rw [this]
    rfl
  simp only [hlen]
  rw [if_pos (by omega), ha, hb, hc]

/-- Witness of C6: `/data/CODa/2d_rect/cam0/0` gives `2d_rect_cam0_0_`. -/
theorem C6_GetFilePrefix_witness :
    nonEmpty (segments '/' "/data/CODa/2d_rect/cam0/0".toList)
        = ["data".toList, "CODa".toList] ++ ["2d_rect".toList, "cam0".toList, "0".toList] ∧
      "/data/CODa/2d_rect/cam0/0".toList.length + 2 < 30 ∧
      GetFilePrefix 30 "/data/CODa/2d_rect/cam0/0".toList = some "2d_rect_cam0_0_".toList :=
  ⟨by decide, by decide,
    C6_GetFilePrefix_last_three "/data/CODa/2d_rect/cam0/0".toList
      ["data".toList, "CODa".toList] "2d_rect".toList "cam0".toList "0".toList 30
      (by decide) (by decide)⟩

/-- C5. Mono `LoadImages` on a readable file made of `lines`, each empty or
read by `stod` (the `k`-th non-empty line as `ts[k]`): the call returns, and
it has appended one frame per non-empty line, in line order, frame `k` with
the reference built with index `k` and the timestamp `ts[k]`. -/
theorem C5_LoadImages_one_frame_per_line
    (stod : List Char → Except String ℚ) (fs : List Char → Option (List Char))
    (strImagePath strPathTimes : List Char) (lines : List (List Char)) (ts : List ℚ)
    (vstrImages : List (List Char)) (vTimeStamps : List ℚ) (fuel : Nat)
    (hfile : fs strPathTimes = some (['\n'].intercalate lines))
    (hlines : ∀ l ∈ lines, '\n' ∉ l)
    (hnum : (nonEmpty lines).map stod = ts.map Except.ok)
    (hfuel : strImagePath.length + 2 < fuel ∧ lines.length + 1 < fuel) :
    ∃ pfx, GetFilePrefix fuel strImagePath = some pfx ∧
      Mono.LoadImages stod fs fuel strImagePath strPathTimes vstrImages vTimeStamps
        = some (.ok
            (vstrImages ++ (List.range (nonEmpty lines).length).map
                (imageRef strImagePath pfx (extensionFor pfx)),
              vTimeStamps ++ ts)) := by
  obtain ⟨pfx, hp⟩ := GetFilePrefix_isSome strImagePath fuel hfuel.1
  refine ⟨pfx, hp, ?_⟩
  have hlen : (nonEmpty lines).length = ts.length := by
    have := congrArg List.length hnum
    simpa using this
  unfold Mono.LoadImages
  rw [hp, hfile]
  have h := Mono.LoadImages.loop_lines stod strImagePath pfx lines hlines ts fuel 0
    vstrImages vTimeStamps hnum hfuel.2
  rw [hlen, List.range_eq_range']
  exact h

/-- Witness of C5: the lines `0.0`, (blank), `0.05`, `0.10` give exactly three
frames, with indices 0, 1, 2 and timestamps 0, 0.05, 0.10. -/
theorem C5_LoadImages_witness :
    Mono.LoadImages stodDecimal (oneFile "times/0.txt".toList "0.0\n\n0.05\n0.10".toList) 40
        "/data/CODa/2d_rect/cam0/0".toList "times/0.txt".toList [] []
      = some (.ok (["/data/CODa/2d_rect/cam0/0/2d_rect_cam0_0_0.jpg".toList,
            "/data/CODa/2d_rect/cam0/0/2d_rect_cam0_0_1.jpg".toList,
            "/data/CODa/2d_rect/cam0/0/2d_rect_cam0_0_2.jpg".toList],
          [mkRat 0 1, mkRat 5 100, mkRat 10 100])) ∧
    ∃ pfx, GetFilePrefix 40 "/data/CODa/2d_rect/cam0/0".toList = some pfx ∧
      Mono.LoadImages stodDecimal (oneFile "times/0.txt".toList "0.0\n\n0.05\n0.10".toList) 40
          "/data/CODa/2d_rect/cam0/0".toList "times/0.txt".toList [] []
        = some (.ok
            ([] ++ (List.range
                  (nonEmpty ["0.0".toList, [], "0.05".toList, "0.10".toList]).length).map
                (imageRef "/data/CODa/2d_rect/cam0/0".toList pfx (extensionFor pfx)),
              [] ++ [mkRat 0 1, mkRat 5 100, mkRat 10 100])) :=
  ⟨by rfl,
    C5_LoadImages_one_frame_per_line stodDecimal
      (oneFile "times/0.txt".toList "0.0\n\n0.05\n0.10".toList)
      "/data/CODa/2d_rect/cam0/0".toList "times/0.txt".toList
      ["0.0".toList, [], "0.05".toList, "0.10".toList] [mkRat 0 1, mkRat 5 100, mkRat 10 100]
      [] [] 40 (by rfl) (by decide) (by rfl) (by decide)⟩

/-- C7. Every image reference the mono `LoadImages` appends is
`d + "/" + GetFilePrefix(d) + decimal(k) + ext` for its frame index `k`, where
`ext` is `.jpg` when the prefix contains `2d_rect` and `.png` otherwise. -/
theorem C7_image_reference
    (stod : List Char → Except String ℚ) (fs : List Char → Option (List Char))
    (fuel : Nat) (strImagePath strPathTimes : List Char)
    (vstrImages : List (List Char)) (vTimeStamps : List ℚ)
    (imgs : List (List Char)) (ts : List ℚ)
    (h : Mono.LoadImages stod fs fuel strImagePath strPathTimes vstrImages vTimeStamps
      = some (.ok (imgs, ts))) :
    ∃ pfx n, GetFilePrefix fuel strImagePath = some pfx ∧
      imgs.length = vstrImages.length + n ∧
      ∀ k, k < n →
        imgs[vstrImages.length + k]?
          = some (strImagePath ++ "/".toList ++ pfx ++ Nat.toDigits 10 k
              ++ (if "2d_rect".toList <:+: pfx then ".jpg".toList else ".png".toList)) := by
  unfold Mono.LoadImages at h
  cases hp : GetFilePrefix fuel strImagePath with
  | none =>
    rw [hp] at h
    simp at h
  | some pfx =>
    rw [hp] at h
    obtain ⟨n, h1, _⟩ := Mono.LoadImages.loop_appends stod strImagePath pfx fuel _ 0
      vstrImages vTimeStamps imgs ts h
    refine ⟨pfx, n, rfl, ?_, ?_⟩
    · rw [h1]
      simp
    · intro k hk
      rw [h1, List.getElem?_append_right (by omega)]
      have : vstrImages.length + k - vstrImages.length = k := by omega
      rw [this, List.getElem?_map, List.getElem?_range' _ _ hk]
      simp [imageRef, extensionFor, to_string]

/-- Witness of C7: in `/data/CODa/2d_rect/cam0/0` the references end in `.jpg`,
in `/data/CODa/depth/cam0/3` they end in `.png`. -/
theorem C7_image_reference_witness :
    (Mono.LoadImages stodDecimal (oneFile "t".toList "0.0\n0.05".toList) 40
        "/data/CODa/2d_rect/cam0/0".toList "t".toList [] []
      = some (.ok (["/data/CODa/2d_rect/cam0/0/2d_rect_cam0_0_0.jpg".toList,
            "/data/CODa/2d_rect/cam0/0/2d_rect_cam0_0_1.jpg".toList],
          [mkRat 0 1, mkRat 5 100])) ∧
      Mono.LoadImages stodDecimal (oneFile "t".toList "0.0\n0.05".toList) 40
        "/data/CODa/depth/cam0/3".toList "t".toList [] []
      = some (.ok (["/data/CODa/depth/cam0/3/depth_cam0_3_0.png".toList,
            "/data/CODa/depth/cam0/3/depth_cam0_3_1.png".toList],
          [mkRat 0 1, mkRat 5 100]))) ∧
    ∃ pfx n, GetFilePrefix 40 "/data/CODa/depth/cam0/3".toList = some pfx ∧
      ["/data/CODa/depth/cam0/3/depth_cam0_3_0.png".toList,
          "/data/CODa/depth/cam0/3/depth_cam0_3_1.png".toList].length
        = ([] : List (List Char)).length + n ∧
      ∀ k, k < n →
        ["/data/CODa/depth/cam0/3/depth_cam0_3_0.png".toList,
            "/data/CODa/depth/cam0/3/depth_cam0_3_1.png".toList][
              ([] : List (List Char)).length + k]?
          = some ("/data/CODa/depth/cam0/3".toList ++ "/".toList ++ pfx ++ Nat.toDigits 10 k
              ++ (if "2d_rect".toList <:+: pfx then ".jpg".toList else ".png".toList)) :=
  ⟨⟨by rfl, by rfl⟩,
    C7_image_reference stodDecimal (oneFile "t".toList "0.0\n0.05".toList) 40
      "/data/CODa/depth/cam0/3".toList "t".toList [] []
      ["/data/CODa/depth/cam0/3/depth_cam0_3_0.png".toList,
        "/data/CODa/depth/cam0/3/depth_cam0_3_1.png".toList]
      [mkRat 0 1, mkRat 5 100] (by rfl)⟩

/-- C8. When the timestamp file cannot be opened, `LoadImages` does not
return: its loop tests only `eof()`, which a failed `open` never sets, so the
mono and the stereo loader exhaust every amount of fuel. -/
theorem C8_unopenable_file_never_returns :
    (∀ (stod : List Char → Except String ℚ) (fuel : Nat) (d pfx : List Char) (frame : Nat)
        (v : List (List Char)) (t : List ℚ),
        Mono.LoadImages.loop stod d pfx fuel (ifstreamOpen none) frame v t = none) ∧
    (∀ (stod : List Char → Except String ℚ) (fuel : Nat) (d p : List Char)
        (v : List (List Char)) (t : List ℚ),
        Mono.LoadImages stod noFile fuel d p v t = none) ∧
    (∀ (stod : List Char → Except String ℚ) (fuel : Nat) (l r p : List Char)
        (vl vr : List (List Char)) (t : List ℚ),
        Stereo.LoadImages stod noFile fuel l r p vl vr t = none) := by
  refine ⟨?_, ?_, ?_⟩
  · intro stod fuel d pfx frame v t
    exact Mono.LoadImages.loop_unopened stod d pfx fuel frame v t
  · intro stod fuel d p v t
    unfold Mono.LoadImages
    cases GetFilePrefix fuel d with
    | none => rfl
    | some pfx => exact Mono.LoadImages.loop_unopened stod d pfx fuel 0 v t
  · intro stod fuel l r p vl vr t
    unfold Stereo.LoadImages
    cases GetFilePrefix fuel l with
    | none => rfl
    | some pl =>
      cases GetFilePrefix fuel r with
      | none => rfl
      | some pr => exact Stereo.LoadImages.stereo_loop_unopened stod l r pl pr _ fuel 0 vl vr t

/-! ## Properties: the pacing of `main` -/

/-- The double product of the wait: for a gap below `2 ^ 32 - 1` microseconds
it is not negative, below `2 ^ 32`, and within a millionth of a microsecond
of the exact product. -/
theorem main_usleep_product (T d : ℚ) (hlt : d < T)
    (hrange : (T - d) * 1000000 < 4294967295) :
    0 ≤ fl (fl (T - d) * 1000000) ∧ fl (fl (T - d) * 1000000) < 4294967296 ∧
    |fl (fl (T - d) * 1000000) - (T - d) * 1000000| < 1 / 1000000 := by
  have hy : 0 < T - d := by linarith
  have ha0 : 0 ≤ fl (T - d) := fl_nonneg _ hy.le
  have hm0 : 0 ≤ fl (T - d) * 1000000 := by positivity
  have hp0 : 0 ≤ fl (fl (T - d) * 1000000) := fl_nonneg _ hm0
  have he1 := fl_error (T - d)
  have he2 := fl_error (fl (T - d) * 1000000)
  rw [abs_of_pos hy, abs_le] at he1
  rw [abs_of_nonneg hm0, abs_le] at he2
  have hη : (1 : ℚ) / 2 ^ 1075 ≤ 1 / 10 ^ 300 := by norm_num
  have hη0 : (0 : ℚ) ≤ 1 / 2 ^ 1075 := by positivity
  generalize (1 : ℚ) / 2 ^ 1075 = η at he1 he2 hη hη0
  generalize fl (fl (T - d) * 1000000) = p at he2 hp0 ⊢
  generalize fl (T - d) = a at he1 he2 ha0 hm0
  generalize T - d = y at he1 hy hrange
  norm_num at he1 he2 hη
  refine ⟨hp0, ?_, ?_⟩
  · linarith
  · rw [abs_lt]
    constructor <;> linarith

/-- C10, the claim as stated fails. With the timestamps `[0, 0.05, 0.10,
0.15, 0.20]` and `d = 0.02`, all as doubles, the gap at index 2 is
`900719925474099 / 2 ^ 54`, about `0.04999999999999999` (a double, so the
subtraction of the source returns just it), the loop asks for `29999`
microseconds, and that delay is neither `max(0, T - d)` nor `0.03` s. -/
theorem C10_delay_at_index_two :
    main_T [0, fl (1 / 20), fl (1 / 10), fl (3 / 20), fl (1 / 5)] 5 2
      = some (900719925474099 / 2 ^ 54) ∧
    fl (900719925474099 / 2 ^ 54) = 900719925474099 / 2 ^ 54 ∧
    main_usleep (900719925474099 / 2 ^ 54) (fl (1 / 50)) = some 29999 ∧
    delaySeconds (900719925474099 / 2 ^ 54) (fl (1 / 50))
      ≠ max 0 (900719925474099 / 2 ^ 54 - fl (1 / 50)) ∧
    delaySeconds (900719925474099 / 2 ^ 54) (fl (1 / 50)) ≠ 3 / 100 := by
  have t2 : fl (1 / 10) = 3602879701896397 / 2 ^ 55 := by
    rw [fl_eq_of_pos (1 / 10) (-4) 7205759403792794 (by norm_num) (by norm_num) (by norm_num)
      (by norm_num) (by norm_num)]
    norm_num
  have t3 : fl (3 / 20) = 5404319552844595 / 2 ^ 55 := by
    rw [fl_eq_of_pos (3 / 20) (-3) 5404319552844595 (by norm_num) (by norm_num) (by norm_num)
      (by norm_num) (by norm_num)]
    norm_num
  have hd : fl (1 / 50) = 5764607523034235 / 2 ^ 58 := by
    rw [fl_eq_of_pos (1 / 50) (-6) 5764607523034235 (by norm_num) (by norm_num) (by norm_num)
      (by norm_num) (by norm_num)]
    norm_num
  have hT : fl (900719925474099 / 2 ^ 54) = 900719925474099 / 2 ^ 54 := by
    rw [fl_eq_of_pos (900719925474099 / 2 ^ 54) (-5) 7205759403792792 (by norm_num)
      (by norm_num) (by norm_num) (by norm_num) (by norm_num)]
    norm_num
  have ha : fl (900719925474099 / 2 ^ 54 - 5764607523034235 / 2 ^ 58)
      = 8646911284551349 / 2 ^ 58 := by
    rw [fl_eq_of_pos (900719925474099 / 2 ^ 54 - 5764607523034235 / 2 ^ 58) (-6)
      8646911284551349 (by norm_num) (by norm_num) (by norm_num) (by norm_num) (by norm_num)]
    norm_num
  have hp : fl (8646911284551349 / 2 ^ 58 * 1000000) = 8246337208319997 / 2 ^ 38 := by
    rw [fl_eq_of_pos (8646911284551349 / 2 ^ 58 * 1000000) 14 8246337208319997 (by norm_num)
      (by norm_num) (by norm_num) (by norm_num) (by norm_num)]
    norm_num
  have hu : main_usleep (900719925474099 / 2 ^ 54) (fl (1 / 50)) = some 29999 := by
    unfold main_usleep
    rw [hd, if_pos (by norm_num), ha, hp]
    congr 1
    apply castUInt32_eval <;> norm_num
  have hs : delaySeconds (900719925474099 / 2 ^ 54) (fl (1 / 50)) = 29999 / 1000000 := by
    unfold delaySeconds delayMicroseconds
    rw [hu]
    norm_num
  refine ⟨?_, hT, hu, ?_, ?_⟩
  · have h2 : Int.toNat 2 = 2 := rfl
    have h3 : Int.toNat 3 = 3 := rfl
    rw [t2, t3]
    norm_num [main_T, vecAt, h2, h3]
  · rw [hs, hd]
    norm_num
  · rw [hs]
    norm_num

/-- C10, amended. For a gap `T - d` below `2 ^ 32 - 1` microseconds the loop
does not sleep when `d >= T`; otherwise it asks to wait the whole number of
microseconds in the double product `(T - d) * 1e6`. The delay is never
negative and differs from `max(0, T - d)` by less than `1.000001`
microseconds. -/
theorem C10_pacing_delay (T d : ℚ) (hrange : (T - d) * 1000000 < 4294967295) :
    0 ≤ delaySeconds T d ∧
    (d ≥ T → main_usleep T d = none ∧ delaySeconds T d = 0) ∧
    (d < T → main_usleep T d = some (delayMicroseconds T d) ∧
      (delayMicroseconds T d : Int) = ⌊fl (fl (T - d) * 1000000)⌋) ∧
    |delaySeconds T d - max 0 (T - d)| < 1000001 / 1000000000000 := by
  by_cases hlt : d < T
  · obtain ⟨hp0, hp1, hp2⟩ := main_usleep_product T d hlt hrange
    have hmax : max 0 (T - d) = T - d := max_eq_right (by linarith)
    have hu : main_usleep T d = some (castUInt32 (fl (fl (T - d) * 1000000))) := by
      unfold main_usleep
      rw [if_pos hlt]
    have hm : delayMicroseconds T d = castUInt32 (fl (fl (T - d) * 1000000)) := by
      unfold delayMicroseconds
      rw [hu]
      rfl
    have hc := castUInt32_of_nonneg _ hp0 hp1
    have hq : ((castUInt32 (fl (fl (T - d) * 1000000)) : ℕ) : ℚ)
        = (⌊fl (fl (T - d) * 1000000)⌋ : ℚ) := by
      exact_mod_cast hc
    have hle := Int.floor_le (fl (fl (T - d) * 1000000))
    have hgt := Int.lt_floor_add_one (fl (fl (T - d) * 1000000))
    refine ⟨?_, ?_, ?_, ?_⟩
    · unfold delaySeconds
      positivity
    · intro hge
      exact absurd hlt (not_lt.mpr hge)
    · intro _
      refine ⟨?_, ?_⟩
      · rw [hu, hm]
      · rw [hm]
        exact hc
    · unfold delaySeconds
      rw [hm, hq, hmax]
      rw [abs_lt] at hp2 ⊢
      constructor <;> linarith
  · have hge : T ≤ d := not_lt.mp hlt
    have hmax : max 0 (T - d) = 0 := max_eq_left (by linarith)
    have hn : main_usleep T d = none := by
      unfold main_usleep
      rw [if_neg hlt]
    have hu : delayMicroseconds T d = 0 := by
      unfold delayMicroseconds
      rw [hn]
      rfl
    have hs : delaySeconds T d = 0 := by
      unfold delaySeconds
      rw [hu]
      simp
    refine ⟨?_, ?_, ?_, ?_⟩
    · rw [hs]
    · intro _
      exact ⟨hn, hs⟩
    · intro h
      exact absurd h hlt
    · rw [hs, hmax]
      norm_num

/-- Witness of C10, amended: with the timestamps `[0, 0.05, 0.10, 0.15, 0.20]`
and `d = 0.02`, all as doubles, the gap at the final index 4 is
`1801439850948199 / 2 ^ 55`, about `0.05000000000000002` (a double, so the
subtraction of the source returns just it), and the delay is `30000`
microseconds, within `1.000001` microseconds of `T - d`. -/
theorem C10_pacing_delay_witness :
    main_T [0, fl (1 / 20), fl (1 / 10), fl (3 / 20), fl (1 / 5)] 5 4
      = some (1801439850948199 / 2 ^ 55) ∧
    fl (1801439850948199 / 2 ^ 55) = 1801439850948199 / 2 ^ 55 ∧
    ((1801439850948199 / 2 ^ 55 : ℚ) - fl (1 / 50)) * 1000000 < 4294967295 ∧
    main_usleep (1801439850948199 / 2 ^ 55) (fl (1 / 50)) = some 30000 ∧
    |delaySeconds (1801439850948199 / 2 ^ 55) (fl (1 / 50))
      - max 0 (1801439850948199 / 2 ^ 55 - fl (1 / 50))| < 1000001 / 1000000000000 := by
  have t3 : fl (3 / 20) = 5404319552844595 / 2 ^ 55 := by
    rw [fl_eq_of_pos (3 / 20) (-3) 5404319552844595 (by norm_num) (by norm_num) (by norm_num)
      (by norm_num) (by norm_num)]
    norm_num
  have t4 : fl (1 / 5) = 3602879701896397 / 2 ^ 54 := by
    rw [fl_eq_of_pos (1 / 5) (-3) 7205759403792794 (by norm_num) (by norm_num) (by norm_num)
      (by norm_num) (by norm_num)]
    norm_num
  have hd : fl (1 / 50) = 5764607523034235 / 2 ^ 58 := by
    rw [fl_eq_of_pos (1 / 50) (-6) 5764607523034235 (by norm_num) (by norm_num) (by norm_num)
      (by norm_num) (by norm_num)]
    norm_num
  have hT : fl (1801439850948199 / 2 ^ 55) = 1801439850948199 / 2 ^ 55 := by
    rw [fl_eq_of_pos (1801439850948199 / 2 ^ 55) (-5) 7205759403792796 (by norm_num)
      (by norm_num) (by norm_num) (by norm_num) (by norm_num)]
    norm_num
  have ha : fl (1801439850948199 / 2 ^ 55 - 5764607523034235 / 2 ^ 58)
      = 8646911284551357 / 2 ^ 58 := by
    rw [fl_eq_of_pos (1801439850948199 / 2 ^ 55 - 5764607523034235 / 2 ^ 58) (-6)
      8646911284551357 (by norm_num) (by norm_num) (by norm_num) (by norm_num) (by norm_num)]
    norm_num
  have hp : fl (8646911284551357 / 2 ^ 58 * 1000000) = 2061584302080001 / 2 ^ 36 := by
    rw [fl_eq_of_pos (8646911284551357 / 2 ^ 58 * 1000000) 14 8246337208320004 (by norm_num)
      (by norm_num) (by norm_num) (by norm_num) (by norm_num)]
    norm_num
  have hr : ((1801439850948199 / 2 ^ 55 : ℚ) - fl (1 / 50)) * 1000000 < 4294967295 := by
    rw [hd]
    norm_num
  refine ⟨?_, hT, hr, ?_,
    (C10_pacing_delay (1801439850948199 / 2 ^ 55) (fl (1 / 50)) hr).2.2.2⟩
  · have h3 : Int.toNat 3 = 3 := rfl
    have h4 : Int.toNat 4 = 4 := rfl
    rw [t3, t4]
    norm_num [main_T, vecAt, h3, h4]
  · unfold main_usleep
    rw [hd, if_pos (by norm_num), ha, hp]
    congr 1
    apply castUInt32_eval <;> norm_num

/-! ## Properties: `toTimestampPair`, rounding and the reverse round trip -/

/-- C16. At the double `0.0000000006`, where `round((s - floor s) * 1e9)` is
`1`, the code returns nanoseconds `0`: the product is truncated, not rounded
to nearest. The first three parts are at the decimal `0.0000000006` itself,
the last at the double nearest to it. -/
theorem C16_nanoseconds_truncated_at_failing_input :
    toTimestampPair (6 / 10000000000) = .ok (0, 0) ∧
    round (((6 / 10000000000 : ℚ) - (⌊(6 / 10000000000 : ℚ)⌋ : ℚ)) * 1000000000) = 1 ∧
    toTimestampPair (6 / 10000000000) ≠ .ok (0, 1) ∧
    toTimestampPair (fl (6 / 10000000000)) = .ok (0, 0) := by
  have h1 : fl (6 / 10000000000) = 1450710983537555 / 2 ^ 81 := by
    rw [fl_eq_of_pos (6 / 10000000000) (-31) 5802843934150220 (by norm_num) (by norm_num)
      (by norm_num) (by norm_num) (by norm_num)]
    norm_num
  have h1b : fl (1450710983537555 / 2 ^ 81) = 1450710983537555 / 2 ^ 81 := by
    rw [fl_eq_of_pos (1450710983537555 / 2 ^ 81) (-31) 5802843934150220 (by norm_num)
      (by norm_num) (by norm_num) (by norm_num) (by norm_num)]
    norm_num
  have h2 : fl (1450710983537555 / 2 ^ 81 * 1000000000) = 5404319552844595 / 2 ^ 53 := by
    rw [fl_eq_of_pos (1450710983537555 / 2 ^ 81 * 1000000000) (-1) 5404319552844595
      (by norm_num) (by norm_num) (by norm_num) (by norm_num) (by norm_num)]
    norm_num
  have hf : ⌊(6 / 10000000000 : ℚ)⌋ = 0 := by
    rw [Int.floor_eq_iff]
    norm_num
  have h : toTimestampPair (6 / 10000000000) = .ok (0, 0) := by
    apply toTimestampPair_eval _ 0 0 (by rw [hf]; rfl) (by norm_num) _ (by norm_num)
    rw [Nat.cast_zero, sub_zero, h1, h2]
    apply castUInt32_eval <;> norm_num
  refine ⟨h, ?_, ?_, ?_⟩
  · rw [hf, round_eq, Int.floor_eq_iff]
    norm_num
  · rw [h]
    intro hc
    cases hc
  · rw [h1]
    have hfd : ⌊(1450710983537555 / 2 ^ 81 : ℚ)⌋ = 0 := by
      rw [Int.floor_eq_iff]
      norm_num
    apply toTimestampPair_eval _ 0 0 (by rw [hfd]; rfl) (by norm_num) _ (by norm_num)
    rw [Nat.cast_zero, sub_zero, h1b, h2]
    apply castUInt32_eval <;> norm_num

namespace Stereo

theorem LoadImages.stereo_loop_eof (stod : List Char → Except String ℚ)
    (l r pl pr ext : List Char) (fuel : Nat) (fTimes : IStream) (frame : Nat)
    (vl vr : List (List Char)) (t : List ℚ) (h : fTimes.eofbit = true) :
    LoadImages.loop stod l r pl pr ext (fuel + 1) fTimes frame vl vr t
      = some (.ok (vl, vr, t)) := by
  simp [LoadImages.loop, h]

theorem LoadImages.stereo_loop_blank (stod : List Char → Except String ℚ)
    (l r pl pr ext : List Char) (fuel : Nat) (fTimes next : IStream) (frame : Nat)
    (vl vr : List (List Char)) (t : List ℚ)
    (h : fTimes.eofbit = false) (hg : getline fTimes [] '\n' = (next, [])) :
    LoadImages.loop stod l r pl pr ext (fuel + 1) fTimes frame vl vr t
      = LoadImages.loop stod l r pl pr ext fuel next frame vl vr t := by
  simp [LoadImages.loop, h, hg]

theorem LoadImages.stereo_loop_line (stod : List Char → Except String ℚ)
    (l r pl pr ext : List Char) (fuel : Nat) (fTimes next : IStream) (frame : Nat)
    (vl vr : List (List Char)) (t : List ℚ) (s : List Char) (x : ℚ)
    (h : fTimes.eofbit = false) (hg : getline fTimes [] '\n' = (next, s)) (hs : s ≠ [])
    (hx : stod s = .ok x) :
    LoadImages.loop stod l r pl pr ext (fuel + 1) fTimes frame vl vr t
      = LoadImages.loop stod l r pl pr ext fuel next (frame + 1)
          (vl ++ [imageRef l pl ext frame]) (vr ++ [imageRef r pr ext frame]) (t ++ [x]) := by
  have he : s.isEmpty = false := by
    cases s with
    | nil => exact absurd rfl hs
    | cons c cs => rfl
  rw [LoadImages.loop]
  simp only [h, hg, he, hx, Bool.false_eq_true, if_false, Bool.not_false, if_true]
  rfl

theorem LoadImages.stereo_loop_throw (stod : List Char → Except String ℚ)
    (l r pl pr ext : List Char) (fuel : Nat) (fTimes next : IStream) (frame : Nat)
    (vl vr : List (List Char)) (t : List ℚ) (s : List Char) (e : String)
    (h : fTimes.eofbit = false) (hg : getline fTimes [] '\n' = (next, s)) (hs : s ≠ [])
    (hx : stod s = .error e) :
    LoadImages.loop stod l r pl pr ext (fuel + 1) fTimes frame vl vr t = some (.error e) := by
  have he : s.isEmpty = false := by
    cases s with
    | nil => exact absurd rfl hs
    | cons c cs => rfl
  simp [LoadImages.loop, h, hg, he, hx]

/-- On a file made of `lines` joined by newlines, in which `stod` reads every
non-empty line, the stereo loop leaves at end of file with one left
reference, one right reference and one timestamp per non-empty line. -/
theorem LoadImages.stereo_loop_lines (stod : List Char → Except String ℚ)
    (l r pl pr ext : List Char) (lines : List (List Char)) (hl : ∀ s ∈ lines, '\n' ∉ s) :
    ∀ (ts : List ℚ) (fuel frame : Nat) (vl vr : List (List Char)) (t : List ℚ),
      (nonEmpty lines).map stod = ts.map Except.ok → lines.length + 1 < fuel →
      LoadImages.loop stod l r pl pr ext fuel (stringstream (['\n'].intercalate lines))
          frame vl vr t
        = some (.ok (vl ++ (List.range' frame ts.length).map (imageRef l pl ext),
            vr ++ (List.range' frame ts.length).map (imageRef r pr ext), t ++ ts)) := by
  induction lines with
  | nil =>
    intro ts fuel frame vl vr t hts hf
    obtain ⟨f, rfl⟩ : ∃ f, fuel = f + 2 := ⟨fuel - 2, by simp at hf; omega⟩
    have hts0 : ts = [] := by
      cases ts with
      | nil => rfl
      | cons a as => simp [nonEmpty] at hts
    subst hts0
    have hg := getline_last '\n' [] [] (by simp)
    have hi : ['\n'].intercalate ([] : List (List Char)) = [] := by simp [List.intercalate]
    rw [hi, LoadImages.stereo_loop_blank stod l r pl pr ext (f + 1) _ _ frame vl vr t rfl hg,
      LoadImages.stereo_loop_eof stod l r pl pr ext f _ frame vl vr t rfl]
    simp
  | cons s0 tl ih =>
    intro ts fuel frame vl vr t hts hf
    have hln : '\n' ∉ s0 := hl s0 (by simp)
    cases tl with
    | nil =>
      obtain ⟨f, rfl⟩ : ∃ f, fuel = f + 2 := ⟨fuel - 2, by simp at hf; omega⟩
      rw [intercalate_single]
      have hg := getline_last '\n' s0 [] hln
      cases s0 with
      | nil =>
        have hts0 : ts = [] := by
          cases ts with
          | nil => rfl
          | cons a as => simp [nonEmpty] at hts
        subst hts0
        rw [LoadImages.stereo_loop_blank stod l r pl pr ext (f + 1) _ _ frame vl vr t rfl hg,
          LoadImages.stereo_loop_eof stod l r pl pr ext f _ frame vl vr t rfl]
        simp
      | cons c cs =>
        obtain ⟨x, rfl, hx⟩ : ∃ x, ts = [x] ∧ stod (c :: cs) = .ok x := by
          cases ts with
          | nil => simp [nonEmpty] at hts
          | cons a as =>
            cases as with
            | nil =>
              refine ⟨a, rfl, ?_⟩
              simpa [nonEmpty] using hts
            | cons b bs => simp [nonEmpty] at hts
        rw [LoadImages.stereo_loop_line stod l r pl pr ext (f + 1) _ _ frame vl vr t (c :: cs) x
            rfl hg (by simp) hx,
          LoadImages.stereo_loop_eof stod l r pl pr ext f _ (frame + 1) _ _ _ rfl]
        simp [List.range']
    | cons s1 rest =>
      obtain ⟨f, rfl⟩ : ∃ f, fuel = f + 1 := ⟨fuel - 1, by omega⟩
      have hf2 : (s1 :: rest).length + 1 < f := by
        simp only [List.length_cons] at hf ⊢
        omega
      have hl2 : ∀ s ∈ s1 :: rest, '\n' ∉ s := fun s h => hl s (List.mem_cons_of_mem _ h)
      rw [intercalate_cons_cons]
      have hg := getline_segment '\n' s0 (['\n'].intercalate (s1 :: rest)) [] hln
      cases s0 with
      | nil =>
        have hts2 : (nonEmpty (s1 :: rest)).map stod = ts.map Except.ok := by
          simpa [nonEmpty] using hts
        rw [LoadImages.stereo_loop_blank stod l r pl pr ext f _ _ frame vl vr t rfl hg]
        exact ih hl2 ts f frame vl vr t hts2 hf2
      | cons c cs =>
        obtain ⟨x, ts2, rfl, hx, hts2⟩ : ∃ x ts2, ts = x :: ts2 ∧ stod (c :: cs) = .ok x ∧
            (nonEmpty (s1 :: rest)).map stod = ts2.map Except.ok := by
          cases ts with
          | nil => simp [nonEmpty] at hts
          | cons a as =>
            refine ⟨a, as, rfl, ?_⟩
            simpa [nonEmpty] using hts
        rw [LoadImages.stereo_loop_line stod l r pl pr ext f _ _ frame vl vr t (c :: cs) x rfl hg
            (by simp) hx,
          ih hl2 ts2 f (frame + 1) _ _ _ hts2 hf2]
        simp [List.range']

/-- Whatever the stream holds, a normal return of the stereo loop has
appended the left and right references of the frames `frame, frame + 1, ...`
in order, all with the one extension `ext`, and as many timestamps. -/
theorem LoadImages.stereo_loop_appends (stod : List Char → Except String ℚ)
    (l r pl pr ext : List Char) :
    ∀ (fuel : Nat) (fTimes : IStream) (frame : Nat) (vl vr : List (List Char)) (t : List ℚ)
      (left right : List (List Char)) (ts : List ℚ),
      LoadImages.loop stod l r pl pr ext fuel fTimes frame vl vr t
        = some (.ok (left, right, ts)) →
      ∃ n, left = vl ++ (List.range' frame n).map (imageRef l pl ext) ∧
        right = vr ++ (List.range' frame n).map (imageRef r pr ext) ∧
        ts.length = t.length + n := by
  intro fuel
  induction fuel with
  | zero =>
    intro fTimes frame vl vr t left right ts h
    simp [LoadImages.loop] at h
  | succ f ih =>
    intro fTimes frame vl vr t left right ts h
    by_cases he : fTimes.eofbit = true
    · rw [LoadImages.stereo_loop_eof stod l r pl pr ext f fTimes frame vl vr t he] at h
      simp only [Option.some.injEq, Except.ok.injEq, Prod.mk.injEq] at h
      refine ⟨0, ?_, ?_, ?_⟩
      · simp [h.1]
      · simp [h.2.1]
      · simp [h.2.2]
    · have he2 : fTimes.eofbit = false := by simpa using he
      obtain ⟨next, s, hg⟩ : ∃ next s, getline fTimes [] '\n' = (next, s) := ⟨_, _, rfl⟩
      cases s with
      | nil =>
        rw [LoadImages.stereo_loop_blank stod l r pl pr ext f fTimes next frame vl vr t he2 hg]
          at h
        exact ih next frame vl vr t left right ts h
      | cons c cs =>
        cases hx : stod (c :: cs) with
        | error e =>
          rw [LoadImages.stereo_loop_throw stod l r pl pr ext f fTimes next frame vl vr t
            (c :: cs) e he2 hg (by simp) hx] at h
          simp at h
        | ok x =>
          rw [LoadImages.stereo_loop_line stod l r pl pr ext f fTimes next frame vl vr t
            (c :: cs) x he2 hg (by simp) hx] at h
          obtain ⟨n, h1, h2, h3⟩ := ih next (frame + 1) _ _ _ left right ts h
          refine ⟨n + 1, ?_, ?_, ?_⟩
          · rw [h1]
            simp [List.range'_succ]
          · rw [h2]
            simp [List.range'_succ]
          · rw [h3]
            simp only [List.length_append, List.length_singleton]
            omega

/-- The stereo loop, with its right list dropped, is the mono loop on the
left directory: same fuel, same stream, same outcome. -/
theorem LoadImages.stereo_loop_left (stod : List Char → Except String ℚ)
    (l r pl pr : List Char) :
    ∀ (fuel : Nat) (fTimes : IStream) (frame : Nat) (vl vr : List (List Char)) (t : List ℚ),
      (LoadImages.loop stod l r pl pr
          (if (find pl "2d_rect".toList).isSome then ".jpg".toList else ".png".toList)
          fuel fTimes frame vl vr t).map (Except.map (fun x => (x.1, x.2.2)))
        = Mono.LoadImages.loop stod l pl fuel fTimes frame vl t := by
  intro fuel
  induction fuel with
  | zero =>
    intro fTimes frame vl vr t
    rfl
  | succ f ih =>
    intro fTimes frame vl vr t
    rw [fileExtension_eq] at ih ⊢
    by_cases he : fTimes.eofbit = true
    · rw [LoadImages.stereo_loop_eof stod l r pl pr _ f fTimes frame vl vr t he,
        Mono.LoadImages.loop_eof stod l pl f fTimes frame vl t he]
      rfl
    · have he2 : fTimes.eofbit = false := by simpa using he
      obtain ⟨next, s, hg⟩ : ∃ next s, getline fTimes [] '\n' = (next, s) := ⟨_, _, rfl⟩
      cases s with
      | nil =>
        rw [LoadImages.stereo_loop_blank stod l r pl pr _ f fTimes next frame vl vr t he2 hg,
          Mono.LoadImages.loop_blank stod l pl f fTimes next frame vl t he2 hg]
        exact ih next frame vl vr t
      | cons c cs =>
        cases hx : stod (c :: cs) with
        | error e =>
          rw [LoadImages.stereo_loop_throw stod l r pl pr _ f fTimes next frame vl vr t
              (c :: cs) e he2 hg (by simp) hx,
            Mono.LoadImages.loop_throw stod l pl f fTimes next frame vl t (c :: cs) e he2 hg
              (by simp) hx]
          rfl
        | ok x =>
          rw [LoadImages.stereo_loop_line stod l r pl pr _ f fTimes next frame vl vr t
              (c :: cs) x he2 hg (by simp) hx,
            Mono.LoadImages.loop_line stod l pl f fTimes next frame vl t (c :: cs) x he2 hg
              (by simp) hx]
          exact ih next (frame + 1) _ _ _

end Stereo

/-! ## Properties: stereo `LoadImages` -/

/-- C14. Stereo `LoadImages` on a readable file made of `lines`, each empty or
read by `stod`: the call returns, the left, right and timestamp lists each
gain one entry per non-empty line, and for every `k` the `k`-th left and the
`k`-th right reference are built with index `k` and stand beside the
timestamp of the `k`-th non-empty line. -/
theorem C14_stereo_lists_aligned
    (stod : List Char → Except String ℚ) (fs : List Char → Option (List Char))
    (strPathLeft strPathRight strPathTimes : List Char) (lines : List (List Char))
    (ts : List ℚ) (vstrImageLeft vstrImageRight : List (List Char)) (vTimeStamps : List ℚ)
    (fuel : Nat)
    (hfile : fs strPathTimes = some (['\n'].intercalate lines))
    (hlines : ∀ s ∈ lines, '\n' ∉ s)
    (hnum : (nonEmpty lines).map stod = ts.map Except.ok)
    (hfuel : strPathLeft.length + 2 < fuel ∧ strPathRight.length + 2 < fuel ∧
      lines.length + 1 < fuel) :
    ∃ pl pr ext, GetFilePrefix fuel strPathLeft = some pl ∧
      GetFilePrefix fuel strPathRight = some pr ∧
      Stereo.LoadImages stod fs fuel strPathLeft strPathRight strPathTimes
          vstrImageLeft vstrImageRight vTimeStamps
        = some (.ok
            (vstrImageLeft ++ (List.range (nonEmpty lines).length).map
                (imageRef strPathLeft pl ext),
              vstrImageRight ++ (List.range (nonEmpty lines).length).map
                (imageRef strPathRight pr ext),
              vTimeStamps ++ ts)) ∧
      ((List.range (nonEmpty lines).length).map (imageRef strPathLeft pl ext)).length
        = (nonEmpty lines).length ∧
      ((List.range (nonEmpty lines).length).map (imageRef strPathRight pr ext)).length
        = (nonEmpty lines).length ∧
      ts.length = (nonEmpty lines).length := by
  obtain ⟨pl, hpl⟩ := GetFilePrefix_isSome strPathLeft fuel hfuel.1
  obtain ⟨pr, hpr⟩ := GetFilePrefix_isSome strPathRight fuel hfuel.2.1
  have hlen : (nonEmpty lines).length = ts.length := by
    have := congrArg List.length hnum
    simpa using this
  refine ⟨pl, pr, extensionFor pl, hpl, hpr, ?_, by simp, by simp, hlen.symm⟩
  unfold Stereo.LoadImages
  rw [hpl, hpr, hfile]
  have h := Stereo.LoadImages.stereo_loop_lines stod strPathLeft strPathRight pl pr
    (extensionFor pl) lines hlines ts fuel 0 vstrImageLeft vstrImageRight vTimeStamps hnum
    hfuel.2.2
  simp only [fileExtension_eq]
  rw [hlen, List.range_eq_range']
  exact h

/-- Witness of C14: the lines `0.0`, (blank), `0.05`, `0.10` give three left
references, three right references and three timestamps, index by index. -/
theorem C14_stereo_lists_aligned_witness :
    Stereo.LoadImages stodDecimal (oneFile "times/0.txt".toList "0.0\n\n0.05\n0.10".toList) 40
        "/data/CODa/2d_rect/cam0/0".toList "/data/CODa/2d_rect/cam1/0".toList
        "times/0.txt".toList [] [] []
      = some (.ok (["/data/CODa/2d_rect/cam0/0/2d_rect_cam0_0_0.jpg".toList,
            "/data/CODa/2d_rect/cam0/0/2d_rect_cam0_0_1.jpg".toList,
            "/data/CODa/2d_rect/cam0/0/2d_rect_cam0_0_2.jpg".toList],
          ["/data/CODa/2d_rect/cam1/0/2d_rect_cam1_0_0.jpg".toList,
            "/data/CODa/2d_rect/cam1/0/2d_rect_cam1_0_1.jpg".toList,
            "/data/CODa/2d_rect/cam1/0/2d_rect_cam1_0_2.jpg".toList],
          [mkRat 0 1, mkRat 5 100, mkRat 10 100])) ∧
    ∃ pl pr ext, GetFilePrefix 40 "/data/CODa/2d_rect/cam0/0".toList = some pl ∧
      GetFilePrefix 40 "/data/CODa/2d_rect/cam1/0".toList = some pr ∧
      Stereo.LoadImages stodDecimal
          (oneFile "times/0.txt".toList "0.0\n\n0.05\n0.10".toList) 40
          "/data/CODa/2d_rect/cam0/0".toList "/data/CODa/2d_rect/cam1/0".toList
          "times/0.txt".toList [] [] []
        = some (.ok
            ([] ++ (List.range
                  (nonEmpty ["0.0".toList, [], "0.05".toList, "0.10".toList]).length).map
                (imageRef "/data/CODa/2d_rect/cam0/0".toList pl ext),
              [] ++ (List.range
                  (nonEmpty ["0.0".toList, [], "0.05".toList, "0.10".toList]).length).map
                (imageRef "/data/CODa/2d_rect/cam1/0".toList pr ext),
              [] ++ [mkRat 0 1, mkRat 5 100, mkRat 10 100])) ∧
      ((List.range (nonEmpty ["0.0".toList, [], "0.05".toList, "0.10".toList]).length).map
          (imageRef "/data/CODa/2d_rect/cam0/0".toList pl ext)).length
        = (nonEmpty ["0.0".toList, [], "0.05".toList, "0.10".toList]).length ∧
      ((List.range (nonEmpty ["0.0".toList, [], "0.05".toList, "0.10".toList]).length).map
          (imageRef "/data/CODa/2d_rect/cam1/0".toList pr ext)).length
        = (nonEmpty ["0.0".toList, [], "0.05".toList, "0.10".toList]).length ∧
      [mkRat 0 1, mkRat 5 100, mkRat 10 100].length
        = (nonEmpty ["0.0".toList, [], "0.05".toList, "0.10".toList]).length :=
  ⟨by rfl,
    C14_stereo_lists_aligned stodDecimal
      (oneFile "times/0.txt".toList "0.0\n\n0.05\n0.10".toList)
      "/data/CODa/2d_rect/cam0/0".toList "/data/CODa/2d_rect/cam1/0".toList
      "times/0.txt".toList ["0.0".toList, [], "0.05".toList, "0.10".toList]
      [mkRat 0 1, mkRat 5 100, mkRat 10 100] [] [] [] 40
      (by rfl) (by decide) (by rfl) (by decide)⟩

/-- C17, the claim as stated fails. With the left directory
`/data/CODa/2d_rect/cam0/0` and the right directory `/data/CODa/depth/cam1/0`
the right reference ends in `.jpg` although the prefix of the right
directory, `depth_cam1_0_`, does not contain `2d_rect`. -/
theorem C17_right_extension_from_left_prefix :
    Stereo.LoadImages stodDecimal (oneFile "t".toList "0.0".toList) 40
        "/data/CODa/2d_rect/cam0/0".toList "/data/CODa/depth/cam1/0".toList "t".toList [] [] []
      = some (.ok (["/data/CODa/2d_rect/cam0/0/2d_rect_cam0_0_0.jpg".toList],
          ["/data/CODa/depth/cam1/0/depth_cam1_0_0.jpg".toList], [mkRat 0 1])) ∧
    GetFilePrefix 40 "/data/CODa/depth/cam1/0".toList = some "depth_cam1_0_".toList ∧
    ¬ "2d_rect".toList <:+: "depth_cam1_0_".toList ∧
    ¬ ".png".toList <:+ "/data/CODa/depth/cam1/0/depth_cam1_0_0.jpg".toList ∧
    ".jpg".toList <:+ "/data/CODa/depth/cam1/0/depth_cam1_0_0.jpg".toList :=
  ⟨by rfl, by rfl, by decide, by decide, by decide⟩

/-- C17, amended. Every left and every right reference the stereo
`LoadImages` appends carries the same extension, chosen from the prefix of
the left directory: `.jpg` when that prefix contains `2d_rect`, `.png`
otherwise. -/
theorem C17_stereo_extension_shared
    (stod : List Char → Except String ℚ) (fs : List Char → Option (List Char))
    (fuel : Nat) (strPathLeft strPathRight strPathTimes : List Char)
    (vstrImageLeft vstrImageRight : List (List Char)) (vTimeStamps : List ℚ)
    (left right : List (List Char)) (ts : List ℚ)
    (h : Stereo.LoadImages stod fs fuel strPathLeft strPathRight strPathTimes
        vstrImageLeft vstrImageRight vTimeStamps = some (.ok (left, right, ts))) :
    ∃ pl pr n, GetFilePrefix fuel strPathLeft = some pl ∧
      GetFilePrefix fuel strPathRight = some pr ∧
      left.length = vstrImageLeft.length + n ∧ right.length = vstrImageRight.length + n ∧
      ∀ k, k < n →
        left[vstrImageLeft.length + k]?
            = some (strPathLeft ++ "/".toList ++ pl ++ Nat.toDigits 10 k
                ++ (if "2d_rect".toList <:+: pl then ".jpg".toList else ".png".toList)) ∧
          right[vstrImageRight.length + k]?
            = some (strPathRight ++ "/".toList ++ pr ++ Nat.toDigits 10 k
                ++ (if "2d_rect".toList <:+: pl then ".jpg".toList else ".png".toList)) := by
  unfold Stereo.LoadImages at h
  cases hpl : GetFilePrefix fuel strPathLeft with
  | none =>
    rw [hpl] at h
    simp at h
  | some pl =>
    cases hpr : GetFilePrefix fuel strPathRight with
    | none =>
      rw [hpl, hpr] at h
      simp at h
    | some pr =>
      rw [hpl, hpr] at h
      simp only [fileExtension_eq] at h
      obtain ⟨n, h1, h2, _⟩ := Stereo.LoadImages.stereo_loop_appends stod strPathLeft
        strPathRight pl pr (extensionFor pl) fuel _ 0 vstrImageLeft vstrImageRight vTimeStamps
        left right ts h
      refine ⟨pl, pr, n, rfl, rfl, ?_, ?_, ?_⟩
      · rw [h1]
        simp
      · rw [h2]
        simp
      · intro k hk
        constructor
        · rw [h1, List.getElem?_append_right (by omega)]
          have : vstrImageLeft.length + k - vstrImageLeft.length = k := by omega
          rw [this, List.getElem?_map, List.getElem?_range' _ _ hk]
          simp [imageRef, extensionFor, to_string]
        · rw [h2, List.getElem?_append_right (by omega)]
          have : vstrImageRight.length + k - vstrImageRight.length = k := by omega
          rw [this, List.getElem?_map, List.getElem?_range' _ _ hk]
          simp [imageRef, extensionFor, to_string]

/-- Witness of C17, amended: with a `2d_rect` left directory and a `depth`
right directory both references end in `.jpg`. -/
theorem C17_stereo_extension_shared_witness :
    Stereo.LoadImages stodDecimal (oneFile "t".toList "0.0".toList) 40
        "/data/CODa/2d_rect/cam0/0".toList "/data/CODa/depth/cam1/0".toList "t".toList [] [] []
      = some (.ok (["/data/CODa/2d_rect/cam0/0/2d_rect_cam0_0_0.jpg".toList],
          ["/data/CODa/depth/cam1/0/depth_cam1_0_0.jpg".toList], [mkRat 0 1])) ∧
    ∃ pl pr n, GetFilePrefix 40 "/data/CODa/2d_rect/cam0/0".toList = some pl ∧
      GetFilePrefix 40 "/data/CODa/depth/cam1/0".toList = some pr ∧
      ["/data/CODa/2d_rect/cam0/0/2d_rect_cam0_0_0.jpg".toList].length
        = ([] : List (List Char)).length + n ∧
      ["/data/CODa/depth/cam1/0/depth_cam1_0_0.jpg".toList].length
        = ([] : List (List Char)).length + n ∧
      ∀ k, k < n →
        ["/data/CODa/2d_rect/cam0/0/2d_rect_cam0_0_0.jpg".toList][
              ([] : List (List Char)).length + k]?
            = some ("/data/CODa/2d_rect/cam0/0".toList ++ "/".toList ++ pl ++ Nat.toDigits 10 k
                ++ (if "2d_rect".toList <:+: pl then ".jpg".toList else ".png".toList)) ∧
          ["/data/CODa/depth/cam1/0/depth_cam1_0_0.jpg".toList][
              ([] : List (List Char)).length + k]?
            = some ("/data/CODa/depth/cam1/0".toList ++ "/".toList ++ pr ++ Nat.toDigits 10 k
                ++ (if "2d_rect".toList <:+: pl then ".jpg".toList else ".png".toList)) :=
  ⟨by rfl,
    C17_stereo_extension_shared stodDecimal (oneFile "t".toList "0.0".toList) 40
      "/data/CODa/2d_rect/cam0/0".toList "/data/CODa/depth/cam1/0".toList "t".toList [] [] []
      ["/data/CODa/2d_rect/cam0/0/2d_rect_cam0_0_0.jpg".toList]
      ["/data/CODa/depth/cam1/0/depth_cam1_0_0.jpg".toList] [mkRat 0 1] (by rfl)⟩

/-- C19. For every left directory `d`, right directory `r` and timestamp
file, the stereo `LoadImages(d, r, file)` with its right list dropped has the
outcome of the mono `LoadImages(d, file)`: the same left references and the
same timestamps, whatever `r` is. On a readable file whose non-empty lines
`stod` reads, the mono call, and so the stereo call, returns these lists. -/
theorem C19_stereo_left_is_mono
    (stod : List Char → Except String ℚ) (fs : List Char → Option (List Char))
    (fuel : Nat) (d r strPathTimes : List Char)
    (vstrImages vstrImageRight : List (List Char)) (vTimeStamps : List ℚ)
    (hfuel : r.length + 2 < fuel) :
    (Stereo.LoadImages stod fs fuel d r strPathTimes vstrImages vstrImageRight
        vTimeStamps).map (Except.map (fun x => (x.1, x.2.2)))
      = Mono.LoadImages stod fs fuel d strPathTimes vstrImages vTimeStamps ∧
    ∀ (lines : List (List Char)) (ts : List ℚ),
      fs strPathTimes = some (['\n'].intercalate lines) → (∀ s ∈ lines, '\n' ∉ s) →
      (nonEmpty lines).map stod = ts.map Except.ok →
      d.length + 2 < fuel → lines.length + 1 < fuel →
      ∃ imgs right,
        Mono.LoadImages stod fs fuel d strPathTimes vstrImages vTimeStamps
          = some (.ok (vstrImages ++ imgs, vTimeStamps ++ ts)) ∧
        Stereo.LoadImages stod fs fuel d r strPathTimes vstrImages vstrImageRight vTimeStamps
          = some (.ok (vstrImages ++ imgs, vstrImageRight ++ right, vTimeStamps ++ ts)) := by
  obtain ⟨pr, hpr⟩ := GetFilePrefix_isSome r fuel hfuel
  constructor
  · unfold Stereo.LoadImages Mono.LoadImages
    cases hpl : GetFilePrefix fuel d with
    | none => rfl
    | some pl =>
      rw [hpr]
      exact Stereo.LoadImages.stereo_loop_left stod d r pl pr fuel _ 0 vstrImages
        vstrImageRight vTimeStamps
  · intro lines ts hfile hlines hnum hd hl
    obtain ⟨pl, hpl⟩ := GetFilePrefix_isSome d fuel hd
    refine ⟨(List.range' 0 ts.length).map (imageRef d pl (extensionFor pl)),
      (List.range' 0 ts.length).map (imageRef r pr (extensionFor pl)), ?_, ?_⟩
    · unfold Mono.LoadImages
      rw [hpl, hfile]
      exact Mono.LoadImages.loop_lines stod d pl lines hlines ts fuel 0 vstrImages vTimeStamps
        hnum hl
    · unfold Stereo.LoadImages
      rw [hpl, hpr, hfile]
      simp only [fileExtension_eq]
      exact Stereo.LoadImages.stereo_loop_lines stod d r pl pr (extensionFor pl) lines hlines
        ts fuel 0 vstrImages vstrImageRight vTimeStamps hnum hl

/-- Witness of C19 on the lines `0.0`, (blank), `0.05`, with two different
right directories. -/
theorem C19_stereo_left_is_mono_witness :
    "/data/CODa/depth/cam1/0".toList.length + 2 < 40 ∧
    (Stereo.LoadImages stodDecimal (oneFile "t".toList "0.0\n\n0.05".toList) 40
        "/data/CODa/2d_rect/cam0/0".toList "/data/CODa/depth/cam1/0".toList "t".toList
        [] [] []).map (Except.map (fun x => (x.1, x.2.2)))
      = Mono.LoadImages stodDecimal (oneFile "t".toList "0.0\n\n0.05".toList) 40
          "/data/CODa/2d_rect/cam0/0".toList "t".toList [] [] ∧
    Mono.LoadImages stodDecimal (oneFile "t".toList "0.0\n\n0.05".toList) 40
        "/data/CODa/2d_rect/cam0/0".toList "t".toList [] []
      = some (.ok (["/data/CODa/2d_rect/cam0/0/2d_rect_cam0_0_0.jpg".toList,
            "/data/CODa/2d_rect/cam0/0/2d_rect_cam0_0_1.jpg".toList],
          [mkRat 0 1, mkRat 5 100])) :=
  ⟨by decide,
    (C19_stereo_left_is_mono stodDecimal (oneFile "t".toList "0.0\n\n0.05".toList) 40
      "/data/CODa/2d_rect/cam0/0".toList "/data/CODa/depth/cam1/0".toList "t".toList [] [] []
      (by decide)).1,
    by rfl⟩

/-! ## Lemmas and properties: the arguments of `main` -/

/-- The argument loop on `mid ++ [last]`, where `last` is `argv[argc - 1]`:
every argument of `mid` is pushed on `sequences`, and `last` is pushed too
when it is numeric and becomes the output name otherwise. -/
theorem main_args.loop_spec (argc : Int) (last : List Char) :
    ∀ (mid : List (List Char)) (i : Int) (a : Args), i + mid.length + 1 = argc →
      main_args.loop argc i (mid ++ [last]) a
        = if IsNumeric last then { a with sequences := a.sequences ++ mid ++ [last] }
          else { sequences := a.sequences ++ mid, bFileName := true, outputFileName := last } := by
  intro mid
  induction mid with
  | nil =>
    intro i a h
    have hi : i = argc - 1 := by
      simp at h
      omega
    by_cases hn : IsNumeric last = true
    · simp [main_args.loop, hn]
    · simp [main_args.loop, hn, hi]
  | cons m ms ih =>
    intro i a h
    have hi : ¬ i = argc - 1 := by
      simp only [List.length_cons] at h
      push_cast at h
      omega
    have h2 : (i + 1) + ms.length + 1 = argc := by
      simp only [List.length_cons] at h
      push_cast at h
      omega
    rw [List.cons_append, main_args.loop]
    simp only [hi, false_and, if_false]
    rw [ih (i + 1) _ h2]
    by_cases hn : IsNumeric last = true
    · simp [hn]
    · simp [hn]

/-- C11. For an argument vector with at least one argument after the program
name and the four fixed ones, the last argument is the output tag exactly
when it is not made of decimal digits only; all the arguments from position
5 on before it, and it too when it is numeric, form the sequence list, in
command-line order. -/
theorem C11_argument_classification (fixed mid : List (List Char)) (last : List Char)
    (hfixed : fixed.length = 5) :
    ∃ a, main_args (fixed ++ mid ++ [last]) = some a ∧
      (a.bFileName = true ↔ ¬ ∀ c ∈ last, c.isDigit = true) ∧
      (a.bFileName = true → a.outputFileName = last ∧ a.sequences = mid) ∧
      (a.bFileName = false → a.sequences = mid ++ [last]) := by
  have hlen : ((fixed ++ mid ++ [last]).length : Int) = 5 + mid.length + 1 := by
    simp [hfixed]
    omega
  have hdrop : (fixed ++ mid ++ [last]).drop 5 = mid ++ [last] := by
    rw [List.append_assoc, ← hfixed, List.drop_left]
  have hmain : main_args (fixed ++ mid ++ [last])
      = some (if IsNumeric last then
            { sequences := [] ++ mid ++ [last], bFileName := false, outputFileName := [] }
          else { sequences := [] ++ mid, bFileName := true, outputFileName := last }) := by
    unfold main_args
    rw [if_neg (by rw [hlen]; omega), hdrop, hlen]
    rw [main_args.loop_spec _ last mid 5 _ (by omega)]
  have hnum : IsNumeric last = true ↔ ∀ c ∈ last, c.isDigit = true := by
    unfold IsNumeric
    exact List.all_eq_true
  refine ⟨_, hmain, ?_⟩
  by_cases hn : IsNumeric last = true
  · have hall := hnum.mp hn
    simp only [hn, if_true]
    refine ⟨?_, ?_, ?_⟩
    · constructor
      · intro h
        cases h
      · intro h
        exact absurd hall h
    · intro h
      cases h
    · intro _
      simp
  · have hall : ¬ ∀ c ∈ last, c.isDigit = true := fun h => hn (hnum.mpr h)
    simp only [hn, if_false, Bool.false_eq_true]
    simp [hall]

/-- Witness of C11: after the four fixed arguments, `0 1 run1` gives the
sequences `0`, `1` and the tag `run1`. -/
theorem C11_argument_classification_witness :
    ["./mono_coda".toList, "voc".toList, "settings".toList, "images".toList,
        "times".toList].length = 5 ∧
    main_args (["./mono_coda".toList, "voc".toList, "settings".toList, "images".toList,
        "times".toList] ++ ["0".toList, "1".toList] ++ ["run1".toList])
      = some { sequences := ["0".toList, "1".toList], bFileName := true,
               outputFileName := "run1".toList } ∧
    ∃ a, main_args (["./mono_coda".toList, "voc".toList, "settings".toList, "images".toList,
          "times".toList] ++ ["0".toList, "1".toList] ++ ["run1".toList]) = some a ∧
      (a.bFileName = true ↔ ¬ ∀ c ∈ "run1".toList, c.isDigit = true) ∧
      (a.bFileName = true → a.outputFileName = "run1".toList ∧
        a.sequences = ["0".toList, "1".toList]) ∧
      (a.bFileName = false → a.sequences = ["0".toList, "1".toList] ++ ["run1".toList]) :=
  ⟨by decide, by decide,
    C11_argument_classification
      ["./mono_coda".toList, "voc".toList, "settings".toList, "images".toList, "times".toList]
      ["0".toList, "1".toList] "run1".toList (by decide)⟩

/-- C15. With `argc = 6` and a first sequence argument that is not numeric,
here `seqA`, the arguments pass the usage check and `argv[5]` is taken as the
output name: the sequence list is empty and does not start with `argv[5]`. -/
theorem C15_single_argument_taken_as_tag :
    main_args ["./mono_coda".toList, "voc".toList, "settings".toList, "images".toList,
        "times".toList, "seqA".toList]
      = some { sequences := [], bFileName := true, outputFileName := "seqA".toList } := by
  decide

/-! ## Lemmas: the playback loops of `main` -/

theorem Sequence.nImages_toNat (sq : Sequence) : sq.nImages.toNat = sq.vstrImageLeft.length := by
  simp [Sequence.nImages]

theorem vecAt_of_lt {α : Type} (v : List α) (n : Nat) (d : α) (h : n < v.length) :
    vecAt v (n : Int) = some (v.getD n d) := by
  rw [vecAt_natCast, List.getD_eq_getElem?_getD, List.getElem?_eq_getElem h]
  rfl

/-- Inside a sequence the reference gap is defined: its reads are in bounds. -/
theorem main_T_isSome (ts : List ℚ) (n ni : Nat) (hn : n = ts.length) (h : ni < ts.length) :
    ∃ T, main_T ts (n : Int) (ni : Int) = some T := by
  have hread : vecAt ts (ni : Int) = some ts[ni] := by
    rw [vecAt_natCast, List.getElem?_eq_getElem h]
  unfold main_T
  simp only [hread]
  by_cases h1 : (ni : Int) < (n : Int) - 1
  · have hlt : ni + 1 < ts.length := by omega
    have hnext : vecAt ts ((ni : Int) + 1) = some ts[ni + 1] := by
      have : ((ni : Int) + 1) = ((ni + 1 : Nat) : Int) := by push_cast; rfl
      rw [this, vecAt_natCast, List.getElem?_eq_getElem hlt]
    rw [if_pos h1]
    simp only [hnext]
    exact ⟨_, rfl⟩
  · rw [if_neg h1]
    by_cases h2 : (ni : Int) > 0
    · have hprev : vecAt ts ((ni : Int) - 1) = some ts[ni - 1] := by
        have : ((ni : Int) - 1) = ((ni - 1 : Nat) : Int) := by omega
        rw [this, vecAt_natCast, List.getElem?_eq_getElem (by omega)]
      rw [if_pos h2]
      simp only [hprev]
      exact ⟨_, rfl⟩
    · rw [if_neg h2]
      exact ⟨_, rfl⟩

/-- The end of the loop body on a frame inside the sequence and inside the
buffer: the write succeeds and the sleep, if any, is recorded. -/
theorem main_pace_next (sq : Sequence) (ni : Nat) (ttrack : ℚ) (st : Play)
    (hts : sq.vTimestampsCam.length = sq.vstrImageLeft.length)
    (hni : ni < sq.vstrImageLeft.length) (hbuf : ni < st.vTimesTrack.length) :
    main_pace sq (ni : Int) ttrack st
      = .next { calls := st.calls ++ sleepCalls sq ttrack ni,
                vTimesTrack := st.vTimesTrack.set ni ttrack } := by
  obtain ⟨T, hT⟩ := main_T_isSome sq.vTimestampsCam sq.vstrImageLeft.length ni hts.symm
    (by omega)
  have hT2 : main_T sq.vTimestampsCam sq.nImages (ni : Int) = some T := hT
  unfold main_pace sleepCalls
  rw [if_pos ⟨by omega, by simpa using hbuf⟩]
  simp only [hT2, Int.toNat_ofNat]
  cases main_usleep T ttrack with
  | none => simp
  | some usec => rfl

/-- A frame whose images are read: the tracking call is made and the loop
goes on. -/
theorem main_frame_readable (sensor : Sensor) (imread : List Char → Bool) (ttrack : Nat → ℚ)
    (sq : Sequence) (ni : Nat) (st : Play)
    (hal : sq.aligned sensor = true) (hni : ni < sq.vstrImageLeft.length)
    (hbuf : ni < st.vTimesTrack.length) (hread : frameReadable sensor imread sq ni = true) :
    main_frame sensor imread (ttrack ni) sq (ni : Int) st
      = .next { calls := st.calls ++ frameCalls sensor ttrack sq ni,
                vTimesTrack := st.vTimesTrack.set ni (ttrack ni) } := by
  have hts : sq.vTimestampsCam.length = sq.vstrImageLeft.length := by
    simp [Sequence.aligned] at hal
    exact hal.1
  cases sensor with
  | MONOCULAR =>
    have hr : imread (sq.vstrImageLeft.getD ni []) = true := hread
    unfold main_frame
    simp only [vecAt_of_lt sq.vstrImageLeft ni [] hni,
      vecAt_of_lt sq.vTimestampsCam ni 0 (by omega), hr, Bool.not_true, Bool.false_eq_true,
      if_false]
    have hp := main_pace_next sq ni (ttrack ni)
      ⟨st.calls ++ [trackCall .MONOCULAR sq ni], st.vTimesTrack⟩ hts hni hbuf
    simp only [trackCall] at hp
    rw [hp]
    simp [frameCalls, trackCall]
  | STEREO =>
    have hrl : sq.vstrImageRight.length = sq.vstrImageLeft.length := by
      simp [Sequence.aligned] at hal
      exact hal.2
    have hr : imread (sq.vstrImageLeft.getD ni []) = true
        ∧ imread (sq.vstrImageRight.getD ni []) = true := by
      simpa [frameReadable] using hread
    unfold main_frame
    simp only [vecAt_of_lt sq.vstrImageLeft ni [] hni,
      vecAt_of_lt sq.vstrImageRight ni [] (by omega),
      vecAt_of_lt sq.vTimestampsCam ni 0 (by omega), hr.1, hr.2, Bool.not_true,
      Bool.false_eq_true, if_false]
    have hp := main_pace_next sq ni (ttrack ni)
      ⟨st.calls ++ [trackCall .STEREO sq ni], st.vTimesTrack⟩ hts hni hbuf
    simp only [trackCall] at hp
    rw [hp]
    simp [frameCalls, trackCall]

/-- A frame with an image that cannot be read: `return 1`, no call made. -/
theorem main_frame_unreadable (sensor : Sensor) (imread : List Char → Bool) (ttrack : ℚ)
    (sq : Sequence) (ni : Nat) (st : Play)
    (hal : sq.aligned sensor = true) (hni : ni < sq.vstrImageLeft.length)
    (hread : frameReadable sensor imread sq ni = false) :
    main_frame sensor imread ttrack sq (ni : Int) st = .exit 1 st := by
  have hts : sq.vTimestampsCam.length = sq.vstrImageLeft.length := by
    simp [Sequence.aligned] at hal
    exact hal.1
  cases sensor with
  | MONOCULAR =>
    have hr : imread (sq.vstrImageLeft.getD ni []) = false := hread
    unfold main_frame
    simp only [vecAt_of_lt sq.vstrImageLeft ni [] hni,
      vecAt_of_lt sq.vTimestampsCam ni 0 (by omega), hr, Bool.not_false, if_true]
  | STEREO =>
    have hrl : sq.vstrImageRight.length = sq.vstrImageLeft.length := by
      simp [Sequence.aligned] at hal
      exact hal.2
    have hr : imread (sq.vstrImageLeft.getD ni []) = false
        ∨ imread (sq.vstrImageRight.getD ni []) = false := by
      simp only [frameReadable, Bool.and_eq_false_iff] at hread
      exact hread
    unfold main_frame
    simp only [vecAt_of_lt sq.vstrImageLeft ni [] hni,
      vecAt_of_lt sq.vstrImageRight ni [] (by omega),
      vecAt_of_lt sq.vTimestampsCam ni 0 (by omega)]
    rcases hr with h | h
    · simp only [h, Bool.not_false, if_true]
    · cases hl : imread (sq.vstrImageLeft.getD ni [])
      · simp only [Bool.not_false, if_true]
      · simp only [h, Bool.not_true, Bool.false_eq_true, if_false, Bool.not_false, if_true]

/-- The indices below `n`, cut at `ni`. -/
theorem range_split (n ni : Nat) (h : ni < n) :
    List.range n = List.range ni ++ ni :: List.range' (ni + 1) (n - (ni + 1)) := by
  rw [List.range_eq_range', List.range_eq_range']
  have h1 : n = (n - (ni + 1) + 1) + ni := by omega
  conv_lhs => rw [h1]
  rw [← List.range'_append_1 0 ni (n - (ni + 1) + 1), List.range'_succ]
  simp

/-- The frame loop over readable frames: every frame is tracked, in order,
and the buffer keeps its length. -/
theorem main_frames_readable (sensor : Sensor) (imread : List Char → Bool) (ttrack : Nat → ℚ)
    (sq : Sequence) (hal : sq.aligned sensor = true) :
    ∀ (idx : List Nat) (st : Play),
      (∀ ni ∈ idx, ni < sq.vstrImageLeft.length ∧ frameReadable sensor imread sq ni = true) →
      sq.vstrImageLeft.length ≤ st.vTimesTrack.length →
      ∃ buf, buf.length = st.vTimesTrack.length ∧
        main_frames sensor imread ttrack sq idx st
          = .next { calls := st.calls ++ framesCalls sensor ttrack sq idx,
                    vTimesTrack := buf } := by
  intro idx
  induction idx with
  | nil =>
    intro st _ _
    exact ⟨st.vTimesTrack, rfl, by simp [main_frames, framesCalls]⟩
  | cons ni rest ih =>
    intro st hidx hbuf
    obtain ⟨hni, hread⟩ := hidx ni (by simp)
    have hstep := main_frame_readable sensor imread ttrack sq ni st hal hni (by omega) hread
    obtain ⟨buf, hlen, hrest⟩ := ih
      { calls := st.calls ++ frameCalls sensor ttrack sq ni,
        vTimesTrack := st.vTimesTrack.set ni (ttrack ni) }
      (fun k hk => hidx k (List.mem_cons_of_mem _ hk)) (by simpa using hbuf)
    refine ⟨buf, by simpa using hlen, ?_⟩
    rw [main_frames]
    simp only [hstep]
    rw [hrest]
    simp [framesCalls]

/-- The frame loop up to the first frame that cannot be read: the frames
before it are tracked, then `return 1`. -/
theorem main_frames_unreadable (sensor : Sensor) (imread : List Char → Bool)
    (ttrack : Nat → ℚ) (sq : Sequence) (hal : sq.aligned sensor = true) :
    ∀ (before : List Nat) (ni : Nat) (after : List Nat) (st : Play),
      (∀ k ∈ before, k < sq.vstrImageLeft.length ∧ frameReadable sensor imread sq k = true) →
      ni < sq.vstrImageLeft.length → frameReadable sensor imread sq ni = false →
      sq.vstrImageLeft.length ≤ st.vTimesTrack.length →
      ∃ buf, buf.length = st.vTimesTrack.length ∧
        main_frames sensor imread ttrack sq (before ++ ni :: after) st
          = .exit 1 { calls := st.calls ++ framesCalls sensor ttrack sq before,
                      vTimesTrack := buf } := by
  intro before
  induction before with
  | nil =>
    intro ni after st _ hni hread _
    refine ⟨st.vTimesTrack, rfl, ?_⟩
    rw [List.nil_append, main_frames,
      main_frame_unreadable sensor imread (ttrack ni) sq ni st hal hni hread]
    simp [framesCalls]
  | cons k rest ih =>
    intro ni after st hbefore hni hread hbuf
    obtain ⟨hk, hkread⟩ := hbefore k (by simp)
    have hstep := main_frame_readable sensor imread ttrack sq k st hal hk (by omega) hkread
    obtain ⟨buf, hlen, hrest⟩ := ih ni after
      { calls := st.calls ++ frameCalls sensor ttrack sq k,
        vTimesTrack := st.vTimesTrack.set k (ttrack k) }
      (fun j hj => hbefore j (List.mem_cons_of_mem _ hj)) hni hread (by simpa using hbuf)
    refine ⟨buf, by simpa using hlen, ?_⟩
    rw [List.cons_append, main_frames]
    simp only [hstep]
    rw [hrest]
    simp [framesCalls]

/-- Whatever can be read, the frame loop never leaves the vectors: it ends by
falling through or by `return 1`, with the buffer at its length. -/
theorem main_frames_safe (sensor : Sensor) (imread : List Char → Bool) (ttrack : Nat → ℚ)
    (sq : Sequence) (hal : sq.aligned sensor = true) :
    ∀ (idx : List Nat) (st : Play), (∀ ni ∈ idx, ni < sq.vstrImageLeft.length) →
      sq.vstrImageLeft.length ≤ st.vTimesTrack.length →
      ∃ st2, st2.vTimesTrack.length = st.vTimesTrack.length ∧
        (main_frames sensor imread ttrack sq idx st = .next st2 ∨
          main_frames sensor imread ttrack sq idx st = .exit 1 st2) := by
  intro idx
  induction idx with
  | nil =>
    intro st _ _
    exact ⟨st, rfl, Or.inl rfl⟩
  | cons ni rest ih =>
    intro st hidx hbuf
    have hni := hidx ni (by simp)
    cases hread : frameReadable sensor imread sq ni with
    | false =>
      refine ⟨st, rfl, Or.inr ?_⟩
      rw [main_frames, main_frame_unreadable sensor imread (ttrack ni) sq ni st hal hni hread]
    | true =>
      have hstep := main_frame_readable sensor imread ttrack sq ni st hal hni (by omega) hread
      obtain ⟨st2, hlen, hrest⟩ := ih
        { calls := st.calls ++ frameCalls sensor ttrack sq ni,
          vTimesTrack := st.vTimesTrack.set ni (ttrack ni) }
        (fun k hk => hidx k (List.mem_cons_of_mem _ hk)) (by simpa using hbuf)
      refine ⟨st2, by simpa using hlen, ?_⟩
      rw [main_frames]
      simp only [hstep]
      exact hrest

/-- The sequence loop over readable sequences: each is played to its end,
with its checkpoint and `ChangeDataset` when it is not the last. -/
theorem main_sequences_readable (sensor : Sensor) (imread : List Char → Bool)
    (ttrack : Nat → Nat → ℚ) (num_seq : Nat) :
    ∀ (seqs : List Sequence) (i : Nat) (st : Play),
      (∀ sq ∈ seqs, sq.aligned sensor = true ∧
        sq.vstrImageLeft.length ≤ st.vTimesTrack.length ∧
        ∀ ni, ni < sq.vstrImageLeft.length → frameReadable sensor imread sq ni = true) →
      ∃ buf, buf.length = st.vTimesTrack.length ∧
        main_sequences sensor imread ttrack (num_seq : Int) i seqs st
          = .next { calls := st.calls ++ playedCalls sensor ttrack num_seq i seqs,
                    vTimesTrack := buf } := by
  intro seqs
  induction seqs with
  | nil =>
    intro i st _
    exact ⟨st.vTimesTrack, rfl, by simp [main_sequences, playedCalls]⟩
  | cons sq rest ih =>
    intro i st h
    obtain ⟨hal, hbuf, hread⟩ := h sq (by simp)
    obtain ⟨buf, hlen, hfr⟩ := main_frames_readable sensor imread (ttrack i) sq hal
      (List.range sq.vstrImageLeft.length) st
      (fun ni hni => ⟨List.mem_range.mp hni, hread ni (List.mem_range.mp hni)⟩) hbuf
    have hrest : ∀ calls : List Call, ∀ sq2 ∈ rest, sq2.aligned sensor = true ∧
        sq2.vstrImageLeft.length ≤ (Play.mk calls buf).vTimesTrack.length ∧
        ∀ ni, ni < sq2.vstrImageLeft.length → frameReadable sensor imread sq2 ni = true := by
      intro calls sq2 h2
      obtain ⟨a, b, c⟩ := h sq2 (List.mem_cons_of_mem _ h2)
      exact ⟨a, by simpa [hlen] using b, c⟩
    rw [main_sequences, Sequence.nImages_toNat]
    simp only [hfr]
    by_cases hi : (i : Int) < (num_seq : Int) - 1
    · have hi2 : i + 1 < num_seq := by omega
      obtain ⟨buf2, hlen2, hr⟩ := ih (i + 1)
        { calls := st.calls
            ++ framesCalls sensor (ttrack i) sq (List.range sq.vstrImageLeft.length)
            ++ main_checkpoint sensor sq.seq ++ [.ChangeDataset],
          vTimesTrack := buf } (hrest _)
      refine ⟨buf2, by simpa [hlen] using hlen2, ?_⟩
      rw [if_pos hi, hr]
      simp [playedCalls, blockCalls, hi2]
    · have hi2 : ¬ i + 1 < num_seq := by omega
      obtain ⟨buf2, hlen2, hr⟩ := ih (i + 1)
        { calls := st.calls
            ++ framesCalls sensor (ttrack i) sq (List.range sq.vstrImageLeft.length),
          vTimesTrack := buf } (hrest _)
      refine ⟨buf2, by simpa [hlen] using hlen2, ?_⟩
      rw [if_neg hi, hr]
      simp [playedCalls, blockCalls, hi2]

/-- The sequence loop up to the first frame that cannot be read, frame `ni`
of the sequence `sq`: the sequences before are played to their ends, the
frames of `sq` before `ni` are tracked, then `return 1`. -/
theorem main_sequences_unreadable (sensor : Sensor) (imread : List Char → Bool)
    (ttrack : Nat → Nat → ℚ) (num_seq : Nat) (sq : Sequence) (ni : Nat)
    (after : List Sequence) (hal : sq.aligned sensor = true)
    (hni : ni < sq.vstrImageLeft.length)
    (hbefore : ∀ k, k < ni → frameReadable sensor imread sq k = true)
    (hread : frameReadable sensor imread sq ni = false) :
    ∀ (before : List Sequence) (i : Nat) (st : Play),
      (∀ sq2 ∈ before, sq2.aligned sensor = true ∧
        sq2.vstrImageLeft.length ≤ st.vTimesTrack.length ∧
        ∀ k, k < sq2.vstrImageLeft.length → frameReadable sensor imread sq2 k = true) →
      sq.vstrImageLeft.length ≤ st.vTimesTrack.length →
      ∃ buf, buf.length = st.vTimesTrack.length ∧
        main_sequences sensor imread ttrack (num_seq : Int) i (before ++ sq :: after) st
          = .exit 1 { calls := st.calls ++ playedCalls sensor ttrack num_seq i before
                        ++ framesCalls sensor (ttrack (i + before.length)) sq (List.range ni),
                      vTimesTrack := buf } := by
  have hsplit : List.range sq.vstrImageLeft.length
      = List.range ni ++ ni :: (List.range' (ni + 1) (sq.vstrImageLeft.length - (ni + 1))) :=
    range_split sq.vstrImageLeft.length ni hni
  intro before
  induction before with
  | nil =>
    intro i st _ hbuf
    obtain ⟨buf, hlen, hfr⟩ := main_frames_unreadable sensor imread (ttrack i) sq hal
      (List.range ni) ni (List.range' (ni + 1) (sq.vstrImageLeft.length - (ni + 1))) st
      (fun k hk => ⟨by have := List.mem_range.mp hk; omega, hbefore k (List.mem_range.mp hk)⟩)
      hni hread hbuf
    refine ⟨buf, hlen, ?_⟩
    rw [List.nil_append, main_sequences, Sequence.nImages_toNat, hsplit]
    simp only [hfr]
    simp [playedCalls]
  | cons sq0 rest ih =>
    intro i st h hbuf
    obtain ⟨hal0, hbuf0, hread0⟩ := h sq0 (by simp)
    obtain ⟨buf, hlen, hfr⟩ := main_frames_readable sensor imread (ttrack i) sq0 hal0
      (List.range sq0.vstrImageLeft.length) st
      (fun k hk => ⟨List.mem_range.mp hk, hread0 k (List.mem_range.mp hk)⟩) hbuf0
    have hrest : ∀ calls : List Call, ∀ sq2 ∈ rest, sq2.aligned sensor = true ∧
        sq2.vstrImageLeft.length ≤ (Play.mk calls buf).vTimesTrack.length ∧
        ∀ k, k < sq2.vstrImageLeft.length → frameReadable sensor imread sq2 k = true := by
      intro calls sq2 h2
      obtain ⟨a, b, c⟩ := h sq2 (List.mem_cons_of_mem _ h2)
      exact ⟨a, by simpa [hlen] using b, c⟩
    have hidx : i + (sq0 :: rest).length = i + 1 + rest.length := by
      simp only [List.length_cons]
      omega
    rw [List.cons_append, main_sequences, Sequence.nImages_toNat]
    simp only [hfr]
    by_cases hi : (i : Int) < (num_seq : Int) - 1
    · have hi2 : i + 1 < num_seq := by omega
      obtain ⟨buf2, hlen2, hr⟩ := ih (i + 1)
        { calls := st.calls
            ++ framesCalls sensor (ttrack i) sq0 (List.range sq0.vstrImageLeft.length)
            ++ main_checkpoint sensor sq0.seq ++ [.ChangeDataset],
          vTimesTrack := buf } (hrest _) (by simpa [hlen] using hbuf)
      refine ⟨buf2, by simpa [hlen] using hlen2, ?_⟩
      rw [if_pos hi, hr, hidx]
      simp [playedCalls, blockCalls, hi2]
    · have hi2 : ¬ i + 1 < num_seq := by omega
      obtain ⟨buf2, hlen2, hr⟩ := ih (i + 1)
        { calls := st.calls
            ++ framesCalls sensor (ttrack i) sq0 (List.range sq0.vstrImageLeft.length),
          vTimesTrack := buf } (hrest _) (by simpa [hlen] using hbuf)
      refine ⟨buf2, by simpa [hlen] using hlen2, ?_⟩
      rw [if_neg hi, hr, hidx]
      simp [playedCalls, blockCalls, hi2]

/-- Whatever can be read, the sequence loop never leaves the vectors: it ends
by falling through or by `return 1`, with the buffer at its length. -/
theorem main_sequences_safe (sensor : Sensor) (imread : List Char → Bool)
    (ttrack : Nat → Nat → ℚ) (num_seq : Int) :
    ∀ (seqs : List Sequence) (i : Nat) (st : Play),
      (∀ sq ∈ seqs, sq.aligned sensor = true ∧
        sq.vstrImageLeft.length ≤ st.vTimesTrack.length) →
      ∃ st2, st2.vTimesTrack.length = st.vTimesTrack.length ∧
        (main_sequences sensor imread ttrack num_seq i seqs st = .next st2 ∨
          main_sequences sensor imread ttrack num_seq i seqs st = .exit 1 st2) := by
  intro seqs
  induction seqs with
  | nil =>
    intro i st _
    exact ⟨st, rfl, Or.inl rfl⟩
  | cons sq rest ih =>
    intro i st h
    obtain ⟨hal, hbuf⟩ := h sq (by simp)
    obtain ⟨st1, hlen1, hfr⟩ := main_frames_safe sensor imread (ttrack i) sq hal
      (List.range sq.vstrImageLeft.length) st (fun ni hni => List.mem_range.mp hni) hbuf
    rw [main_sequences, Sequence.nImages_toNat]
    rcases hfr with hfr | hfr
    · simp only [hfr]
      have hrest : ∀ calls : List Call, ∀ sq2 ∈ rest, sq2.aligned sensor = true ∧
          sq2.vstrImageLeft.length ≤ (Play.mk calls st1.vTimesTrack).vTimesTrack.length := by
        intro calls sq2 h2
        obtain ⟨a, b⟩ := h sq2 (List.mem_cons_of_mem _ h2)
        exact ⟨a, by simpa [hlen1] using b⟩
      by_cases hi : (i : Int) < num_seq - 1
      · rw [if_pos hi]
        obtain ⟨st2, hlen2, hr⟩ := ih (i + 1)
          { st1 with calls := st1.calls ++ main_checkpoint sensor sq.seq ++ [.ChangeDataset] }
          (hrest _)
        exact ⟨st2, by simpa [hlen1] using hlen2, hr⟩
      · rw [if_neg hi]
        obtain ⟨st2, hlen2, hr⟩ := ih (i + 1) st1 (hrest st1.calls)
        exact ⟨st2, by simpa [hlen1] using hlen2, hr⟩
    · simp only [hfr]
      exact ⟨st1, hlen1, Or.inr rfl⟩

/-! ## Lemmas: the calls of a run -/

theorem mem_sleepCalls (sq : Sequence) (ttrack : ℚ) (ni : Nat) :
    ∀ c ∈ sleepCalls sq ttrack ni, c.isSleep = true := by
  intro c hc
  unfold sleepCalls at hc
  cases hT : main_T sq.vTimestampsCam sq.nImages ni with
  | none => simp [hT] at hc
  | some T =>
    cases hu : main_usleep T ttrack with
    | none => simp [hT, hu] at hc
    | some usec =>
      simp [hT, hu] at hc
      rw [hc]
      rfl

/-- The frames of a sequence make tracking calls and sleeps only. -/
theorem mem_framesCalls (sensor : Sensor) (ttrack : Nat → ℚ) (sq : Sequence) :
    ∀ (idx : List Nat), ∀ c ∈ framesCalls sensor ttrack sq idx,
      c.isTrack = true ∨ c.isSleep = true := by
  intro idx
  induction idx with
  | nil =>
    intro c hc
    simp [framesCalls] at hc
  | cons ni rest ih =>
    intro c hc
    simp only [framesCalls, frameCalls, List.cons_append, List.mem_cons, List.mem_append] at hc
    rcases hc with h | h | h
    · left
      rw [h]
      cases sensor <;> rfl
    · right
      exact mem_sleepCalls sq (ttrack ni) ni c h
    · exact ih c h

theorem framesCalls_count_ChangeDataset (sensor : Sensor) (ttrack : Nat → ℚ) (sq : Sequence)
    (idx : List Nat) : (framesCalls sensor ttrack sq idx).count .ChangeDataset = 0 := by
  rw [List.count_eq_zero]
  intro h
  rcases mem_framesCalls sensor ttrack sq idx _ h with h1 | h1 <;> cases h1

theorem framesCalls_filter_save (sensor : Sensor) (ttrack : Nat → ℚ) (sq : Sequence)
    (idx : List Nat) : (framesCalls sensor ttrack sq idx).filter Call.isTrajectorySave = [] := by
  rw [List.filter_eq_nil_iff]
  intro c hc hs
  rcases mem_framesCalls sensor ttrack sq idx c hc with h1 | h1 <;> cases c <;>
    simp_all [Call.isTrack, Call.isSleep, Call.isTrajectorySave]

theorem framesCalls_not_Shutdown (sensor : Sensor) (ttrack : Nat → ℚ) (sq : Sequence)
    (idx : List Nat) : Call.Shutdown ∉ framesCalls sensor ttrack sq idx := by
  intro h
  rcases mem_framesCalls sensor ttrack sq idx _ h with h1 | h1 <;> cases h1

theorem main_checkpoint_count_ChangeDataset (sensor : Sensor) (seq : List Char) :
    (main_checkpoint sensor seq).count .ChangeDataset = 0 := by
  cases sensor <;> simp [main_checkpoint, List.count_cons]

theorem main_checkpoint_filter_save (sensor : Sensor) (seq : List Char) :
    (main_checkpoint sensor seq).filter Call.isTrajectorySave = [checkpointSave sensor seq] := by
  cases sensor <;> simp [main_checkpoint, checkpointSave, Call.isTrajectorySave, List.filter]

theorem main_checkpoint_not_Shutdown (sensor : Sensor) (seq : List Char) :
    Call.Shutdown ∉ main_checkpoint sensor seq := by
  cases sensor <;> simp [main_checkpoint]

/-- Among the calls of the sequences `i .. num_seq - 1` played to their ends
there is one `ChangeDataset` per sequence but the last. -/
theorem playedCalls_count_ChangeDataset (sensor : Sensor) (ttrack : Nat → Nat → ℚ)
    (num_seq : Nat) :
    ∀ (seqs : List Sequence) (i : Nat), i + seqs.length = num_seq →
      (playedCalls sensor ttrack num_seq i seqs).count .ChangeDataset = seqs.length - 1 := by
  intro seqs
  induction seqs with
  | nil =>
    intro i _
    simp [playedCalls]
  | cons sq rest ih =>
    intro i h
    have h2 : i + 1 + rest.length = num_seq := by
      simp only [List.length_cons] at h
      omega
    simp only [playedCalls, blockCalls, List.count_append, framesCalls_count_ChangeDataset,
      ih (i + 1) h2, List.length_cons]
    by_cases hi : i + 1 < num_seq
    · rw [if_pos hi]
      simp only [List.count_append, main_checkpoint_count_ChangeDataset]
      simp
      omega
    · rw [if_neg hi]
      simp
      omega

/-- The trajectory files written while the sequences `i .. num_seq - 1` are
played are the checkpoints of all of them but the last, in order. -/
theorem playedCalls_filter_save (sensor : Sensor) (ttrack : Nat → Nat → ℚ) (num_seq : Nat) :
    ∀ (seqs : List Sequence) (i : Nat), i + seqs.length = num_seq →
      (playedCalls sensor ttrack num_seq i seqs).filter Call.isTrajectorySave
        = seqs.dropLast.map (fun sq => checkpointSave sensor sq.seq) := by
  intro seqs
  induction seqs with
  | nil =>
    intro i _
    simp [playedCalls]
  | cons sq rest ih =>
    intro i h
    have h2 : i + 1 + rest.length = num_seq := by
      simp only [List.length_cons] at h
      omega
    simp only [playedCalls, blockCalls, List.filter_append, framesCalls_filter_save,
      ih (i + 1) h2, List.nil_append]
    cases rest with
    | nil =>
      have hi : ¬ i + 1 < num_seq := by
        simp at h2
        omega
      rw [if_neg hi]
      simp
    | cons r rs =>
      have hi : i + 1 < num_seq := by
        simp only [List.length_cons] at h2
        omega
      rw [if_pos hi]
      simp only [List.filter_append, main_checkpoint_filter_save]
      simp [Call.isTrajectorySave, List.filter]

theorem playedCalls_not_Shutdown (sensor : Sensor) (ttrack : Nat → Nat → ℚ) (num_seq : Nat) :
    ∀ (seqs : List Sequence) (i : Nat),
      Call.Shutdown ∉ playedCalls sensor ttrack num_seq i seqs := by
  intro seqs
  induction seqs with
  | nil =>
    intro i
    simp [playedCalls]
  | cons sq rest ih =>
    intro i h
    simp only [playedCalls, blockCalls, List.mem_append] at h
    rcases h with (h | h) | h
    · exact framesCalls_not_Shutdown sensor (ttrack i) sq _ h
    · split_ifs at h
      · simp only [List.mem_append, List.mem_singleton] at h
        rcases h with h | h
        · exact main_checkpoint_not_Shutdown sensor sq.seq h
        · cases h
      · simp at h
    · exact ih (i + 1) h

theorem main_start_calls_facts (sensor : Sensor) (argv1 argv2 : List Char)
    (seqs : List Sequence) :
    (main_start sensor argv1 argv2 seqs).calls.count .ChangeDataset = 0 ∧
    (main_start sensor argv1 argv2 seqs).calls.filter Call.isTrajectorySave = [] ∧
    Call.Shutdown ∉ (main_start sensor argv1 argv2 seqs).calls ∧
    (main_start sensor argv1 argv2 seqs).vTimesTrack.length = tot_images seqs := by
  cases sensor <;>
    simp [main_start, List.count_cons, Call.isTrajectorySave, List.filter]

theorem main_final_count_ChangeDataset (sensor : Sensor) (args : Args) :
    (main_final sensor args).count .ChangeDataset = 0 := by
  cases sensor <;> cases hb : args.bFileName <;> simp [main_final, hb, List.count_cons]

/-- No sequence is longer than the buffer `vTimesTrack`. -/
theorem le_tot_images (seqs : List Sequence) :
    ∀ sq ∈ seqs, sq.vstrImageLeft.length ≤ tot_images seqs := by
  induction seqs with
  | nil =>
    intro sq h
    simp at h
  | cons s rest ih =>
    intro sq h
    simp only [tot_images, List.map_cons, List.sum_cons, Sequence.nImages_toNat]
    rcases List.mem_cons.mp h with h | h
    · rw [h]
      omega
    · have := ih sq h
      simp only [tot_images, Sequence.nImages_toNat] at this
      omega

/-- A run in which every image is read: exit code 0, the sequences played to
their ends, then `Shutdown` and the final saves. -/
theorem main_play_readable (sensor : Sensor) (imread : List Char → Bool)
    (ttrack : Nat → Nat → ℚ) (argv1 argv2 : List Char) (args : Args) (seqs : List Sequence)
    (hal : ∀ sq ∈ seqs, sq.aligned sensor = true)
    (hread : ∀ sq ∈ seqs, ∀ ni, ni < sq.vstrImageLeft.length →
      frameReadable sensor imread sq ni = true) :
    ∃ buf, buf.length = tot_images seqs ∧
      main_play sensor imread ttrack argv1 argv2 args seqs
        = some (0, { calls := (main_start sensor argv1 argv2 seqs).calls
                        ++ playedCalls sensor ttrack seqs.length 0 seqs
                        ++ [.Shutdown] ++ main_final sensor args,
                     vTimesTrack := buf }) := by
  have hlen0 := (main_start_calls_facts sensor argv1 argv2 seqs).2.2.2
  obtain ⟨buf, hlen, hrun⟩ := main_sequences_readable sensor imread ttrack seqs.length seqs 0
    (main_start sensor argv1 argv2 seqs)
    (fun sq h => ⟨hal sq h, by rw [hlen0]; exact le_tot_images seqs sq h, hread sq h⟩)
  refine ⟨buf, by rw [hlen, hlen0], ?_⟩
  unfold main_play
  simp only [hrun]

/-- A run whose first unreadable frame is frame `ni` of the sequence `sq`:
exit code 1, and the calls stop before that frame. -/
theorem main_play_unreadable (sensor : Sensor) (imread : List Char → Bool)
    (ttrack : Nat → Nat → ℚ) (argv1 argv2 : List Char) (args : Args)
    (before : List Sequence) (sq : Sequence) (after : List Sequence) (ni : Nat)
    (hal : ∀ s ∈ before ++ sq :: after, s.aligned sensor = true)
    (hbefore : ∀ s ∈ before, ∀ k, k < s.vstrImageLeft.length →
      frameReadable sensor imread s k = true)
    (hni : ni < sq.vstrImageLeft.length)
    (hframes : ∀ k, k < ni → frameReadable sensor imread sq k = true)
    (hread : frameReadable sensor imread sq ni = false) :
    ∃ buf, buf.length = tot_images (before ++ sq :: after) ∧
      main_play sensor imread ttrack argv1 argv2 args (before ++ sq :: after)
        = some (1, { calls := (main_start sensor argv1 argv2 (before ++ sq :: after)).calls
                        ++ playedCalls sensor ttrack (before ++ sq :: after).length 0 before
                        ++ framesCalls sensor (ttrack before.length) sq (List.range ni),
                     vTimesTrack := buf }) := by
  have hlen0 := (main_start_calls_facts sensor argv1 argv2 (before ++ sq :: after)).2.2.2
  have hsq : sq ∈ before ++ sq :: after := by simp
  obtain ⟨buf, hlen, hrun⟩ := main_sequences_unreadable sensor imread ttrack
    (before ++ sq :: after).length sq ni after (hal sq hsq) hni hframes hread before 0
    (main_start sensor argv1 argv2 (before ++ sq :: after))
    (fun s h => ⟨hal s (by simp [h]), by
      rw [hlen0]
      exact le_tot_images _ s (by simp [h]), hbefore s h⟩)
    (by rw [hlen0]; exact le_tot_images _ sq hsq)
  refine ⟨buf, by rw [hlen, hlen0], ?_⟩
  unfold main_play
  simp only [hrun, Nat.zero_add]

/-- Whatever can be read, a run over aligned sequences ends with exit code 0
or 1 and never accesses a vector out of bounds; the buffer keeps the length
`tot_images`. -/
theorem main_play_safe (sensor : Sensor) (imread : List Char → Bool)
    (ttrack : Nat → Nat → ℚ) (argv1 argv2 : List Char) (args : Args) (seqs : List Sequence)
    (hal : ∀ sq ∈ seqs, sq.aligned sensor = true) :
    ∃ code st, main_play sensor imread ttrack argv1 argv2 args seqs = some (code, st) ∧
      (code = 0 ∨ code = 1) ∧ st.vTimesTrack.length = tot_images seqs := by
  have hlen0 := (main_start_calls_facts sensor argv1 argv2 seqs).2.2.2
  obtain ⟨st2, hlen, hrun⟩ := main_sequences_safe sensor imread ttrack seqs.length seqs 0
    (main_start sensor argv1 argv2 seqs)
    (fun sq h => ⟨hal sq h, by rw [hlen0]; exact le_tot_images seqs sq h⟩)
  unfold main_play
  rcases hrun with hrun | hrun
  · simp only [hrun]
    exact ⟨0, _, rfl, Or.inl rfl, by rw [← hlen0, ← hlen]⟩
  · simp only [hrun]
    exact ⟨1, _, rfl, Or.inr rfl, by rw [← hlen0, ← hlen]⟩

/-! ## Properties: the orchestration of `main` -/

/-- C12. A run over `N` loaded sequences in which every image is read ends
with exit code 0 and makes, after the start-up calls, the calls of
`playedCalls`: for each sequence in turn its frames (tracking calls and
sleeps only) and then, unless it is the last, its checkpoint tagged with the
sequence name followed by `ChangeDataset`; then `Shutdown` and the final
saves. So there are exactly `N - 1` `ChangeDataset` calls and exactly `N - 1`
checkpoint trajectory files, those of the sequences `0 .. N - 2` in order,
and none after the last sequence. -/
theorem C12_orchestrator_trace (sensor : Sensor) (imread : List Char → Bool)
    (ttrack : Nat → Nat → ℚ) (argv1 argv2 : List Char) (args : Args) (seqs : List Sequence)
    (hal : ∀ sq ∈ seqs, sq.aligned sensor = true)
    (hread : ∀ sq ∈ seqs, ∀ ni, ni < sq.vstrImageLeft.length →
      frameReadable sensor imread sq ni = true) :
    (∃ buf, main_play sensor imread ttrack argv1 argv2 args seqs
        = some (0,
            { calls := (main_start sensor argv1 argv2 seqs).calls
                ++ playedCalls sensor ttrack seqs.length 0 seqs
                ++ [Call.Shutdown] ++ main_final sensor args,
              vTimesTrack := buf })) ∧
    ((main_start sensor argv1 argv2 seqs).calls
        ++ playedCalls sensor ttrack seqs.length 0 seqs
        ++ [Call.Shutdown] ++ main_final sensor args).count Call.ChangeDataset = seqs.length - 1 ∧
    ((main_start sensor argv1 argv2 seqs).calls
        ++ playedCalls sensor ttrack seqs.length 0 seqs).filter Call.isTrajectorySave
      = seqs.dropLast.map (fun sq => checkpointSave sensor sq.seq) ∧
    (seqs.dropLast.map (fun sq => checkpointSave sensor sq.seq)).length = seqs.length - 1 ∧
    (∀ (i : Nat) (sq : Sequence) (idx : List Nat),
      ∀ c ∈ framesCalls sensor (ttrack i) sq idx, c.isTrack = true ∨ c.isSleep = true) := by
  obtain ⟨buf, _, hrun⟩ := main_play_readable sensor imread ttrack argv1 argv2 args seqs hal
    hread
  obtain ⟨hs1, hs2, _, _⟩ := main_start_calls_facts sensor argv1 argv2 seqs
  refine ⟨⟨buf, hrun⟩, ?_, ?_, ?_, ?_⟩
  · simp only [List.count_append, hs1, main_final_count_ChangeDataset,
      playedCalls_count_ChangeDataset sensor ttrack seqs.length seqs 0 (by omega)]
    simp [List.count_cons]
  · rw [List.filter_append, hs2,
      playedCalls_filter_save sensor ttrack seqs.length seqs 0 (by omega)]
    rfl
  · simp
  · intro i sq idx
    exact mem_framesCalls sensor (ttrack i) sq idx

/-- Witness of C12: three sequences give exactly two checkpoints, after the
sequences `0` and `1`, and two `ChangeDataset` calls. -/
theorem C12_orchestrator_trace_witness :
    main_play .MONOCULAR (fun _ => true) (fun _ _ => 1) "voc".toList "set".toList noTag
        threeSequences
      = some (0,
          { calls := [.SLAM "voc".toList "set".toList .MONOCULAR, .GetImageScale,
              .TrackMonocular "cam0/0/0.jpg".toList 0,
              .SaveTrajectoryEuRoC "./SubMaps/CODa/f_SubMap_0.txt".toList,
              .SaveKeyFrameTrajectoryEuRoC "./SubMaps/CODa/kf_SubMap_0.txt".toList,
              .ChangeDataset,
              .TrackMonocular "cam0/1/0.jpg".toList 0,
              .SaveTrajectoryEuRoC "./SubMaps/CODa/f_SubMap_1.txt".toList,
              .SaveKeyFrameTrajectoryEuRoC "./SubMaps/CODa/kf_SubMap_1.txt".toList,
              .ChangeDataset,
              .TrackMonocular "cam0/2/0.jpg".toList 0,
              .Shutdown,
              .SaveTrajectoryEuRoC "CameraTrajectory.txt".toList,
              .SaveKeyFrameTrajectoryEuRoC "KeyFrameTrajectory.txt".toList],
            vTimesTrack := [1, 0, 0] }) ∧
    ((main_start .MONOCULAR "voc".toList "set".toList threeSequences).calls
        ++ playedCalls .MONOCULAR (fun _ _ => 1) threeSequences.length 0 threeSequences
        ++ [Call.Shutdown] ++ main_final .MONOCULAR noTag).count Call.ChangeDataset = 3 - 1 ∧
    ((main_start .MONOCULAR "voc".toList "set".toList threeSequences).calls
        ++ playedCalls .MONOCULAR (fun _ _ => 1) threeSequences.length 0
            threeSequences).filter Call.isTrajectorySave
      = threeSequences.dropLast.map (fun sq => checkpointSave .MONOCULAR sq.seq) ∧
    (threeSequences.dropLast.map (fun sq => checkpointSave .MONOCULAR sq.seq)).length
      = 3 - 1 :=
  have h := C12_orchestrator_trace .MONOCULAR (fun _ => true) (fun _ _ => 1) "voc".toList
    "set".toList noTag threeSequences (by decide) (by decide)
  ⟨by rfl, h.2.1, h.2.2.1, h.2.2.2.1⟩

/-- C13. For loaded sequences, a run in which every image is read ends with
exit code 0; and if frame `ni` of the sequence `sq` is the first frame with
an image that cannot be read, the run ends with exit code 1 having made only
the start-up calls, the calls of the sequences before `sq` and the calls of
the frames of `sq` before `ni`: no tracking call for frame `ni` or later, no
later checkpoint or `ChangeDataset`, no `Shutdown` and no final save. -/
theorem C13_unreadable_image_is_fatal (sensor : Sensor) (imread : List Char → Bool)
    (ttrack : Nat → Nat → ℚ) (argv1 argv2 : List Char) (args : Args) (seqs : List Sequence)
    (hal : ∀ sq ∈ seqs, sq.aligned sensor = true) :
    ((∀ sq ∈ seqs, ∀ ni, ni < sq.vstrImageLeft.length →
        frameReadable sensor imread sq ni = true) →
      ∃ st, main_play sensor imread ttrack argv1 argv2 args seqs = some (0, st)) ∧
    (∀ (before : List Sequence) (sq : Sequence) (after : List Sequence) (ni : Nat),
      seqs = before ++ sq :: after →
      (∀ s ∈ before, ∀ k, k < s.vstrImageLeft.length →
        frameReadable sensor imread s k = true) →
      ni < sq.vstrImageLeft.length →
      (∀ k, k < ni → frameReadable sensor imread sq k = true) →
      frameReadable sensor imread sq ni = false →
      (∃ buf, main_play sensor imread ttrack argv1 argv2 args seqs
          = some (1,
              { calls := (main_start sensor argv1 argv2 seqs).calls
                  ++ playedCalls sensor ttrack seqs.length 0 before
                  ++ framesCalls sensor (ttrack before.length) sq (List.range ni),
                vTimesTrack := buf })) ∧
        Call.Shutdown ∉ (main_start sensor argv1 argv2 seqs).calls
          ++ playedCalls sensor ttrack seqs.length 0 before
          ++ framesCalls sensor (ttrack before.length) sq (List.range ni)) := by
  constructor
  · intro hread
    obtain ⟨buf, _, hrun⟩ := main_play_readable sensor imread ttrack argv1 argv2 args seqs hal
      hread
    exact ⟨_, hrun⟩
  · intro before sq after ni hseqs hbefore hni hframes hread
    subst hseqs
    obtain ⟨buf, _, hrun⟩ := main_play_unreadable sensor imread ttrack argv1 argv2 args before
      sq after ni hal hbefore hni hframes hread
    refine ⟨⟨buf, hrun⟩, ?_⟩
    intro h
    simp only [List.mem_append] at h
    rcases h with (h | h) | h
    · exact (main_start_calls_facts sensor argv1 argv2 _).2.2.1 h
    · exact playedCalls_not_Shutdown sensor ttrack _ before 0 h
    · exact framesCalls_not_Shutdown sensor (ttrack before.length) sq _ h

/-- Witness of C13: in a stereo run of three sequences whose right image of
sequence `1` cannot be read, the run ends with exit code 1 after the
checkpoint of sequence `0`; with every image readable it ends with 0. -/
theorem C13_unreadable_image_is_fatal_witness :
    main_play .STEREO (fun f => f != "cam1/1/0.jpg".toList) (fun _ _ => 1) "voc".toList
        "set".toList noTag threeSequences
      = some (1,
          { calls := [.SLAM "voc".toList "set".toList .STEREO,
              .TrackStereo "cam0/0/0.jpg".toList "cam1/0/0.jpg".toList 0 "cam0/0/0.jpg".toList,
              .SaveTrajectoryCODa "./SubMaps/CODa/f_SubMap_0.txt".toList,
              .ChangeDataset],
            vTimesTrack := [1, 0, 0] }) ∧
    (∀ sq ∈ threeSequences, sq.aligned .STEREO = true) ∧
    ∃ st, main_play .STEREO (fun _ => true) (fun _ _ => 1) "voc".toList "set".toList noTag
        threeSequences = some (0, st) :=
  ⟨by rfl, by decide,
    (C13_unreadable_image_is_fatal .STEREO (fun _ => true) (fun _ _ => 1) "voc".toList
      "set".toList noTag threeSequences (by decide)).1 (by decide)⟩

/-- C20. The buffer `vTimesTrack` is created with `tot_images` entries, the
sum of the frame counts of all sequences; every frame index `ni <
nImages[i]` of every sequence is below that length; and a run over loaded
sequences never writes (or reads) a vector out of bounds, the buffer keeping
its length to the end. -/
theorem C20_vTimesTrack_index_safe (sensor : Sensor) (imread : List Char → Bool)
    (ttrack : Nat → Nat → ℚ) (argv1 argv2 : List Char) (args : Args) (seqs : List Sequence)
    (hal : ∀ sq ∈ seqs, sq.aligned sensor = true) :
    (main_start sensor argv1 argv2 seqs).vTimesTrack.length = tot_images seqs ∧
    tot_images seqs = (seqs.map (fun sq => sq.vstrImageLeft.length)).sum ∧
    (∀ sq ∈ seqs, ∀ ni : Nat, (ni : Int) < sq.nImages → ni < tot_images seqs) ∧
    ∃ code st, main_play sensor imread ttrack argv1 argv2 args seqs = some (code, st) ∧
      st.vTimesTrack.length = tot_images seqs := by
  refine ⟨(main_start_calls_facts sensor argv1 argv2 seqs).2.2.2, ?_, ?_, ?_⟩
  · simp [tot_images, Sequence.nImages]
  · intro sq hsq ni hni
    have h1 := le_tot_images seqs sq hsq
    have h2 : ni < sq.vstrImageLeft.length := by
      simp only [Sequence.nImages] at hni
      omega
    omega
  · obtain ⟨code, st, hrun, _, hlen⟩ := main_play_safe sensor imread ttrack argv1 argv2 args
      seqs hal
    exact ⟨code, st, hrun, hlen⟩

/-- Witness of C20 on three sequences of one frame each: the buffer has
three entries and the run writes index 0 only. -/
theorem C20_vTimesTrack_index_safe_witness :
    (∀ sq ∈ threeSequences, sq.aligned .MONOCULAR = true) ∧
    tot_images threeSequences = 3 ∧
    (main_start .MONOCULAR "voc".toList "set".toList threeSequences).vTimesTrack.length
      = tot_images threeSequences ∧
    ∃ code st, main_play .MONOCULAR (fun _ => true) (fun _ _ => 1) "voc".toList "set".toList
        noTag threeSequences = some (code, st) ∧
      st.vTimesTrack.length = tot_images threeSequences :=
  have h := C20_vTimesTrack_index_safe .MONOCULAR (fun _ => true) (fun _ _ => 1) "voc".toList
    "set".toList noTag threeSequences (by decide)
  ⟨by decide, by decide, h.1, h.2.2.2⟩

/-! ## Lemmas: what `LoadImages` hands to the playback -/

/-- The mono `LoadImages`, called on empty vectors as `main` does, returns as
many timestamps as image references. -/
theorem Mono.LoadImages_aligned (stod : List Char → Except String ℚ)
    (fs : List Char → Option (List Char)) (fuel : Nat) (d p seq : List Char)
    (imgs : List (List Char)) (ts : List ℚ)
    (h : Mono.LoadImages stod fs fuel d p [] [] = some (.ok (imgs, ts))) :
    Sequence.aligned .MONOCULAR
      { seq := seq, vstrImageLeft := imgs, vstrImageRight := [], vTimestampsCam := ts }
      = true := by
  unfold Mono.LoadImages at h
  cases hp : GetFilePrefix fuel d with
  | none =>
    rw [hp] at h
    simp at h
  | some pfx =>
    rw [hp] at h
    obtain ⟨n, h1, h2⟩ := Mono.LoadImages.loop_appends stod d pfx fuel _ 0 [] [] imgs ts h
    simp [Sequence.aligned, h1, h2]

/-- The stereo `LoadImages`, called on empty vectors as `main` does, returns
as many timestamps and as many right references as left references. -/
theorem Stereo.LoadImages_stereo_aligned (stod : List Char → Except String ℚ)
    (fs : List Char → Option (List Char)) (fuel : Nat) (l r p seq : List Char)
    (left right : List (List Char)) (ts : List ℚ)
    (h : Stereo.LoadImages stod fs fuel l r p [] [] [] = some (.ok (left, right, ts))) :
    Sequence.aligned .STEREO
      { seq := seq, vstrImageLeft := left, vstrImageRight := right, vTimestampsCam := ts }
      = true := by
  unfold Stereo.LoadImages at h
  cases hpl : GetFilePrefix fuel l with
  | none =>
    rw [hpl] at h
    simp at h
  | some pl =>
    cases hpr : GetFilePrefix fuel r with
    | none =>
      rw [hpl, hpr] at h
      simp at h
    | some pr =>
      rw [hpl, hpr] at h
      obtain ⟨n, h1, h2, h3⟩ := Stereo.LoadImages.stereo_loop_appends stod l r pl pr _ fuel _ 0
        [] [] [] left right ts h
      simp [Sequence.aligned, h1, h2, h3]

end ORB_SLAM3
